import Mathlib

/-!
# Uncritical-Fabulation: layout engine and viewport renderer

A shallow embedding of the layout code of the repository
(`src/js/layout/branched.js`, `src/js/layout/linear.js`, `src/js/layout/dagre.js`)
and of the renderer and driver in `src/js/viz.js`, followed by theorems about it.

Conventions of the embedding

* Finite JavaScript numbers are rationals (`ℚ`) and arithmetic on them is exact: the
  rounding of doubles is not modelled, so a statement below that compares computed
  coordinates is about the algorithm in exact arithmetic.  A value that may also be `NaN`,
  `Infinity` or `-Infinity` (what a sizing callback returns, a setting read from a
  settings object, a link probability) is a `JSNum`.
* `undefined` / `null` / a missing property is `none` of an `Option`.
* Module-level mutable arrays (`placedNodes`, `placedLinks`) are passed in and returned.
* External primitives (`d3.tree`, `dagre.layout`, `Math.tan`) are parameters.
* A thrown exception is `Except.error`.
-/

namespace UncriticalFabulation

/-! ## JavaScript values -/

/-- A JavaScript number: a finite value, `NaN`, `Infinity` or `-Infinity`. -/
inductive JSNum where
  | fin (q : ℚ)
  | nan
  | posInf
  | negInf
deriving DecidableEq, Repr

/-- A node id as it arrives in the JSON input: a string, a number, or absent. -/
inductive JId where
  | str (s : String)
  | num (n : Int)
  | absent
deriving DecidableEq, Repr

/-- `String(id)`. -/
def JId.toStr : JId → String
  | .str s => s
  | .num n => toString n
  | .absent => "undefined"

/-- JavaScript truthiness of an id (`""`, `0` and `undefined` are falsy). -/
def JId.truthy : JId → Bool
  | .str s => s != ""
  | .num n => n != 0
  | .absent => false

/-- `v || d` for an optional finite number: `undefined`, `null` and `0` give `d`. -/
def jsOr (v : Option ℚ) (d : ℚ) : ℚ :=
  match v with
  | some q => if q = 0 then d else q
  | none => d

/-- One entry of `theoretical_edges`: a predicted continuation. -/
structure TheoEdge where
  token : String
  avg_prob : Option ℚ := none
deriving DecidableEq, Repr

/-- The data fields of a node that the layout code reads.  `emp_children` is the
empirical-children table (token ↦ count, a natural number), in key order;
`model_children` is the model-children table (token ↦ `avg_prob`), in key order. -/
structure NodeData where
  id : JId := .absent
  token : Option String := none
  path : Option (List String) := none
  position : Option Int := none
  isGhost : Bool := false
  is_root : Bool := false
  is_prefix : Bool := false
  theoretical_edges : Option (List TheoEdge) := none
  emp_children : Option (List (String × Nat)) := none
  model_prob_here : Option ℚ := none
  emp_freq_here : Option ℚ := none
  emp_count_here : Option ℚ := none
  emp_parent_total : Option ℚ := none
  model_children : Option (List (String × Option ℚ)) := none
  synthetic : Bool := false
deriving DecidableEq, Repr

/-- An edge of a GRAPH_V1 input. -/
structure Edge where
  source : JId
  target : JId
  kind : Option String := none
  prob : Option ℚ := none
  weight : Option ℚ := none
deriving DecidableEq, Repr

/-- A GRAPH_V1 input `{ nodes, edges, anchor_root_id? }`; `none` for `nodes` or `edges`
stands for a property that is missing or not an array. -/
structure GraphV1 where
  nodes : Option (List NodeData) := none
  edges : Option (List Edge) := none
  anchor_root_id : JId := .absent
deriving Repr

/-- The settings object `S`. A numeric key that is unset is `none` (`JSNum.nan` for the
keys that are read through `+x`, `isFinite` or `Number.isFinite`). -/
structure Settings where
  LAYOUT : String := "branched"
  GAP_X : Option ℚ := some 400
  ALT_GAP : Option ℚ := some 45
  TOKEN_FPX : Option ℚ := some 16
  PAD_T : Option ℚ := some 10
  PAD_B : Option ℚ := some 10
  ANG_MAX_DEG : JSNum := .fin 60
  BRANCHED_GAP_MAX : JSNum := .nan
  RANK_SEP : Option ℚ := some 200
  NODE_SEP : Option ℚ := some 45
  SHOW_PREDICTED_PATHS : Option Bool := none
  MAIN_METRIC : String := "emp"
  PACKING_METRIC : String := "emp"
deriving Repr

/-- A placed node `{x, y, w, h, data, depth, key}`; `data` is `none` when the laid-out
object has no `data` property. -/
structure PlacedNode where
  x : ℚ
  y : ℚ
  w : ℚ
  h : ℚ
  data : Option NodeData
  depth : Int
  key : String
deriving DecidableEq, Repr

/-- A placed link `{sx, sy, tx, ty, ghost, p, skey, tkey}`; the two keys are absent on
links emitted by the plain-tree rank-based path.  The probability `p` can be `NaN` (the
rank-based conversion divides what it reads from the empirical-children table). -/
structure PlacedLink where
  sx : ℚ
  sy : ℚ
  tx : ℚ
  ty : ℚ
  ghost : Bool
  p : JSNum
  skey : Option String
  tkey : Option String
deriving DecidableEq, Repr

/-- The bounding box `{minX, maxX, minY, maxY, pad, width, height}`. -/
structure BBox where
  minX : ℚ
  maxX : ℚ
  minY : ℚ
  maxY : ℚ
  pad : ℚ
  width : ℚ
  height : ℚ
deriving DecidableEq, Repr

/-! ## Size clamp (`_clampDim`, identical in the three layout files) -/

/-- `_clampDim(v)`: `(Number.isFinite(v) && v > 0) ? Math.max(8, v) : 24`
(in `dagre.js`: `if (!isFinite(v) || v <= 0) return 24; return Math.max(8, v)`).
Both branches yield a finite number, so the result is a rational. -/
def _clampDim : JSNum → ℚ
  | .fin v => if 0 < v then max 8 v else 24
  | _ => 24

/-- `Math.tan((deg * Math.PI) / 180)` for `deg = +S.ANG_MAX_DEG || 0`, given the tangent
of a finite number of degrees as `tanDeg` (the tangent of a finite double is finite).
`NaN` becomes `0` degrees through `|| 0`; an infinite angle has tangent `NaN` (`none`). -/
def tanMaxOf (tanDeg : ℚ → ℚ) : JSNum → Option ℚ
  | .fin d => some (tanDeg d)
  | .nan => some (tanDeg 0)
  | _ => none

/-- `Number.isFinite(TAN_MAX) && TAN_MAX > 0`. -/
def enforceAnglesOf : Option ℚ → Bool
  | some t => decide (0 < t)
  | none => false

/-! ## JavaScript `Map` as an association list in insertion order -/

/-- `m.get(k)`. -/
def mapGet {κ α : Type} [DecidableEq κ] (m : List (κ × α)) (k : κ) : Option α :=
  (m.find? (fun e => decide (e.1 = k))).map (fun e => e.2)

/-- `m.set(k, v)`: replaces the value of an existing key in place, else appends. -/
def mapSet {κ α : Type} [DecidableEq κ] : List (κ × α) → κ → α → List (κ × α)
  | [], k, v => [(k, v)]
  | e :: m, k, v => if e.1 = k then (k, v) :: m else e :: mapSet m k v

/-- `Math.max(...vs)` of a non-empty list of finite numbers (and `0` for the list `[0]`
that the code substitutes for an empty one). -/
def maxOfList : List ℚ → ℚ
  | [] => 0
  | v :: vs => vs.foldl max v

/-! ## Trees: nested input data and `d3.hierarchy` nodes -/

/-- A nested tree node: its data fields and its inline `children`. -/
inductive Nested where
  | mk (data : NodeData) (children : List Nested)
deriving Repr

/-- The fields of a node of the laid-out tree.  `wrapped` is true for a node made by
`d3.hierarchy` (it has `data`, `depth` and, below the root, `parent`); it is false for the
raw objects that `_injectGhostsIntoTree` pushes into `children`: those have no `data`, no
`depth` and no `parent`, and their own fields are kept in `data` here.  `x`, `y` are the
coordinates written by `d3.tree`, `_w`, `_h` the measured sizes. -/
structure HInfo where
  data : NodeData
  wrapped : Bool := true
  depth : Nat := 0
  x : ℚ := 0
  y : ℚ := 0
  _w : ℚ := 0
  _h : ℚ := 0
deriving Repr

/-- A node of the laid-out tree with its children. -/
inductive HNode where
  | mk (info : HInfo) (children : List HNode)
deriving Repr

/-- The fields of a tree node. -/
def HNode.info : HNode → HInfo
  | .mk i _ => i

/-- The children of a tree node. -/
def HNode.children : HNode → List HNode
  | .mk _ cs => cs

/-- `n.data` (optional chaining `n?.data`): undefined on a raw object. -/
def HInfo.dataOpt (i : HInfo) : Option NodeData :=
  if i.wrapped then some i.data else none

/-- `n.y || 0`.  `d3.tree` with `nodeSize` sets `y = depth * dy`, which is `NaN` on a raw
object (it has no `depth`), and `NaN + delta` stays `NaN`; so a raw object reads as `0`. -/
def HInfo.yRead (i : HInfo) : ℚ :=
  if i.wrapped then i.y else 0

/-- `n.depth || 0`. -/
def HInfo.depthRead (i : HInfo) : Nat :=
  if i.wrapped then i.depth else 0

mutual
/-- `d3.hierarchy(data, d => d.children || [])` below depth `depth`. -/
def hierarchyAt (depth : Nat) : Nested → HNode
  | .mk d cs => .mk { data := d, depth := depth } (hierarchyListAt (depth + 1) cs)
/-- The children of `hierarchyAt`. -/
def hierarchyListAt (depth : Nat) : List Nested → List HNode
  | [] => []
  | c :: cs => hierarchyAt depth c :: hierarchyListAt depth cs
end

/-- `d3.hierarchy(data, d => d.children || [])`. -/
def hierarchy (t : Nested) : HNode := hierarchyAt 0 t

/-- Levels of two forests merged position by position. -/
def zipAppend {α : Type} : List (List α) → List (List α) → List (List α)
  | [], ys => ys
  | xs, [] => xs
  | x :: xs, y :: ys => (x ++ y) :: zipAppend xs ys

mutual
/-- The nodes below and including a node, level by level, each paired with its `parent`
(absent for the root and for raw objects, which have no `parent` property). -/
def levels (parent : Option HNode) : HNode → List (List (Option HNode × HNode))
  | .mk i cs => [(parent, .mk i cs)] :: levelsList (.mk i cs) cs
/-- The levels of a list of children of the node `pn`. -/
def levelsList (pn : HNode) : List HNode → List (List (Option HNode × HNode))
  | [] => []
  | c :: cs =>
    zipAppend (levels (if c.info.wrapped then some pn else none) c) (levelsList pn cs)
end

/-- `root.each(callback)`: the nodes in breadth-first order, as `d3-hierarchy` visits
them, each with its `parent`. -/
def each (t : HNode) : List (Option HNode × HNode) := (levels none t).flatten

/-- The ghost object built from a predicted continuation by the three layout-side
injectors: `position = (pos ?? -1) + 1`, `path = [...path, token]`, model probability
only. -/
def mkGhost (pos : Option Int) (path : List String) (e : TheoEdge) : NodeData :=
  { token := some e.token
    model_prob_here := e.avg_prob
    emp_parent_total := some 0
    emp_count_here := some 0
    emp_freq_here := none
    isGhost := true
    position := some (pos.getD (-1) + 1)
    path := some (path ++ [e.token]) }

/-! ## Branched layout (`src/js/layout/branched.js`) -/

mutual
/-- `_injectGhostsIntoTree(node)`: children first, then up to three raw ghost objects are
pushed for a node whose `data.theoretical_edges` is a non-empty array. -/
def _injectGhostsIntoTree : HNode → HNode
  | .mk i cs =>
    let cs1 := _injectGhostsIntoTreeList cs
    match i.dataOpt with
    | some d =>
      match d.theoretical_edges with
      | some (e :: es) =>
        .mk i (cs1 ++ ((e :: es).take 3).map (fun g =>
          HNode.mk { data := mkGhost d.position (d.path.getD []) g, wrapped := false } []))
      | _ => .mk i cs1
    | none => .mk i cs1
/-- `node.children.forEach(_injectGhostsIntoTree)`. -/
def _injectGhostsIntoTreeList : List HNode → List HNode
  | [] => []
  | c :: cs => _injectGhostsIntoTree c :: _injectGhostsIntoTreeList cs
end

mutual
/-- Write the coordinates computed by `d3.tree` (`pos`, indexed by the path of child
indices from the root) into the nodes. -/
def applyPos (pos : List Nat → ℚ × ℚ) (path : List Nat) : HNode → HNode
  | .mk i cs => .mk { i with x := (pos path).1, y := (pos path).2 } (applyPosList pos path 0 cs)
/-- `applyPos` on the children, from child index `k`. -/
def applyPosList (pos : List Nat → ℚ × ℚ) (path : List Nat) (k : Nat) : List HNode → List HNode
  | [] => []
  | c :: cs => applyPos pos (path ++ [k]) c :: applyPosList pos path (k + 1) cs
end

mutual
/-- The size pass `n._w = _clampDim(+nodeW(n)); n._h = _clampDim(+nodeH(n))`. -/
def measure (nodeW nodeH : HNode → JSNum) : HNode → HNode
  | .mk i cs =>
    .mk { i with _w := _clampDim (nodeW (.mk i cs)), _h := _clampDim (nodeH (.mk i cs)) }
      (measureList nodeW nodeH cs)
/-- The size pass on the children. -/
def measureList (nodeW nodeH : HNode → JSNum) : List HNode → List HNode
  | [] => []
  | c :: cs => measure nodeW nodeH c :: measureList nodeW nodeH cs
end

/-- The deficit of one parent→child edge in the angle pass: with `sx = (p.y||0) + (p._w||0)`,
`sy = p.x||0`, `tx = n.y||0`, `ty = n.x||0`, `dx = tx - sx`, `minDx = |ty - sy| / TAN_MAX`,
the shift `minDx - dx` when `dx < minDx` and it is positive, else `0` (no shift). Here
`ny` is the current value of `n.y || 0`.  The quotient and the differences are exact here;
the source rounds each of them to a double. -/
def angleShift (tanMax : ℚ) (p : HInfo) (nx ny : ℚ) : ℚ :=
  let sx := p.yRead + p._w
  let sy := p.x
  let dx := ny - sx
  let minDx := |nx - sy| / tanMax
  if dx < minDx then (if 0 < minDx - dx then minDx - dx else 0) else 0

mutual
/-- The angle pass `troot.eachBefore(...)` below a node, parent first.  `shiftSubtree(n, s)`
adds `s` to `n.y` and to the `y` of every descendant, and a node is visited after all its
ancestors; `acc` is the sum of the shifts already applied to the node through its
ancestors, so its current `y` is `i.y + acc`.  `parent` is absent for the root and for
raw objects (`if (!n.parent) return`). -/
def anglePass (tanMax : ℚ) (acc : ℚ) (parent : Option HInfo) : HNode → HNode
  | .mk i cs =>
    let cur : HInfo := { i with y := i.y + acc }
    let s : ℚ := match parent with
      | some p => angleShift tanMax p cur.x cur.yRead
      | none => 0
    let fin : HInfo := { cur with y := cur.y + s }
    .mk fin (anglePassList tanMax (acc + s) fin cs)
/-- The angle pass on the children of a node whose final fields are `p`. -/
def anglePassList (tanMax : ℚ) (acc : ℚ) (p : HInfo) : List HNode → List HNode
  | [] => []
  | c :: cs =>
    anglePass tanMax acc (if c.info.wrapped then some p else none) c
      :: anglePassList tanMax acc p cs
end

/-- The key used when no key function is passed:
`Array.isArray(p) ? p.join('␟') : String(n?.data?.token ?? '') + ':' + (n?.depth ?? 0)`. -/
def defaultKey (n : HNode) : String :=
  match n.info.dataOpt.bind (fun d => d.path) with
  | some p => String.intercalate "␟" p
  | none =>
    ((n.info.dataOpt.bind (fun d => d.token)).getD "") ++ ":" ++ toString n.info.depthRead

/-- The probability stored on a tree link:
`data?.isGhost ? (data?.model_prob_here ?? 0) : (data?.emp_freq_here ?? 0)`. -/
def linkProb (d : Option NodeData) : ℚ :=
  match d with
  | some d => if d.isGhost then d.model_prob_here.getD 0 else d.emp_freq_here.getD 0
  | none => 0

/-- `!!data?.isGhost`. -/
def linkGhost (d : Option NodeData) : Bool :=
  match d with
  | some d => d.isGhost
  | none => false

/-- The placed node pushed for a laid-out tree node in `layoutBranched`. -/
def emitNode (getKey : HNode → String) (n : HNode) : PlacedNode :=
  { x := n.info.x, y := n.info.yRead, w := n.info._w, h := n.info._h
    data := n.info.dataOpt, depth := n.info.depthRead, key := getKey n }

/-- The placed link pushed for a node `n` with parent fields `p` (the parent node itself
is `pn`, needed for its key). -/
def emitLink (getKey : HNode → String) (pn : HNode) (n : HNode) : PlacedLink :=
  { sx := pn.info.yRead + pn.info._w, sy := pn.info.x
    tx := n.info.yRead, ty := n.info.x
    ghost := linkGhost n.info.dataOpt
    p := .fin (linkProb n.info.dataOpt)
    skey := some (getKey pn), tkey := some (getKey n) }

/-- The two module-level arrays `placedNodes` and `placedLinks`. -/
structure Placed where
  nodes : List PlacedNode := []
  links : List PlacedLink := []
deriving DecidableEq, Repr

/-- Whether the tree holds a raw object, one that `d3.hierarchy` did not make. -/
def hasRaw (t : HNode) : Bool := (each t).any (fun e => !e.2.info.wrapped)

/-- Steps 1 to 7 of `layoutBranched`, on the tree `mat` after ghost injection: measure,
lay out with `d3.tree`, widen the column gap, measure, enforce the angle bound, emit.
The result is what the two arrays hold after step 7. -/
def layoutBranchedSteps (tidy : ℚ → ℚ → HNode → List Nat → ℚ × ℚ) (tanDeg : ℚ → ℚ)
    (S : Settings) (nodeW nodeH : HNode → JSNum)
    (keyFn : Option (HNode → String)) (mat : HNode) : Placed :=
  let getKey : HNode → String := keyFn.getD defaultKey
  -- 1) measure widths and make a provisional compact layout
  let maxWidthByDepth : List (Nat × ℚ) :=
    (each mat).foldl (fun m e =>
      mapSet m e.2.info.depthRead
        (max ((mapGet m e.2.info.depthRead).getD 0) (_clampDim (nodeW e.2)))) []
  let wMax : ℚ := maxOfList (maxWidthByDepth.map (fun e => e.2))
  let vSpacing : ℚ := jsOr S.ALT_GAP 0 + jsOr S.TOKEN_FPX 0 + jsOr S.PAD_T 0 + jsOr S.PAD_B 0
  let gap0 : ℚ := max (jsOr S.GAP_X 240) (wMax + 24)
  let troot0 : HNode := applyPos (tidy vSpacing gap0 mat) [] mat
  -- 2) worst vertical distance between any parent and child
  let worstDy : ℚ :=
    (each troot0).foldl (fun w e =>
      match e.1 with
      | some pn => max w |e.2.info.x - pn.info.x|
      | none => w) 0
  -- 3) inflate the horizontal gap
  let TAN_MAX : Option ℚ := tanMaxOf tanDeg S.ANG_MAX_DEG
  let troot1 : HNode :=
    match TAN_MAX with
    | some t =>
      if 0 < t then
        let desiredGap : ℚ := wMax + worstDy / t + 24
        let gap1 : ℚ := max gap0 desiredGap
        let gap2 : ℚ := match S.BRANCHED_GAP_MAX with
          | .fin cap => min gap1 cap
          | _ => gap1
        applyPos (tidy vSpacing gap2 troot0) [] troot0
      else troot0
    | none => troot0
  -- 5) node sizes
  let troot2 : HNode := measure nodeW nodeH troot1
  -- 6) enforce the edge-angle constraint by shifting subtrees
  let troot3 : HNode :=
    match TAN_MAX with
    | some t => if 0 < t then anglePass t 0 none troot2 else troot2
    | none => troot2
  -- 7) emit placed nodes / links
  { nodes := (each troot3).map (fun e => emitNode getKey e.2)
    links := (each troot3).filterMap (fun e => e.1.map (fun pn => emitLink getKey pn e.2)) }

/-- `layoutBranched(mat, { S, placedNodes, placedLinks, nodeW, nodeH, key }, d3)`.

* `tidy dx dy t` is `d3.tree().nodeSize([dx, dy])(t)`: the coordinates it assigns, by path
  of child indices;
* `tanDeg d` is `Math.tan((d * Math.PI) / 180)`;
* `showPredictedPaths` is `window.APP_CONFIG?.SHOW_PREDICTED_PATHS !== false`;
* `nodeW n`, `nodeH n` are `+nodeW(n)`, `+nodeH(n)`;
* `keyFn` is the `key` option when it is a function.

Returns the two arrays as they are on return (`st` when `mat` is null).  The tidy-tree
primitive can only lay out nodes made by `d3.hierarchy`: on a tree that holds a raw object
(one pushed by `_injectGhostsIntoTree`, with `children: []` and no `data`) it throws a
`TypeError` (its first walk reads `children[0].z` of the empty array; the sizing callback
of `viz.js`, called just before, already fails on the missing `data`).  The exception
leaves the function before the arrays are touched; it is `Except.error` here. -/
def layoutBranched (tidy : ℚ → ℚ → HNode → List Nat → ℚ × ℚ) (tanDeg : ℚ → ℚ)
    (showPredictedPaths : Bool) (S : Settings) (nodeW nodeH : HNode → JSNum)
    (keyFn : Option (HNode → String)) (mat : Option HNode) (st : Placed) :
    Except String Placed :=
  match mat with
  | none => .ok st
  | some mat0 =>
    -- inject ghost nodes if enabled
    let mat : HNode :=
      if showPredictedPaths && (mat0.info.dataOpt.bind (fun d => d.theoretical_edges)).isSome
      then _injectGhostsIntoTree mat0 else mat0
    if hasRaw mat then .error "TypeError"
    else .ok (layoutBranchedSteps tidy tanDeg S nodeW nodeH keyFn mat)

/-! ## GRAPH_V1 → tree (`graphV1ToHierarchy` in `src/js/layout/linear.js`) -/

/-- `byId.get(id)` for `byId = new Map(nodes.map(n => [String(n.id), {...n, id: String(n.id)}]))`:
the keys are strings, and of two nodes with the same `String(id)` the later one is kept. -/
def byIdGet (nodes : List NodeData) : JId → Option NodeData
  | .str s =>
    (nodes.reverse.find? (fun n => n.id.toStr == s)).map
      (fun n => { n with id := .str n.id.toStr })
  | _ => none

/-- An entry `{ to, prob }` of the outgoing-edge table (`tgt` is the field `to`). -/
structure OutEdge where
  tgt : String
  prob : Option ℚ
deriving DecidableEq, Repr

/-- `e.kind || 'emp'`. -/
def edgeKind (e : Edge) : String :=
  match e.kind with
  | some k => if k = "" then "emp" else k
  | none => "emp"

/-- `for (const n of nodes) out.set(n.id, [])`: keyed by the raw id. -/
def initOut (nodes : List NodeData) : List (JId × List OutEdge) :=
  nodes.foldl (fun m n => mapSet m n.id []) []

/-- `for (const n of nodes) indeg.set(n.id, 0)`: keyed by the raw id. -/
def initIndeg (nodes : List NodeData) : List (JId × Nat) :=
  nodes.foldl (fun m n => mapSet m n.id 0) []

/-- One iteration of the edge loop of `graphV1ToHierarchy`.  `out.get(src).push(...)`
throws a `TypeError` when `out` has no entry under the string `src`. -/
def addEdge (nodes : List NodeData)
    (st : List (JId × List OutEdge) × List (JId × Nat)) (e : Edge) :
    Except String (List (JId × List OutEdge) × List (JId × Nat)) :=
  let src := e.source.toStr
  let dst := e.target.toStr
  match byIdGet nodes (.str src), byIdGet nodes (.str dst) with
  | some _, some d =>
    if edgeKind e = "ghost" then .ok st
    else if d.isGhost then .ok st
    else
      match mapGet st.1 (.str src) with
      | none => .error "TypeError: out.get(src) is undefined"
      | some l =>
        .ok (mapSet st.1 (.str src) (l ++ [{ tgt := dst, prob := e.prob }]),
             mapSet st.2 (.str dst) ((mapGet st.2 (.str dst)).getD 0 + 1))
  | _, _ => .ok st

/-- The edge loop: `none`-free fold that stops at the first thrown error. -/
def addEdges (nodes : List NodeData) :
    List Edge → List (JId × List OutEdge) × List (JId × Nat) →
      Except String (List (JId × List OutEdge) × List (JId × Nat))
  | [], st => .ok st
  | e :: es, st =>
    match addEdge nodes st e with
    | .ok st1 => addEdges nodes es st1
    | .error err => .error err

/-- Root choice: `anchor_root_id` → first `is_root` node → first non-ghost node of
indegree 0 → first node.  The result is `absent` when there is no node. -/
def chooseRoot (g : GraphV1) (nodes : List NodeData) (indeg : List (JId × Nat)) : JId :=
  if g.anchor_root_id.truthy && (byIdGet nodes (.str g.anchor_root_id.toStr)).isSome then
    .str g.anchor_root_id.toStr
  else
    match nodes.find? (fun n => n.is_root) with
    | some r => r.id
    | none =>
      match nodes.find? (fun n => ((mapGet indeg n.id).getD 0 == 0) && !n.isGhost) with
      | some n => n.id
      | none =>
        match nodes.head? with
        | some n => n.id
        | none => .absent

/-- Whether the comparator `(a, b) => b.score - a.score` orders `b` before `a`, that is
whether `b.score - a.score` is positive; a difference that is `NaN` counts as `0` in
`Array.prototype.sort`. -/
def scoreLt : JSNum → JSNum → Bool
  | .fin a, .fin b => decide (a < b)
  | _, _ => false

/-- Insert into a list sorted by descending score, before the first entry whose score is
not larger (so that equal scores keep their input order). -/
def insertByScore (x : String × JSNum) : List (String × JSNum) → List (String × JSNum)
  | [] => [x]
  | y :: l => if scoreLt x.2 y.2 then y :: insertByScore x l else x :: y :: l

/-- `.sort((a, b) => b.score - a.score)`: stable, descending by score.  When a score is
not a number the comparator is not an ordering and the language leaves the resulting order
to the engine; the insertion order is taken here. -/
def sortByScoreDesc (l : List (String × JSNum)) : List (String × JSNum) :=
  l.foldr insertByScore []

/-- The property names that every plain object inherits from `Object.prototype`. -/
def objectPrototypeKeys : List String :=
  ["constructor", "hasOwnProperty", "isPrototypeOf", "propertyIsEnumerable",
   "toLocaleString", "toString", "valueOf", "__proto__", "__defineGetter__",
   "__defineSetter__", "__lookupGetter__", "__lookupSetter__"]

/-- `emp[tok] || 0` for the table `emp = parent?.emp_children || {}`, as the number it is
in arithmetic.  The table is a plain object: a token that is no key of it but the name of
an inherited member (`constructor`, `toString`, …) reads that member, a function (for
`__proto__` the prototype object), which is truthy and whose numeric value is `NaN`. -/
def empLookup (emp : Option (List (String × Nat))) (tok : String) : JSNum :=
  match (emp.getD []).lookup tok with
  | some c => .fin c
  | none => if objectPrototypeKeys.contains tok then .nan else .fin 0

/-- `sortedChildren(pid)`: the targets of the outgoing edges of `pid`, by descending
score (edge probability, else the parent's empirical count of the target's token). -/
def sortedChildren (nodes : List NodeData) (out : List (JId × List OutEdge)) (pid : JId) :
    List String :=
  let emp := (byIdGet nodes pid).bind (fun p => p.emp_children)
  let scored := ((mapGet out pid).getD []).map (fun oe =>
    let fallback : JSNum :=
      match (byIdGet nodes (.str oe.tgt)).bind (fun c => c.token) with
      | some tok => empLookup emp tok
      | none => .fin 0
    (oe.tgt, match oe.prob with
      | some q => JSNum.fin q
      | none => fallback))
  (sortByScoreDesc scored).map (fun x => x.1)

/-- The children loop of `build`, with the recursive call `b`:
`for (const cid of sortedChildren(id)) { child = byId.get(cid); if (!child || child.isGhost)
continue; built = build(cid, path); if (built) kids.push(built) }`.
The set `visited` is threaded through; `none` is passed on from `b`. -/
def buildKids (b : List JId → JId → List String → Option (Option Nested × List JId))
    (nodes : List NodeData) (path : List String) :
    List String → List JId → Option (List Nested × List JId)
  | [], visited => some ([], visited)
  | cid :: rest, visited =>
    match byIdGet nodes (.str cid) with
    | none => buildKids b nodes path rest visited
    | some child =>
      if child.isGhost then buildKids b nodes path rest visited
      else
        match b visited (.str cid) path with
        | none => none
        | some (built, v1) =>
          match buildKids b nodes path rest v1 with
          | none => none
          | some (ks, v2) => some (built.toList ++ ks, v2)

/-- The `path` that `build` gives a node: its own `path` when that is an array, else
`parentPath.length ? [...parentPath, tok] : (tok ? [tok] : [])` with `tok = data.token ?? ''`. -/
def buildPath (data0 : NodeData) (parentPath : List String) : List String :=
  match data0.path with
  | some p => p
  | none =>
    if parentPath ≠ [] then parentPath ++ [data0.token.getD ""]
    else (if data0.token.getD "" ≠ "" then [data0.token.getD ""] else [])

/-- The `position` that `build` gives a node: its own when present, else
`parentPath.length ? parentPath.length - 1 : 0`. -/
def buildPosition (data0 : NodeData) (parentPath : List String) : Int :=
  match data0.position with
  | some q => q
  | none => if parentPath ≠ [] then (parentPath.length : Int) - 1 else 0

/-- The node data `{ ...byId.get(id) }` with `path` and `position` filled in. -/
def buildData (nodes : List NodeData) (id : JId) (parentPath : List String) : NodeData :=
  let data0 : NodeData := (byIdGet nodes id).getD {}
  { data0 with path := some (buildPath data0 parentPath)
               position := some (buildPosition data0 parentPath) }

/-- The ghost children that `build` appends when `includeGhosts` is set: one for each of
the first three entries of `theoretical_edges`. -/
def ghostKids (includeGhosts : Bool) (data : NodeData) (path : List String) : List Nested :=
  if includeGhosts then
    ((data.theoretical_edges.getD []).take 3).map
      (fun g => Nested.mk (mkGhost data.position path g) [])
  else []

/-- `build(id, parentPath)` with the set `visited` threaded through and a recursion
budget `fuel`; `none` means the budget ran out, `some (none, _)` is the JavaScript result
`null` (the node was already visited). -/
def build (nodes : List NodeData) (out : List (JId × List OutEdge)) (includeGhosts : Bool) :
    Nat → List JId → JId → List String → Option (Option Nested × List JId)
  | 0, _, _, _ => none
  | fuel + 1, visited, id, parentPath =>
    if id ∈ visited then some (none, visited)
    else
      let data : NodeData := buildData nodes id parentPath
      let path : List String := buildPath ((byIdGet nodes id).getD {}) parentPath
      match buildKids (build nodes out includeGhosts fuel) nodes path
          (sortedChildren nodes out id) (visited ++ [id]) with
      | none => none
      | some (kids, v2) => some (some (.mk data (kids ++ ghostKids includeGhosts data path)), v2)

/-- `graphV1ToHierarchy(graphV1, d3, { includeGhosts })` with recursion budget `fuel` for
`build`: `none` when the budget ran out, `error` for a thrown exception, else the
hierarchy. -/
def graphV1ToHierarchyFuel (fuel : Nat) (g : GraphV1) (includeGhosts : Bool) :
    Option (Except String HNode) :=
  let nodes := g.nodes.getD []
  let edges := g.edges.getD []
  match addEdges nodes edges (initOut nodes, initIndeg nodes) with
  | .error err => some (.error err)
  | .ok (out, indeg) =>
    let rootId := chooseRoot g nodes indeg
    if !rootId.truthy then some (.error "GRAPH_V1 has no nodes")
    else
      match build nodes out includeGhosts fuel [] rootId [] with
      | none => none
      | some (built, _) =>
        some (.ok (hierarchy (built.getD (.mk ((byIdGet nodes rootId).getD {}) []))))

/-- `graphV1ToHierarchy`, run with a recursion budget of two more than the number of
nodes (which `build` never exhausts, see `graphV1ToHierarchy_terminates`). -/
def graphV1ToHierarchy (g : GraphV1) (includeGhosts : Bool) : Option (Except String HNode) :=
  graphV1ToHierarchyFuel ((g.nodes.getD []).length + 2) g includeGhosts

mutual
/-- The data of all nodes of a tree, parent first. -/
def HNode.allData : HNode → List NodeData
  | .mk i cs => i.data :: HNode.allDataList cs
/-- The data of all nodes of a list of trees. -/
def HNode.allDataList : List HNode → List NodeData
  | [] => []
  | c :: cs => c.allData ++ HNode.allDataList cs
end

mutual
/-- The parent → child pairs of a tree, as pairs of node ids. -/
def HNode.idEdges : HNode → List (JId × JId)
  | .mk i cs => HNode.idEdgesList i.data.id cs
/-- The parent → child pairs below the children of the node with id `p`. -/
def HNode.idEdgesList (p : JId) : List HNode → List (JId × JId)
  | [] => []
  | c :: cs => ((p, c.info.data.id) :: c.idEdges) ++ HNode.idEdgesList p cs
end

mutual
/-- The data of all nodes of a nested tree, parent first. -/
def Nested.allData : Nested → List NodeData
  | .mk d cs => d :: Nested.allDataList cs
/-- The data of all nodes of a list of nested trees. -/
def Nested.allDataList : List Nested → List NodeData
  | [] => []
  | c :: cs => c.allData ++ Nested.allDataList cs
end

/-- The string ids carried by a list of node data (injected ghosts carry no id). -/
def strIds (ds : List NodeData) : List String :=
  ds.filterMap (fun d => match d.id with
    | .str s => some s
    | _ => none)

/-- The number of distinct node keys `String(id)` that are not yet in `visited`. -/
def unvisited (nodes : List NodeData) (visited : List JId) : Nat :=
  ((nodes.map (fun n => n.id.toStr)).dedup.filter
    (fun s => decide (JId.str s ∉ visited))).length

/-- The tree of a run that returned one. -/
def treeOf : Option (Except String HNode) → Option HNode
  | some (.ok t) => some t
  | _ => none

/-- The 3-cycle `A → B → C → A`. -/
def cycle3 : GraphV1 :=
  { nodes := some [{ id := .str "A", token := some "a" }, { id := .str "B", token := some "b" },
                   { id := .str "C", token := some "c" }]
    edges := some [{ source := .str "A", target := .str "B" },
                   { source := .str "B", target := .str "C" },
                   { source := .str "C", target := .str "A" }] }

/-! ## Linear layout (`src/js/layout/linear.js`) -/

/-- `n._profile = { top, bottom, span }`. -/
structure Profile where
  top : List ℚ
  bottom : List ℚ
  span : Nat
deriving DecidableEq, Repr

/-- A tree node as `buildProfiles` leaves it: the node, its measured sizes `_w`, `_h`, the
index of its main child among its children (`none` when there is none), `_childOffsets`
(one offset per child, in child order), `_profile` and `_down`. -/
inductive LNode where
  | mk (node : HNode) (_w _h : ℚ) (main : Option Nat) (childOffsets : List ℚ)
      (profile : Profile) (down : ℚ) (children : List LNode)
deriving Repr

/-- `c._profile`. -/
def LNode.profile : LNode → Profile
  | .mk _ _ _ _ _ p _ _ => p

/-- `c._down`. -/
def LNode.down : LNode → ℚ
  | .mk _ _ _ _ _ _ d _ => d

/-- The hierarchy node that was annotated. -/
def LNode.node : LNode → HNode
  | .mk n _ _ _ _ _ _ _ => n

/-- The main child of a node: `bestChildPack ? bestChildPack(n) : (kids[0] || null)`, as an
index into `n.children`.  The callback answers with the index of the child it picks. -/
def mainIndex (bestChildPack : Option (HNode → Option Nat)) (n : HNode) : Option Nat :=
  let r : Option Nat :=
    match bestChildPack with
    | some f => f n
    | none => some 0
  r.bind (fun k => if k < n.children.length then some k else none)

/-- `_childOffsets` in child order: `0` for the main child; the alternates get the running
`altStart`, which starts at `_h/2 + ALT_GAP` and grows by `(c._down ?? 0) + ALT_GAP`. -/
def childOffsetsFrom (main : Option Nat) (gap : ℚ) : List LNode → Nat → ℚ → List ℚ
  | [], _, _ => []
  | c :: cs, k, altStart =>
    if main = some k then 0 :: childOffsetsFrom main gap cs (k + 1) altStart
    else altStart :: childOffsetsFrom main gap cs (k + 1) (altStart + c.down + gap)

/-- The children in the order in which they are merged and placed (the main child first,
then the alternates in child order), each with its offset. -/
def orderedKids (main : Option Nat) (kids : List LNode) (offsets : List ℚ) :
    List (Nat × LNode × ℚ) :=
  let all := List.zip (List.range kids.length) (List.zip kids offsets)
  all.filter (fun e => decide (main = some e.1)) ++
    all.filter (fun e => !decide (main = some e.1))

/-- One column of `top` or `bottom` after all `mergeChild` calls: `pick` (min or max) over
the children whose profile reaches relative depth `j`, `none` while still infinite. -/
def mergeCol (kids : List (Nat × LNode × ℚ)) (sel : Profile → List ℚ) (pick : ℚ → ℚ → ℚ)
    (j : Nat) : Option ℚ :=
  kids.foldl (fun acc e =>
    if j < e.2.1.profile.span then
      let v := e.2.2 + (sel e.2.1.profile).getD j 0
      some (match acc with
        | none => v
        | some a => pick a v)
    else acc) none

mutual
/-- `buildProfiles(n, { S, nodeW, nodeH, bestChildPack })`: sizes, child offsets, profile
and `_down` of every node, children first. -/
def buildProfiles (S : Settings) (nodeW nodeH : HNode → JSNum)
    (bestChildPack : Option (HNode → Option Nat)) : HNode → LNode
  | .mk i cs =>
    let w : ℚ := _clampDim (nodeW (.mk i cs))
    let h : ℚ := _clampDim (nodeH (.mk i cs))
    let kids : List LNode := buildProfilesList S nodeW nodeH bestChildPack cs
    let main : Option Nat := mainIndex bestChildPack (.mk i cs)
    let gap : ℚ := jsOr S.ALT_GAP 0
    let offsets : List ℚ := childOffsetsFrom main gap kids 0 (h / 2 + gap)
    let span : Nat := kids.foldl (fun sp c => max sp (max c.profile.span 1 + 1)) 1
    let ordered := orderedKids main kids offsets
    let top : List ℚ := (List.range span).map (fun col =>
      if col = 0 then -h / 2
      else (mergeCol ordered (fun q => q.top) min (col - 1)).getD 0)
    let bot : List ℚ := (List.range span).map (fun col =>
      if col = 0 then h / 2
      else (mergeCol ordered (fun q => q.bottom) max (col - 1)).getD 0)
    .mk (.mk i cs) w h main offsets { top := top, bottom := bot, span := span }
      (bot.foldl max (h / 2)) kids
/-- `kids.forEach(c => buildProfiles(c, ...))`. -/
def buildProfilesList (S : Settings) (nodeW nodeH : HNode → JSNum)
    (bestChildPack : Option (HNode → Option Nat)) : List HNode → List LNode
  | [] => []
  | c :: cs =>
    buildProfiles S nodeW nodeH bestChildPack c
      :: buildProfilesList S nodeW nodeH bestChildPack cs
end

/-- The mutable state of `layoutLinear`: the skyline `sky` and `depthShift` (maps keyed by
depth) and the two output arrays. -/
structure LinState where
  sky : List (Nat × ℚ) := []
  depthShift : List (Nat × ℚ) := []
  placed : Placed := {}
deriving Repr

/-- `colX(d)`: `d === 0 ? 0 : firstGap + (d - 1) * (S.GAP_X || 0)`. -/
def colX (S : Settings) (firstGap : ℚ) (d : Nat) : ℚ :=
  if d = 0 then 0 else firstGap + ((d : ℚ) - 1) * jsOr S.GAP_X 0

/-- `need` in `placeChild`: the largest `(skybot + ALT_GAP) - topAtCol` over the columns
of the child's profile whose skyline is set, and at least `0`.  The sums and differences
are exact here; the source rounds each of them to a double. -/
def needOf (S : Settings) (sky : List (Nat × ℚ)) (absDepth : Nat) (base : ℚ) (prof : Profile) :
    ℚ :=
  (List.range prof.span).foldl (fun need j =>
    match mapGet sky (absDepth + 1 + j) with
    | some skybot => max need ((skybot + jsOr S.ALT_GAP 0) - (base + prof.top.getD j 0))
    | none => need) 0

/-- The skyline update after a child is placed:
`sky.set(col, Math.max(sky.get(col) ?? -Infinity, childBase + prof.bottom[j]))`. -/
def raiseSky (sky : List (Nat × ℚ)) (absDepth : Nat) (childBase : ℚ) (prof : Profile) :
    List (Nat × ℚ) :=
  (List.range prof.span).foldl (fun sk j =>
    let b := childBase + prof.bottom.getD j 0
    mapSet sk (absDepth + 1 + j)
      (match mapGet sk (absDepth + 1 + j) with
        | some v => max v b
        | none => b)) sky

mutual
/-- `placeSubtree(n, baseY, absDepth)`.  `shift` is `nodeShifts.get(n) || 0` at the time
the node is placed: `_applyShiftToSubtree(c, add)` adds `add` to a child and to all its
descendants just before the child is placed, so it is the sum of the shifts given to the
node and to its ancestors.  Coordinates are computed in exact arithmetic. -/
def placeSubtree (S : Settings) (tanMax : Option ℚ) (getKey : HNode → String) (firstGap : ℚ) :
    LNode → ℚ → Nat → ℚ → LinState → LinState
  | .mk node w0 h0 main offsets _ _ kids, baseY, absDepth, shift, st =>
    let w : ℚ := _clampDim (.fin w0)
    let h : ℚ := _clampDim (.fin h0)
    let x : ℚ := baseY
    let y : ℚ := colX S firstGap absDepth + shift
    let pn : PlacedNode :=
      { x := x, y := y, w := w, h := h, data := node.info.dataOpt
        depth := node.info.depthRead, key := getKey node }
    let st1 : LinState :=
      { st with
        placed := { st.placed with nodes := st.placed.nodes ++ [pn] }
        sky := mapSet st.sky absDepth
          (match mapGet st.sky absDepth with
            | some v => max v (x + h / 2)
            | none => x + h / 2) }
    let st2 := placeKids S tanMax getKey firstGap pn baseY absDepth shift true main 0
      kids offsets st1
    placeKids S tanMax getKey firstGap pn baseY absDepth shift false main 0 kids offsets st2
/-- The calls `placeChild(c, localOff)` of one pass over the children of the placed node
`pn`: the pass `mainPass = true` places the main child only (`if (m) placeChild(m, 0)`),
the pass `mainPass = false` the alternates in child order.  `k` is the index of the head of
the list among the children. -/
def placeKids (S : Settings) (tanMax : Option ℚ) (getKey : HNode → String) (firstGap : ℚ)
    (pn : PlacedNode) (baseY : ℚ) (absDepth : Nat) (shift : ℚ) (mainPass : Bool)
    (main : Option Nat) : Nat → List LNode → List ℚ → LinState → LinState
  | _, [], _, st => st
  | k, c :: cs, offsets, st =>
    let isMain : Bool := decide (main = some k)
    let st3 : LinState :=
      if isMain = mainPass then
        let localOff : ℚ := offsets.headD 0
        let prof := c.profile
        let need : ℚ := needOf S st.sky absDepth (baseY + localOff) prof
        let childBase : ℚ := baseY + localOff + need
        let sx : ℚ := pn.y + pn.w
        let sy : ℚ := pn.x
        let tx0 : ℚ := colX S firstGap (absDepth + 1) + (mapGet st.depthShift (absDepth + 1)).getD 0
        let ty : ℚ := childBase
        -- angle constraint for non-main children (column-wide shift)
        let add : ℚ :=
          match tanMax with
          | some t =>
            if !isMain && decide (0 < t) then
              (if tx0 - sx < |ty - sy| / t then |ty - sy| / t - (tx0 - sx) else 0)
            else 0
          | none => 0
        let depthShift1 : List (Nat × ℚ) :=
          if add = 0 then st.depthShift
          else mapSet st.depthShift (absDepth + 1)
            ((mapGet st.depthShift (absDepth + 1)).getD 0 + add)
        let link : PlacedLink :=
          { sx := sx, sy := sy, tx := tx0 + add, ty := ty
            ghost := linkGhost c.node.info.dataOpt
            p := .fin (linkProb c.node.info.dataOpt)
            skey := some pn.key, tkey := some (getKey c.node) }
        let st1 : LinState :=
          { st with
            depthShift := depthShift1
            placed := { st.placed with links := st.placed.links ++ [link] } }
        let st2 := placeSubtree S tanMax getKey firstGap c childBase (absDepth + 1)
          (shift + add) st1
        { st2 with sky := raiseSky st2.sky absDepth childBase prof }
      else st
    placeKids S tanMax getKey firstGap pn baseY absDepth shift mainPass main (k + 1)
      cs offsets.tail st3
end

/-- The input of `layoutLinear`: a GRAPH_V1 object (`nodes` and `edges` are arrays), a
hierarchy, or a falsy value. -/
inductive LinearInput where
  | graph (g : GraphV1)
  | tree (mat : HNode)
  | nothing

/-- The body of `layoutLinear` once `mat` is a hierarchy: `buildProfiles`, the column
spacing, clearing the two arrays, and `placeSubtree(mat, 0, 0)`. -/
def layoutLinearTree (tanDeg : ℚ → ℚ) (S : Settings)
    (bestChildPack : Option (HNode → Option Nat)) (nodeW nodeH : HNode → JSNum)
    (keyFn : Option (HNode → String)) (mat : HNode) : Placed :=
  let getKey : HNode → String := keyFn.getD defaultKey
  let root : LNode := buildProfiles S nodeW nodeH bestChildPack mat
  let firstGap : ℚ :=
    max (jsOr S.GAP_X 0) (_clampDim (.fin (match root with
      | .mk _ w _ _ _ _ _ _ => w)) + 100)
  (placeSubtree S (tanMaxOf tanDeg S.ANG_MAX_DEG) getKey firstGap root 0 0 0 {}).placed

/-- `layoutLinear(matOrGraph, { S, placedNodes, placedLinks, bestChildPack, nodeW, nodeH,
key }, d3)`: the two arrays after the call; `error` when the GRAPH_V1 conversion throws (the
arrays are then as before the call), `none` only if that conversion ran out of budget.
`includeGhosts` is `window.APP_CONFIG?.SHOW_PREDICTED_PATHS ?? true`. -/
def layoutLinear (tanDeg : ℚ → ℚ) (includeGhosts : Bool) (S : Settings)
    (bestChildPack : Option (HNode → Option Nat)) (nodeW nodeH : HNode → JSNum)
    (keyFn : Option (HNode → String)) (matOrGraph : LinearInput) (st : Placed) :
    Option (Except String Placed) :=
  match matOrGraph with
  | .nothing => some (.ok st)
  | .tree mat => some (.ok (layoutLinearTree tanDeg S bestChildPack nodeW nodeH keyFn mat))
  | .graph g =>
    match graphV1ToHierarchy g includeGhosts with
    | none => none
    | some (.error err) => some (.error err)
    | some (.ok mat) =>
      some (.ok (layoutLinearTree tanDeg S bestChildPack nodeW nodeH keyFn mat))

/-! ## Rank-based layout (`src/js/layout/dagre.js`) -/

/-- `_emptyBBox()`. -/
def _emptyBBox : BBox :=
  { minX := 0, maxX := 0, minY := 0, maxY := 0, pad := 40, width := 400, height := 300 }

/-- `_coerceNodeId(n, i)`: `{ ...n, id: String(n.id ?? i) }`. -/
def _coerceNodeId (n : NodeData) (i : Nat) : NodeData :=
  { n with id := .str (match n.id with
      | .absent => toString i
      | id => id.toStr) }

/-- `_coerceEdgeIds(e)`. -/
def _coerceEdgeIds (e : Edge) : Edge :=
  { source := .str e.source.toStr, target := .str e.target.toStr
    kind := some (edgeKind e), prob := e.prob, weight := some (e.weight.getD 1) }

/-- `_computeDepth(n)`. -/
def _computeDepth (n : NodeData) : Int :=
  if n.is_root then 0
  else if n.is_prefix then (match n.path with
    | some p => (p.length : Int)
    | none => 0)
  else (match n.position with
    | some q => q
    | none => 0) + 1

/-- One iteration of the node loop of `_injectGhostNodes`; the state is the two output
arrays and `ghostIdCounter`.  A node with a non-empty `theoretical_edges` gets a ghost node
with id `ghost_<id>_<token>_<counter>` and a ghost edge for each of its first three
entries. -/
def injectStep (acc : List NodeData × List Edge × Nat) (node : NodeData) :
    List NodeData × List Edge × Nat :=
  match node.theoretical_edges with
  | some (e :: es) =>
    let tes := (e :: es).take 3
    let ghosts : List NodeData :=
      List.zipWith (fun (g : TheoEdge) (k : Nat) =>
        { mkGhost node.position (node.path.getD []) g with
          id := .str ("ghost_" ++ node.id.toStr ++ "_" ++ g.token ++ "_"
                  ++ toString (acc.2.2 + k)) })
        tes (List.range tes.length)
    (acc.1 ++ ghosts,
     acc.2.1 ++ ghosts.map (fun gh =>
        ({ source := node.id, target := gh.id, kind := some "ghost"
           prob := gh.model_prob_here, weight := some 1 } : Edge)),
     acc.2.2 + tes.length)
  | _ => acc

/-- `_injectGhostNodes(originalNodes, originalEdges)`: the `nodes` and `edges` returned. -/
def _injectGhostNodes (originalNodes : List NodeData) (originalEdges : List Edge) :
    List NodeData × List Edge :=
  let r := originalNodes.foldl injectStep (originalNodes, originalEdges, 0)
  (r.1, r.2.1)

/-- A node label of the dagre graph, with the coordinates `x`, `y` that `dagre.layout`
writes into it. -/
structure DNode where
  id : String
  width : ℚ
  height : ℚ
  data : NodeData
  isGhost : Bool
  x : ℚ := 0
  y : ℚ := 0
deriving DecidableEq, Repr

/-- An edge `{ v, w, name }` of the dagre multigraph with its label. -/
structure DEdge where
  v : String
  w : String
  name : String
  weight : ℚ
  prob : Option ℚ
  kind : String
deriving DecidableEq, Repr

/-- The dagre graph: the graph label's `ranksep` and `nodesep`, node labels and edges in
insertion order, and `g._injectedNodes`. -/
structure DGraph where
  ranksep : Option ℚ := none
  nodesep : Option ℚ := none
  nodes : List DNode := []
  edges : List DEdge := []
  injectedNodes : Option (List NodeData) := none
deriving Repr

/-- `g.setNode(id, label)`: replaces the label of an existing node, else appends. -/
def setNode : List DNode → DNode → List DNode
  | [], n => [n]
  | m :: g, n => if m.id = n.id then n :: g else m :: setNode g n

/-- `g.hasNode(id)`. -/
def hasNode (g : List DNode) (id : String) : Bool :=
  g.any (fun m => m.id == id)

/-- The node loop of `_buildDagreGraph_GraphV1`: measures and clamps each node and sets
it; a sizing callback that throws aborts the loop. -/
def buildNodes (nodeW nodeH : NodeData → Except String JSNum) :
    List NodeData → List DNode → Except String (List DNode)
  | [], g => .ok g
  | n :: ns, g =>
    match nodeW n with
    | .error err => .error err
    | .ok wv =>
      match nodeH n with
      | .error err => .error err
      | .ok hv =>
        buildNodes nodeW nodeH ns
          (setNode g { id := n.id.toStr, width := _clampDim wv, height := _clampDim hv
                       data := n, isGhost := n.isGhost })

/-- The edge loop of `_buildDagreGraph_GraphV1`: an edge with a missing endpoint is
skipped, every other edge is added under the name `String(nameCounter++)`. -/
def buildEdges (g : List DNode) : List Edge → Nat → List DEdge → List DEdge
  | [], _, acc => acc
  | e :: es, nameCounter, acc =>
    if !hasNode g e.source.toStr || !hasNode g e.target.toStr then
      buildEdges g es nameCounter acc
    else
      buildEdges g es (nameCounter + 1)
        (acc ++ [{ v := e.source.toStr, w := e.target.toStr, name := toString nameCounter
                   weight := e.weight.getD 1, prob := e.prob, kind := edgeKind e }])

/-- `_buildDagreGraph_GraphV1(nodesArray, edgesArray, { S, nodeW, nodeH })`;
`nodeW d`, `nodeH d` are `+nodeW({ data: d })`, `+nodeH({ data: d })`.  The graph label
reads `S.RANK_SEP` and `S.NODE_SEP`: with `S` undefined that is a `TypeError`. -/
def _buildDagreGraph_GraphV1 (showPredictedPaths : Bool) (S : Option Settings)
    (nodeW nodeH : NodeData → Except String JSNum)
    (nodesArray : List NodeData) (edgesArray : List Edge) : Except String DGraph :=
  match S with
  | none => .error "TypeError: S is undefined"
  | some S =>
    let withGhosts : List NodeData × List Edge :=
      if showPredictedPaths then _injectGhostNodes nodesArray edgesArray
      else (nodesArray, edgesArray)
    match buildNodes nodeW nodeH withGhosts.1 [] with
    | .error err => .error err
    | .ok ns =>
      .ok { ranksep := S.RANK_SEP, nodesep := S.NODE_SEP
            nodes := ns, edges := buildEdges ns withGhosts.2 0 []
            injectedNodes := if showPredictedPaths then some withGhosts.1 else none }

/-- The array index that a property key is, if it is one: the canonical decimal numeral of
a natural number below `2^32 - 1`. -/
def arrayIndex (key : String) : Option Nat :=
  match key.data with
  | [] => none
  | c :: cs =>
    if (c :: cs).all Char.isDigit && (c != '0' || cs.isEmpty) then
      let n := (c :: cs).foldl (fun a d => 10 * a + (d.toNat - 48)) 0
      if n < 4294967295 then some n else none
    else none

/-- Insert into a list sorted by ascending index. -/
def insertByIndex (x : Nat × DNode) : List (Nat × DNode) → List (Nat × DNode)
  | [] => [x]
  | y :: l => if x.1 < y.1 then x :: y :: l else y :: insertByIndex x l

/-- `dagreGraph.nodes()`: the keys of the object that holds the node labels, in the
order of property enumeration: the ids that are array indices first, in ascending numeric
order, then the other ids in insertion order. -/
def graphNodes (g : DGraph) : List DNode :=
  ((g.nodes.filterMap (fun n => (arrayIndex n.id).map (fun k => (k, n)))).foldr
      insertByIndex []).map (fun x => x.2)
    ++ g.nodes.filter (fun n => (arrayIndex n.id).isNone)

/-- `dagre.layout(g)` given the coordinates `pos` it computes for each node id: it writes
`x`, `y` into the node labels and leaves `width`, `height` and `data` as they were set. -/
def applyLayout (pos : String → ℚ × ℚ) (g : DGraph) : DGraph :=
  { g with nodes := g.nodes.map (fun n => { n with x := (pos n.id).1, y := (pos n.id).2 }) }

/-- The key of a placed node in `_toPlaced`:
`data.isGhost ? (data.id || nodeId) : (keyFn ? keyFn(hnode) : (data.id || nodeId))`. -/
def placedKey (keyFn : Option (NodeData → Except String String)) (n : DNode) :
    Except String String :=
  let idOr : String := if n.data.id.truthy then n.data.id.toStr else n.id
  if n.data.isGhost then .ok idOr
  else
    match keyFn with
    | some k => k n.data
    | none => .ok idOr

/-- The node loop of `_toPlaced`, pushing onto `placedNodes`; when the key function
throws, the nodes pushed so far stay in the array. -/
def toPlacedNodes (keyFn : Option (NodeData → Except String String)) :
    List DNode → List PlacedNode → List PlacedNode × Except String Unit
  | [], acc => (acc, .ok ())
  | n :: ns, acc =>
    match placedKey keyFn n with
    | .error err => (acc, .error err)
    | .ok k =>
      toPlacedNodes keyFn ns
        (acc ++ [{ x := n.y, y := n.x, w := n.width, h := n.height
                   data := some n.data, depth := _computeDepth n.data, key := k }])

/-- `placedNodes.find(n => n.data.id === id)`. -/
def findById (placedNodes : List PlacedNode) (id : String) : Option PlacedNode :=
  placedNodes.find? (fun n => decide (n.data.map (fun d => d.id) = some (JId.str id)))

/-- `Object.values(empChildren).reduce((s, c) => s + c, 0)`. -/
def empTotal (emp : Option (List (String × Nat))) : ℚ :=
  (((emp.getD []).map (fun e => e.2)).foldl (fun s c => s + c) 0 : Nat)

/-- The probability `_toPlaced` stores on the link of an edge with label probability
`labelProb` between the placed nodes `src` and `dst`: the label's probability when it is
not null; else for a ghost edge `dst.data.model_prob_here ?? 0`; else
`parentTotal > 0 ? cnt / parentTotal : 0` with `cnt = empChildren[dst.data.token] || 0`. -/
def resolveProb (labelProb : Option ℚ) (isGhostEdge : Bool) (src dst : NodeData) : JSNum :=
  match labelProb with
  | some q => .fin q
  | none =>
    if isGhostEdge then .fin (dst.model_prob_here.getD 0)
    else
      let parentTotal := empTotal src.emp_children
      let cnt := empLookup src.emp_children (dst.token.getD "undefined")
      if 0 < parentTotal then
        (match cnt with
          | .fin c => .fin (c / parentTotal)
          | _ => .nan)
      else .fin 0

/-- The link `_toPlaced` pushes for one edge, if both endpoints are found. -/
def toPlacedLink (placedNodes : List PlacedNode) (e : DEdge) : Option PlacedLink :=
  match findById placedNodes e.v, findById placedNodes e.w with
  | some src, some dst =>
    let sd : NodeData := src.data.getD {}
    let dd : NodeData := dst.data.getD {}
    let isGhostEdge : Bool := (e.kind == "ghost") || dd.isGhost
    some { sx := src.y + src.w, sy := src.x, tx := dst.y, ty := dst.x
           ghost := isGhostEdge
           p := resolveProb e.prob isGhostEdge sd dd
           skey := some src.key, tkey := some dst.key }
  | _, _ => none

/-- `_toPlaced(dagreGraph, nodesArray, keyFn, { placedNodes, placedLinks })`: the arrays
after the call and whether it threw. -/
def _toPlaced (g : DGraph) (keyFn : Option (NodeData → Except String String))
    (st : Placed) : Placed × Except String Unit :=
  match toPlacedNodes keyFn (graphNodes g) st.nodes with
  | (ns, .error err) => ({ st with nodes := ns }, .error err)
  | (ns, .ok _) =>
    ({ nodes := ns, links := st.links ++ g.edges.filterMap (toPlacedLink ns) }, .ok ())

/-- Whether a placed node is a fan node: `n?.data?.is_prefix || n?.data?.is_root`. -/
def isFanNode (n : PlacedNode) : Bool :=
  match n.data with
  | some d => d.is_prefix || d.is_root
  | none => false

/-- `fanKeys`: the keys of the fan nodes. -/
def fanKeysOf (placedNodes : List PlacedNode) : List String :=
  (placedNodes.filter isFanNode).map (fun n => n.key)

/-- The shift one link asks for in the first loop of `_enforceFanAnchorSpacing`: its
source and target are found by coordinates (tolerance 1); for a fan → anchor link with
`dx < minDx` it is `minDx - dx`, otherwise nothing. -/
def requiredShiftOf (tanMax : ℚ) (placedNodes : List PlacedNode) (fanKeys : List String)
    (link : PlacedLink) : Option ℚ :=
  match placedNodes.find? (fun n =>
          decide (|n.y + n.w - link.sx| < 1) && decide (|n.x - link.sy| < 1)),
        placedNodes.find? (fun n =>
          decide (|n.y - link.tx| < 1) && decide (|n.x - link.ty| < 1)) with
  | some src, some dst =>
    if fanKeys.contains src.key && !fanKeys.contains dst.key then
      let dx := link.tx - link.sx
      let minDx := |link.ty - link.sy| / tanMax
      if dx < minDx then some (minDx - dx) else none
    else none
  | _, _ => none

/-- `maxRequiredShift`: the largest shift asked for by a link, starting from `0`. -/
def maxRequiredShiftOf (tanMax : ℚ) (placedNodes : List PlacedNode) (fanKeys : List String)
    (links : List PlacedLink) : ℚ :=
  links.foldl (fun m link =>
    match requiredShiftOf tanMax placedNodes fanKeys link with
    | some r => if m < r then r else m
    | none => m) 0

/-- The endpoint update of the last loop of `_enforceFanAnchorSpacing` for one link. -/
def relinkFan (placedNodes : List PlacedNode) (fanKeys : List String) (totalShift : ℚ)
    (link : PlacedLink) : PlacedLink :=
  let l1 : PlacedLink :=
    match placedNodes.find? (fun n => fanKeys.contains n.key &&
        decide (|n.y + n.w - (link.sx - totalShift)| < 1) && decide (|n.x - link.sy| < 1)) with
    | some srcFan => { link with sx := srcFan.y + srcFan.w }
    | none => link
  match placedNodes.find? (fun n => fanKeys.contains n.key &&
      decide (|n.y - (l1.tx - totalShift)| < 1) && decide (|n.x - l1.ty| < 1)) with
  | some dstFan => { l1 with tx := dstFan.y }
  | none => l1

/-- `_enforceFanAnchorSpacing(S, placedNodes, placedLinks)`: the two arrays after the
call.  `tanDeg d` is `Math.tan((d * Math.PI) / 180)`; the quotient `dy / TAN_MAX` is the
JavaScript one when `TAN_MAX ≠ 0`. -/
def _enforceFanAnchorSpacing (tanDeg : ℚ → ℚ) (S : Option Settings) (st : Placed) : Placed :=
  match S with
  | none => st
  | some S =>
    match S.ANG_MAX_DEG with
    | .fin deg =>
      let fanKeys := fanKeysOf st.nodes
      let TAN_MAX := tanDeg deg
      let maxRequiredShift := maxRequiredShiftOf TAN_MAX st.nodes fanKeys st.links
      if 0 < maxRequiredShift then
        let totalShift := maxRequiredShift + 20
        let nodes1 := st.nodes.map (fun n =>
          if fanKeys.contains n.key then { n with y := n.y - totalShift } else n)
        { nodes := nodes1, links := st.links.map (relinkFan nodes1 fanKeys totalShift) }
      else st
    | _ => st

/-- `layoutDagSugiyama(graphV1, { key, S, placedNodes, placedLinks, nodeW, nodeH,
sizeSvgToContent })`: the two arrays after the call and the bounding box returned.

* `dagre` is the global `dagre` (`none` when `typeof dagre === "undefined"`): given the
  graph it returns the coordinates of each node id, or throws;
* `nodeW`, `nodeH`, `key`, `sizeSvgToContent` are the callbacks, which may throw. -/
def layoutDagSugiyama (dagre : Option (DGraph → Except String (String → ℚ × ℚ)))
    (tanDeg : ℚ → ℚ) (showPredictedPaths : Bool) (graphV1 : Option GraphV1)
    (key : Option (NodeData → Except String String)) (S : Option Settings)
    (nodeW nodeH : NodeData → Except String JSNum)
    (sizeSvgToContent : List PlacedNode → Except String BBox) (_st : Placed) :
    Placed × BBox :=
  -- placedNodes.length = 0; placedLinks.length = 0
  let st0 : Placed := { nodes := [], links := [] }
  match dagre with
  | none => (st0, _emptyBBox)
  | some layout =>
    let nodes0 : List NodeData := (graphV1.bind (fun g => g.nodes)).getD []
    let edges0 : List Edge := (graphV1.bind (fun g => g.edges)).getD []
    let nodesArray := List.zipWith _coerceNodeId nodes0 (List.range nodes0.length)
    let edgesArray := edges0.map _coerceEdgeIds
    if nodesArray.length = 0 then (st0, _emptyBBox)
    else
      match _buildDagreGraph_GraphV1 showPredictedPaths S nodeW nodeH nodesArray
          edgesArray with
      | .error _ => (st0, _emptyBBox)
      | .ok g =>
        match layout g with
        | .error _ => (st0, _emptyBBox)
        | .ok pos =>
          match _toPlaced (applyLayout pos g) key st0 with
          | (st1, .error _) => (st1, _emptyBBox)
          | (st1, .ok _) =>
            let st2 := _enforceFanAnchorSpacing tanDeg S st1
            match sizeSvgToContent st2.nodes with
            | .error _ => (st2, _emptyBBox)
            | .ok bbox => (st2, bbox)

/-! ## Renderer and driver (`src/js/viz.js`) -/

/-- `d3.min(values)` / `d3.max(values)` with `pick = min` / `max`: `none` on an empty
list. -/
def pickOf (pick : ℚ → ℚ → ℚ) : List ℚ → Option ℚ
  | [] => none
  | v :: vs => some (vs.foldl pick v)

/-- `sizeSvgToContent()` (the same computation in `viz.js` and `dagre.js`): the bounding
box of the placed nodes, with the defaults `-50`, `50`, `0`, `0` when there is none. -/
def sizeSvgToContent (placedNodes : List PlacedNode) : BBox :=
  let minX := (pickOf min (placedNodes.map (fun d => d.x - d.h / 2))).getD (-50)
  let maxX := (pickOf max (placedNodes.map (fun d => d.x + d.h / 2))).getD 50
  let minY := (pickOf min (placedNodes.map (fun d => d.y))).getD 0
  let maxY := (pickOf max (placedNodes.map (fun d => d.y + d.w))).getD 0
  { minX := minX, maxX := maxX, minY := minY, maxY := maxY, pad := 40
    width := (maxY - minY) + 2 * 40, height := (maxX - minX) + 2 * 40 }

/-- The zoom transform `curTransform = { k, x, y }`. -/
structure Transform where
  k : ℚ
  x : ℚ
  y : ℚ
deriving DecidableEq, Repr

/-- The scroll rectangle of the stage element. -/
structure Viewport where
  scrollLeft : ℚ
  clientWidth : ℚ
  scrollTop : ℚ
  clientHeight : ℚ
deriving DecidableEq, Repr

/-- `curTransform.k || 1`. -/
def effK (t : Transform) : ℚ := if t.k = 0 then 1 else t.k

/-- `nodeVisible(n)` in `renderVisible`, with `pad = 300`. -/
def nodeVisible (t : Transform) (vp : Viewport) (n : PlacedNode) : Bool :=
  let k := effK t
  let viewLeft := vp.scrollLeft
  let viewRight := viewLeft + vp.clientWidth
  let viewTop := vp.scrollTop
  let viewBot := viewTop + vp.clientHeight
  let pad : ℚ := 300
  let sx1 := n.y * k + t.x
  let sx2 := sx1 + n.w * k
  let sy1 := (n.x - n.h / 2) * k + t.y
  let sy2 := (n.x + n.h / 2) * k + t.y
  decide (sx2 ≥ viewLeft - pad) && decide (sx1 ≤ viewRight + pad) &&
    decide (sy2 ≥ viewTop - pad) && decide (sy1 ≤ viewBot + pad)

/-- `byKey.get(key)` for `byKey = new Map(placedNodes.map(n => [n.key, n]))`: of two nodes
with the same key the later one is kept. -/
def byKeyGet (placedNodes : List PlacedNode) (key : Option String) : Option PlacedNode :=
  match key with
  | some k => placedNodes.reverse.find? (fun n => n.key == k)
  | none => none

/-- `resolveLink(l)`. -/
def resolveLink (placedNodes : List PlacedNode) (l : PlacedLink) : Option PlacedLink :=
  match byKeyGet placedNodes l.skey, byKeyGet placedNodes l.tkey with
  | some s, some t => some { l with sx := s.y + s.w, sy := s.x, tx := t.y, ty := t.x }
  | _, _ => none

/-- `visibleKeys.has(key)`. -/
def hasKey (visibleKeys : List String) (key : Option String) : Bool :=
  match key with
  | some k => visibleKeys.contains k
  | none => false

/-- `renderVisible()`: the nodes `nodesV` and links `linksV` that are drawn.  The placed
arrays are only read. -/
def renderVisible (placed : Placed) (t : Transform) (vp : Viewport) :
    List PlacedNode × List PlacedLink :=
  let nodesV := placed.nodes.filter (nodeVisible t vp)
  let visibleKeys := nodesV.map (fun n => n.key)
  let linksV := (placed.links.filter
      (fun l => hasKey visibleKeys l.skey && hasKey visibleKeys l.tkey)).filterMap
      (resolveLink placed.nodes)
  (nodesV, linksV)

/-- The screen rectangle of a placed node under a transform, as a set of points:
`[y·k + tx, (y + w)·k + tx] × [(x − h/2)·k + ty, (x + h/2)·k + ty]`. -/
def inScreenRect (t : Transform) (n : PlacedNode) (px py : ℚ) : Prop :=
  n.y * t.k + t.x ≤ px ∧ px ≤ (n.y + n.w) * t.k + t.x ∧
    (n.x - n.h / 2) * t.k + t.y ≤ py ∧ py ≤ (n.x + n.h / 2) * t.k + t.y

/-- The scroll viewport expanded by `m` on every side, as a set of points. -/
def inExpandedViewport (vp : Viewport) (m : ℚ) (px py : ℚ) : Prop :=
  vp.scrollLeft - m ≤ px ∧ px ≤ vp.scrollLeft + vp.clientWidth + m ∧
    vp.scrollTop - m ≤ py ∧ py ≤ vp.scrollTop + vp.clientHeight + m

/-- The screen rectangle of a node meets the viewport expanded by 300 px. -/
def intersectsViewport (t : Transform) (vp : Viewport) (n : PlacedNode) : Prop :=
  ∃ px py, inScreenRect t n px py ∧ inExpandedViewport vp 300 px py

/-- The key function of `viz.js`:
`Array.isArray(p) ? p.join('␟') : String(n.data.token ?? '') + ':' + n.depth`. -/
def vizKey (n : HNode) : String :=
  match n.info.data.path with
  | some p => String.intercalate "␟" p
  | none => (n.info.data.token.getD "") ++ ":" ++ toString n.info.depth

/-- The key of the object `{ data }` that `_toPlaced` hands to the key function of
`viz.js` (it has no `depth`). -/
def vizKeyData (d : NodeData) : Except String String :=
  match d.path with
  | some p => .ok (String.intercalate "␟" p)
  | none => .ok ((d.token.getD "") ++ ":undefined")

/-- What `layoutAndRender` reads besides the module state: the external primitives and
the callbacks of `viz.js`.

* `dagre` is the global `dagre`;
* `plainTreeDagre mat` is the body of the `try` block of the plain-tree rank-based path
  after `mat` is built (`convertTreeToDAGre`, `dagre.layout`, the conversion into fresh
  arrays): the arrays it leaves, or the exception it throws;
* `modBranched`, `modLinear`, `modDagre` tell whether the layout module is loaded. -/
structure VizEnv where
  tidy : ℚ → ℚ → HNode → List Nat → ℚ × ℚ
  tanDeg : ℚ → ℚ
  showPredictedPaths : Bool := true
  nodeW : HNode → JSNum
  nodeH : HNode → JSNum
  bestChildPack : HNode → Option Nat
  dagre : Option (DGraph → Except String (String → ℚ × ℚ))
  plainTreeDagre : HNode → Except String Placed
  modBranched : Bool := true
  modLinear : Bool := true
  modDagre : Bool := true

/-- The module state of `viz.js` that `layoutAndRender` reads and writes: the settings,
the tree root (`root.data`, the nested source data), the GRAPH_V1 input, the legacy bundle
(as `layoutDagSugiyama` sees it through `.nodes` and `.edges`), and the placed arrays. -/
structure VizState where
  S : Settings := {}
  root : Option Nested := none
  graphV1 : Option GraphV1 := none
  bundleData : Option GraphV1 := none
  placed : Placed := {}

/-- `layoutAndRender()`: the placed arrays after the call and the bounding box returned
(`none` for `undefined`, when `S.LAYOUT` is none of the three strategies); `error` for an
exception that escapes (no call of `layoutBranched` is inside a `try`, the one in the
`catch` block included), `none` at the top only if a GRAPH_V1 conversion ran out of
budget.  The final `renderVisible()` draws and leaves the arrays as they are. -/
def layoutAndRender (env : VizEnv) (st : VizState) :
    Option (Except String (Placed × Option BBox)) :=
  -- placedNodes.length = 0; placedLinks.length = 0
  let st0 : Placed := { nodes := [], links := [] }
  let branched (mat : HNode) (cur : Placed) : Except String Placed :=
    if env.modBranched then
      layoutBranched env.tidy env.tanDeg env.showPredictedPaths st.S env.nodeW env.nodeH none
        (some mat) cur
    else .ok cur
  -- const bbox = sizeSvgToContent(); renderVisible(); return bbox
  let finish (r : Except String Placed) : Option (Except String (Placed × Option BBox)) :=
    match r with
    | .ok p1 => some (.ok (p1, some (sizeSvgToContent p1.nodes)))
    | .error err => some (.error err)
  let dagSugiyama (g : GraphV1) : Placed × BBox :=
    layoutDagSugiyama env.dagre env.tanDeg env.showPredictedPaths (some g) (some vizKeyData)
      (some st.S) (fun d => .ok (env.nodeW (.mk { data := d } [])))
      (fun d => .ok (env.nodeH (.mk { data := d } [])))
      (fun ns => .ok (sizeSvgToContent ns)) st0
  if st.S.LAYOUT = "dagre" then
    match env.dagre with
    | none =>
      -- 'Dagre library not loaded. Falling back to branched layout.'
      match st.root with
      | some r => finish (branched (hierarchy r) st0)
      | none => finish (.ok st0)
    | some _ =>
      match (if env.modDagre then st.graphV1 else none) with
      | some g => some (.ok ((dagSugiyama g).1, some (dagSugiyama g).2))
      | none =>
        match (if env.modDagre then st.bundleData else none) with
        | some b => some (.ok ((dagSugiyama b).1, some (dagSugiyama b).2))
        | none =>
          match st.root with
          | none => some (.error "TypeError: root is null")
          | some r =>
            match env.plainTreeDagre (hierarchy r) with
            | .ok p1 => some (.ok (p1, some (sizeSvgToContent p1.nodes)))
            | .error _ =>
              -- 'Dagre tree layout failed': falls back to branched
              finish (branched (hierarchy r) st0)
  else if st.S.LAYOUT = "linear" then
    if env.modLinear then
      match st.graphV1, st.root with
      | some g, _ =>
        match layoutLinear env.tanDeg env.showPredictedPaths st.S (some env.bestChildPack)
            env.nodeW env.nodeH (some vizKey) (.graph g) st0 with
        | none => none
        | some (.error err) => some (.error err)
        | some (.ok p1) => some (.ok (p1, some (sizeSvgToContent p1.nodes)))
      | none, some r =>
        match layoutLinear env.tanDeg env.showPredictedPaths st.S (some env.bestChildPack)
            env.nodeW env.nodeH (some vizKey) (.tree (hierarchy r)) st0 with
        | none => none
        | some (.error err) => some (.error err)
        | some (.ok p1) => some (.ok (p1, some (sizeSvgToContent p1.nodes)))
      | none, none => some (.ok (st0, some (sizeSvgToContent st0.nodes)))
    else some (.ok (st0, some (sizeSvgToContent st0.nodes)))
  else if st.S.LAYOUT = "branched" then
    if env.modBranched then
      match st.graphV1, st.root with
      | some g, _ =>
        if env.modLinear then
          match graphV1ToHierarchy g env.showPredictedPaths with
          | none => none
          | some (.error err) => some (.error err)
          | some (.ok mat) => finish (branched mat st0)
        else some (.ok (st0, some (sizeSvgToContent st0.nodes)))
      | none, some r => finish (branched (hierarchy r) st0)
      | none, none => some (.ok (st0, some (sizeSvgToContent st0.nodes)))
    else some (.ok (st0, some (sizeSvgToContent st0.nodes)))
  else some (.ok (st0, none))

/-- `VIZ.setSettings({ SHOW_PREDICTED_PATHS: v })`: `S = { ...S, ...partial }`. -/
def setShowPredictedPaths (S : Settings) (v : Bool) : Settings :=
  { S with SHOW_PREDICTED_PATHS := some v }

/-- The change handler of the "show predicted paths" checkbox in `ui.js`:
`VIZ.setSettings({ SHOW_PREDICTED_PATHS: e.target.checked }); VIZ.layoutAndRender()`.
`window.APP_CONFIG` (read through `env.showPredictedPaths`) is not written. -/
def onPredictedPathsChange (env : VizEnv) (st : VizState) (checked : Bool) :
    Option (Except String (Placed × Option BBox)) :=
  layoutAndRender env { st with S := setShowPredictedPaths st.S checked }

/-- The number of placed nodes whose data is flagged `isGhost` after a layout run (`0` when
the run threw). -/
def ghostCount : Option (Except String (Placed × Option BBox)) → Nat
  | some (.ok (p, _)) => (p.nodes.filter (fun n => linkGhost n.data)).length
  | _ => 0

/-! ## Example inputs -/

/-- A stand-in for `d3.tree`: depth `d` is put at `x = 1000·d`, `y = d·dy`. -/
def exTidy : ℚ → ℚ → HNode → List Nat → ℚ × ℚ :=
  fun _ dy _ path => ((path.length : ℚ) * 1000, (path.length : ℚ) * dy)

/-- A stand-in for the tangent, `7/4` for every angle (about the tangent of 60°). -/
def exTan : ℚ → ℚ := fun _ => 7 / 4

/-- A root with one child. -/
def exNested : Nested :=
  .mk { token := some "r", path := some ["r"] }
    [.mk { token := some "a", path := some ["r", "a"], emp_freq_here := some 1 } []]

/-- The default settings with the column gap capped at 500. -/
def exSettings : Settings := { BRANCHED_GAP_MAX := .fin 500 }

/-- A sizing callback that measures every node as 50 wide. -/
def exNodeW : HNode → JSNum := fun _ => .fin 50

/-- A sizing callback that measures every node as 70 high. -/
def exNodeH : HNode → JSNum := fun _ => .fin 70

/-! ## Predicates used in the statements -/

mutual
/-- Every node of a tree has fields satisfying `P`. -/
def HNode.AllInfo (P : HInfo → Prop) : HNode → Prop
  | .mk i cs => P i ∧ HNode.AllInfoList P cs
/-- Every node of a forest has fields satisfying `P`. -/
def HNode.AllInfoList (P : HInfo → Prop) : List HNode → Prop
  | [] => True
  | c :: cs => c.AllInfo P ∧ HNode.AllInfoList P cs
end

mutual
/-- Every node of an annotated tree has sizes `_w`, `_h` satisfying `P`. -/
def LNode.AllSize (P : ℚ → ℚ → Prop) : LNode → Prop
  | .mk _ w h _ _ _ _ kids => P w h ∧ LNode.AllSizeList P kids
/-- Every node of an annotated forest has sizes satisfying `P`. -/
def LNode.AllSizeList (P : ℚ → ℚ → Prop) : List LNode → Prop
  | [] => True
  | c :: cs => c.AllSize P ∧ LNode.AllSizeList P cs
end

/-- The sizes `w`, `h` are the clamped measurements of one node: `w = _clampDim(+nodeW(n))`
and `h = _clampDim(+nodeH(n))` for some node `n` handed to the callbacks. -/
def MeasuredOn {ν : Type} (nodeW nodeH : ν → JSNum) (w h : ℚ) : Prop :=
  ∃ n, w = _clampDim (nodeW n) ∧ h = _clampDim (nodeH n)

/-- The same for callbacks that may throw: both returned for the node. -/
def MeasuredOk (nodeW nodeH : NodeData → Except String JSNum) (w h : ℚ) : Prop :=
  ∃ d vw vh, nodeW d = .ok vw ∧ nodeH d = .ok vh ∧ w = _clampDim vw ∧ h = _clampDim vh

/-- A placed node whose sizes are the clamp of sizes `w`, `h` satisfying `P`. -/
def PlacedFrom (P : ℚ → ℚ → Prop) (pn : PlacedNode) : Prop :=
  ∃ w h, P w h ∧ pn.w = _clampDim (.fin w) ∧ pn.h = _clampDim (.fin h)

/-- A sizing callback that returns `NaN`. -/
def exNodeNaN : HNode → JSNum := fun _ => .nan

/-- A sizing callback that returns `-5`. -/
def exNodeNeg : HNode → JSNum := fun _ => .fin (-5)

/-- A GRAPH_V1 input: a node `A` with empirical children `{x: 3, y: 1}` and edges without
explicit probability to the nodes with tokens `x` and `y`. -/
def exGraph : GraphV1 :=
  { nodes := some
      [{ id := .str "A", token := some "a", path := some ["a"], position := some 0
         emp_children := some [("x", 3), ("y", 1)] },
       { id := .str "X", token := some "x", path := some ["a", "x"], position := some 1 },
       { id := .str "Y", token := some "y", path := some ["a", "y"], position := some 1 }]
    edges := some [{ source := .str "A", target := .str "X" },
                   { source := .str "A", target := .str "Y" }] }

/-- A stand-in for `dagre.layout` that puts the node with id `A` at the origin and every
other node 300 to the right of it. -/
def exDagre : DGraph → Except String (String → ℚ × ℚ) :=
  fun _ => .ok (fun id => if id = "A" then (0, 0) else (300, 0))

/-- Sizing callbacks of the rank-based layout that measure every node as 50 × 70. -/
def exNodeWData : NodeData → Except String JSNum := fun _ => .ok (.fin 50)

/-- The height callback of the example. -/
def exNodeHData : NodeData → Except String JSNum := fun _ => .ok (.fin 70)

/-- A GRAPH_V1 input: a node `A` with empirical children `{x: 3}` and an edge without
explicit probability to a node whose token, `constructor`, is not in that table. -/
def exInheritedToken : GraphV1 :=
  { nodes := some
      [{ id := .str "A", token := some "a", path := some ["a"], position := some 0
         emp_children := some [("x", 3)] },
       { id := .str "B", token := some "constructor", path := some ["a", "constructor"]
         position := some 1 }]
    edges := some [{ source := .str "A", target := .str "B" }] }

/-- A placed node far to the right of the origin. -/
def exFarNode : PlacedNode :=
  { x := 0, y := 10000, w := 50, h := 70, data := none, depth := 1, key := "far" }

/-- A placed node at the origin. -/
def exNearNode : PlacedNode :=
  { x := 0, y := 0, w := 50, h := 70, data := none, depth := 0, key := "near" }

/-- A link between the two example nodes whose stored endpoints are stale. -/
def exStaleLink : PlacedLink :=
  { sx := 1, sy := 2, tx := 3, ty := 4, ghost := false, p := .fin 1
    skey := some "near", tkey := some "far" }

/-- A 100 × 100 viewport scrolled to the origin. -/
def exViewport : Viewport :=
  { scrollLeft := 0, clientWidth := 100, scrollTop := 0, clientHeight := 100 }

/-- A placed link without its stored endpoint coordinates. -/
def PlacedLink.strip (l : PlacedLink) : PlacedLink :=
  { l with sx := 0, sy := 0, tx := 0, ty := 0 }

/-- The callbacks and primitives of the examples, with `dagre` not loaded. -/
def exEnvNoDagre : VizEnv :=
  { tidy := exTidy, tanDeg := exTan, nodeW := exNodeW, nodeH := exNodeH
    bestChildPack := fun _ => some 0, dagre := none
    plainTreeDagre := fun _ => .error "dagre is not defined" }

/-- The module state after a nested tree was loaded and the rank-based strategy selected. -/
def exStateTree : VizState :=
  { S := { LAYOUT := "dagre" }, root := some exNested }

/-- A `sizeSvgToContent` callback that throws, as the one of `viz.js` does while `svg` is
not initialised. -/
def exSizeSvgThrows : List PlacedNode → Except String BBox :=
  fun _ => .error "TypeError: svg is undefined"

/-- A key callback that throws on the node with token `x`. -/
def exKeyThrows : NodeData → Except String String :=
  fun d => if d.token = some "x" then .error "key failed" else .ok (d.token.getD "")

/-- A rank-based placement: a fan node (the root) at the origin and an anchor node 100
below it, 40 to the right of the fan node's right edge, joined by a link. -/
def exFanPlaced : Placed :=
  { nodes :=
      [{ x := 0, y := 0, w := 10, h := 10, data := some { id := .str "F", is_root := true }
         depth := 0, key := "F" },
       { x := 100, y := 50, w := 10, h := 10, data := some { id := .str "A" }
         depth := 1, key := "A" }]
    links := [{ sx := 10, sy := 0, tx := 50, ty := 100, ghost := false, p := .fin 1
                skey := some "F", tkey := some "A" }] }

/-- A stand-in for the tangent, `1` for every angle (the tangent of 45°). -/
def exTanOne : ℚ → ℚ := fun _ => 1

/-- A GRAPH_V1 input with one node that has a predicted continuation `z`. -/
def exGhostGraph : GraphV1 :=
  { nodes := some
      [{ id := .str "A", token := some "a", path := some ["a"], position := some 0
         theoretical_edges := some [{ token := "z", avg_prob := some (1 / 2) }] }]
    edges := some [] }

/-- The callbacks and primitives of the examples, with a stand-in for dagre, and
`window.APP_CONFIG.SHOW_PREDICTED_PATHS` left at its default `true`. -/
def exEnvDagre : VizEnv :=
  { exEnvNoDagre with dagre := some exDagre, showPredictedPaths := true }

/-- The module state after `exGhostGraph` was loaded, with strategy `layout`. -/
def exStateGhost (layout : String) : VizState :=
  { S := { LAYOUT := layout, SHOW_PREDICTED_PATHS := some true }, graphV1 := some exGhostGraph }

/-! ## Ghost injection, node by node -/

/-- The data fields of a nested node. -/
def Nested.data : Nested → NodeData
  | .mk d _ => d

/-- The inline children of a nested node. -/
def Nested.children : Nested → List Nested
  | .mk _ cs => cs

mutual
/-- The nodes of a nested tree: the node itself and every descendant. -/
def Nested.subtrees : Nested → List Nested
  | .mk d cs => .mk d cs :: Nested.subtreesList cs
/-- The nodes of a list of nested trees. -/
def Nested.subtreesList : List Nested → List Nested
  | [] => []
  | c :: cs => c.subtrees ++ Nested.subtreesList cs
end

/-- The children of a nested node that are flagged `isGhost`. -/
def Nested.ghostChildren (t : Nested) : List Nested :=
  t.children.filter (fun c => c.data.isGhost)

/-- The first three predicted continuations of a node (`theoretical_edges.slice(0, 3)`, the
empty list when the field is absent). -/
def firstThree (d : NodeData) : List TheoEdge :=
  (d.theoretical_edges.getD []).take 3

/-- What the specification says of a ghost `g` made from the parent `P` and the
continuation `e`: flagged, `path = P.path + [token]`, `position = P.position + 1` (`0`
without a parent position), model probability only, no empirical data and no predicted
continuations of its own. -/
def GhostOf (P : NodeData) (e : TheoEdge) (g : NodeData) : Prop :=
  g.isGhost = true ∧ g.token = some e.token ∧
  g.path = some (P.path.getD [] ++ [e.token]) ∧
  g.position = some (P.position.getD (-1) + 1) ∧
  g.model_prob_here = e.avg_prob ∧
  g.emp_freq_here = none ∧ g.emp_count_here = some 0 ∧ g.emp_parent_total = some 0 ∧
  g.theoretical_edges = none ∧ g.model_children = none

/-- The ghost nodes that the loop of `_injectGhostNodes` creates for `node` when
`ghostIdCounter` stands at `c`. -/
def ghostsOf (node : NodeData) (c : Nat) : List NodeData :=
  List.zipWith (fun (g : TheoEdge) (k : Nat) =>
      { mkGhost node.position (node.path.getD []) g with
        id := .str ("ghost_" ++ node.id.toStr ++ "_" ++ g.token ++ "_" ++ toString (c + k)) })
    (firstThree node) (List.range (firstThree node).length)

/-- The ghost edge that `_injectGhostNodes` pushes for the ghost `gh` of `node`. -/
def ghostEdge (node gh : NodeData) : Edge :=
  { source := node.id, target := gh.id, kind := some "ghost"
    prob := gh.model_prob_here, weight := some 1 }

/-- The ghost nodes created by the loop of `_injectGhostNodes` over `ns`, in order,
starting with the counter at `c`. -/
def ghostsFrom : List NodeData → Nat → List NodeData
  | [], _ => []
  | n :: ns, c => ghostsOf n c ++ ghostsFrom ns (c + (ghostsOf n c).length)

/-- The ghost edges created by the loop of `_injectGhostNodes` over `ns`, in order. -/
def ghostEdgesFrom : List NodeData → Nat → List Edge
  | [], _ => []
  | n :: ns, c =>
    (ghostsOf n c).map (ghostEdge n) ++ ghostEdgesFrom ns (c + (ghostsOf n c).length)

/-- The raw ghost objects that `_injectGhostsIntoTree` pushes into the children of a node
with fields `i`. -/
def rawGhostsOf (i : HInfo) : List HNode :=
  match i.dataOpt with
  | some d => (firstThree d).map (fun g =>
      HNode.mk { data := mkGhost d.position (d.path.getD []) g, wrapped := false } [])
  | none => []

/-- The shape of a node made by `build`: its children are built non-ghost nodes followed
by the ghosts of `ghostKids`. -/
def NShape (includeGhosts : Bool) (s : Nested) : Prop :=
  ∃ kids : List Nested,
    s.children = kids ++ ghostKids includeGhosts s.data (s.data.path.getD []) ∧
    ∀ c ∈ kids, c.data.isGhost = false

/-- A node with four predicted continuations, the last one the most probable. -/
def exUnsorted : NodeData :=
  { id := .str "A", token := some "a", path := some ["a"], position := some 0
    theoretical_edges := some
      [{ token := "p", avg_prob := some (1 / 10) }, { token := "q", avg_prob := some (2 / 10) },
       { token := "r", avg_prob := some (3 / 10) }, { token := "s", avg_prob := some (9 / 10) }] }

/-- A GRAPH_V1 input made of the node `exUnsorted`. -/
def exUnsortedGraph : GraphV1 := { nodes := some [exUnsorted], edges := some [] }

/-- A node whose only predicted continuation `x` is also a key of its empirical-children
table. -/
def exObserved : NodeData :=
  { id := .str "A", token := some "a", path := some ["a"], position := some 0
    emp_children := some [("x", 3)]
    theoretical_edges := some [{ token := "x", avg_prob := some (1 / 2) }] }

/-- A node with the empirical-children table `{x: 3}`, the model children `x` and `y` and
no predicted continuation. -/
def exObservedModel : NodeData :=
  { id := .str "A", token := some "a", path := some ["a"], position := some 0
    emp_children := some [("x", 3)]
    model_children := some [("x", some (1 / 2)), ("y", some (1 / 4))] }

/-- The number of predicted continuations of a node. -/
def predictedCount (d : NodeData) : Nat := (d.theoretical_edges.getD []).length

/-! ## Path scoring and ghost promotion (`src/js/viz.js`) -/

/-- `scoreBy(metric, n)` on the data of `n`: under `"prob"` the model probability, else
half the empirical frequency, else `-1`; under `"emp"` the other way round; `0` for any
other metric. -/
def scoreBy (metric : String) (d : NodeData) : ℚ :=
  if metric = "prob" then
    (match d.model_prob_here with
     | some p => p
     | none => (match d.emp_freq_here with
        | some e => e * (1 / 2)
        | none => -1))
  else if metric = "emp" then
    (match d.emp_freq_here with
     | some e => e
     | none => (match d.model_prob_here with
        | some p => p * (1 / 2)
        | none => -1))
  else 0

/-- The children of a node with their index and score, in input order, counting from `k`. -/
def indexedScores (metric : String) : Nat → List HNode → List (Nat × ℚ)
  | _, [] => []
  | k, c :: cs => (k, scoreBy metric c.info.data) :: indexedScores metric (k + 1) cs

/-- Insert into a list sorted by descending score, before the first entry whose score is
not larger (so that equal scores keep their input order). -/
def insertIdx (x : Nat × ℚ) : List (Nat × ℚ) → List (Nat × ℚ)
  | [] => [x]
  | y :: l => if x.2 < y.2 then y :: insertIdx x l else x :: y :: l

/-- `kids.slice().sort((a, b) => scoreBy(metric, b) - scoreBy(metric, a))`: stable,
descending by score. -/
def sortIdx (l : List (Nat × ℚ)) : List (Nat × ℚ) :=
  l.foldr insertIdx []

/-- `bestChildBy(metric, n)`: the index of the child returned (`none` for `null`). -/
def bestChildBy (metric : String) (n : HNode) : Option Nat :=
  match n.children with
  | [] => none
  | c :: cs =>
    if metric = "data" then some 0
    else ((sortIdx (indexedScores metric 0 (c :: cs))).head?).map (fun x => x.1)

/-- `bestChild(n)`. -/
def bestChild (S : Settings) (n : HNode) : Option Nat := bestChildBy S.MAIN_METRIC n

/-- `bestChildPack(n)`. -/
def bestChildPack (S : Settings) (n : HNode) : Option Nat := bestChildBy S.PACKING_METRIC n

mutual
/-- `promoteGhosts(n)`: the children are promoted first; then every entry of
`theoretical_edges` becomes a ghost child; when there is none, `model_children` is present
and `window.APP_CONFIG?.SHOW_PREDICTED_PATHS !== false`, the first three model children
whose token is no key of `emp_children` become synthetic ghost children. -/
def promoteGhosts (showPredictedPaths : Bool) : Nested → Nested
  | .mk n cs =>
    let kids := promoteGhostsList showPredictedPaths cs
    let theoreticalGhosts : List Nested :=
      (n.theoretical_edges.getD []).map
        (fun g => Nested.mk (mkGhost n.position (n.path.getD []) g) [])
    let syntheticGhosts : List Nested :=
      match n.model_children with
      | some mc =>
        if (n.theoretical_edges.getD []).isEmpty && showPredictedPaths then
          ((mc.filter (fun e => !((n.emp_children.getD []).map (fun x => x.1)).contains e.1)).take 3).map
            (fun e => Nested.mk
              { mkGhost n.position (n.path.getD []) { token := e.1, avg_prob := e.2 } with
                synthetic := true } [])
        else []
      | none => []
    .mk n (kids ++ (theoreticalGhosts ++ syntheticGhosts))
/-- `(n.children || []).map(promoteGhosts)`. -/
def promoteGhostsList (showPredictedPaths : Bool) : List Nested → List Nested
  | [] => []
  | c :: cs => promoteGhosts showPredictedPaths c :: promoteGhostsList showPredictedPaths cs
end

/-- A hierarchy node with an empirical child (frequency `0.1`, no model probability)
followed by a ghost child (model probability `0.9`). -/
def exGhostWins : HNode :=
  hierarchy (.mk { token := some "a", path := some ["a"], position := some 0 }
    [.mk { token := some "b", path := some ["a", "b"], position := some 1
           emp_freq_here := some (1 / 10) } [],
     .mk (mkGhost (some 0) ["a"] { token := "z", avg_prob := some (9 / 10) }) []])

/-- A root with three leaf children. -/
def exFan3 : Nested :=
  .mk { token := some "r", path := some ["r"], position := some 0 }
    [.mk { token := some "a", path := some ["r", "a"], position := some 1 } [],
     .mk { token := some "b", path := some ["r", "b"], position := some 1 } [],
     .mk { token := some "c", path := some ["r", "c"], position := some 1 } []]

/-- Settings with a column gap of 100 and a maximum edge angle of 45°. -/
def exSettings45 : Settings := { GAP_X := some 100, ANG_MAX_DEG := .fin 45 }

/-- The placed node with a given key, if any. -/
def nodeOfKey (p : Placed) (key : String) : Option PlacedNode :=
  p.nodes.find? (fun n => n.key == key)

/-- The placed link into the node with a given key, if any. -/
def linkIntoKey (p : Placed) (key : String) : Option PlacedLink :=
  p.links.find? (fun l => l.tkey == some key)

/-- `Math.tan((deg * Math.PI) / 180)` at the two angles used: `Math.tan(Math.PI / 2)` is
the double `16331239353195370`, `Math.tan(0)` is `0`. -/
def exTan90 : ℚ → ℚ := fun deg => if deg = 90 then 16331239353195370 else 0

/-- A stand-in for `d3.tree` on a chain: every node on the line `x = 0`, depth `d` at
`y = d·dy`. -/
def exTidyLine : ℚ → ℚ → HNode → List Nat → ℚ × ℚ :=
  fun _ dy _ path => (0, (path.length : ℚ) * dy)

/-- A root with one child. -/
def exPair : Nested :=
  .mk { token := some "r", path := some ["r"], position := some 0 }
    [.mk { token := some "a", path := some ["r", "a"], position := some 1 } []]

/-- Settings with `GAP_X = 400`, `BRANCHED_GAP_MAX = 300` and the given maximum angle. -/
def exCap (ang : JSNum) : Settings :=
  { GAP_X := some 400, BRANCHED_GAP_MAX := .fin 300, ANG_MAX_DEG := ang }

/-- The error message of a run that threw. -/
def errOf {α : Type} : Option (Except String α) → Option String
  | some (.error e) => some e
  | _ => none

/-- A GRAPH_V1 input with the single node of id `0` (a number) and no edges. -/
def exZeroId : GraphV1 :=
  { nodes := some [{ id := .num 0, token := some "a", path := some ["a"], position := some 0 }]
    edges := some [] }

/-- A GRAPH_V1 input with numeric ids `1`, `2` and the edge `1 → 2`. -/
def exNumIds : GraphV1 :=
  { nodes := some [{ id := .num 1, token := some "a" }, { id := .num 2, token := some "b" }]
    edges := some [{ source := .num 1, target := .num 2 }] }

/-- A GRAPH_V1 input with no node and no edge. -/
def exEmptyGraph : GraphV1 := { nodes := some [], edges := some [] }

/-! ## Search (`runSearch`, `getSearchMatches` in `src/js/viz.js`) -/

/-- `s.includes(q)` on the characters of the two strings. -/
def includesChars (s q : List Char) : Bool :=
  s.tails.any (fun t => q.isPrefixOf t)

/-- The loop `placedNodes.forEach((n, idx) => ...)` of `runSearch` from index `idx` on: the
indices pushed to `searchMatches`.  `n.hnode.data.token` throws a `TypeError` on a placed
node without `data`. -/
def searchFrom (toLowerCase : String → String) (q : String) :
    Nat → List PlacedNode → Except String (List Nat)
  | _, [] => .ok []
  | idx, n :: ns =>
    match n.data with
    | none => .error "TypeError: n.hnode.data is undefined"
    | some d =>
      match searchFrom toLowerCase q (idx + 1) ns with
      | .error e => .error e
      | .ok r =>
        .ok (if includesChars (toLowerCase (d.token.getD "")).data q.data then idx :: r else r)

/-- `runSearch(query)` followed by `getSearchMatches()`: the indices in `searchMatches` and
the `count` returned.  `toLowerCase` and `trim` are the two string methods. -/
def runSearch (toLowerCase trim : String → String) (placedNodes : List PlacedNode)
    (query : Option String) : Except String (List Nat × Nat) :=
  let q : String := trim (toLowerCase (query.getD ""))
  if q = "" then .ok ([], 0)
  else
    match searchFrom toLowerCase q 0 placedNodes with
    | .error e => .error e
    | .ok r => .ok (r, r.length)

/-- The token text that `runSearch` matches against: `String(token ?? '')` in lower case. -/
def searchText (toLowerCase : String → String) (n : PlacedNode) : String :=
  toLowerCase (((n.data.bind (fun d => d.token))).getD "")

/-- Three placed nodes with the tokens `Hello`, `world` and `HELP`. -/
def exSearchNodes : List PlacedNode :=
  [{ x := 0, y := 0, w := 50, h := 70, data := some { token := some "Hello" }, depth := 0, key := "a" },
   { x := 0, y := 0, w := 50, h := 70, data := some { token := some "world" }, depth := 1, key := "b" },
   { x := 0, y := 0, w := 50, h := 70, data := some { token := some "HELP" }, depth := 1, key := "c" }]

/-- A stand-in for `toLowerCase`: every character through `Char.toLower`. -/
def exLower (s : String) : String := ⟨s.data.map Char.toLower⟩

/-- A stand-in for `trim`: blanks dropped at both ends. -/
def exTrim (s : String) : String :=
  ⟨((s.data.dropWhile (fun c => c == ' ')).reverse.dropWhile (fun c => c == ' ')).reverse⟩

/-! ## Legacy bundle → tree (`resolveBundleToTree` in `src/js/viz.js`) -/

/-- An entry of `nodes_by_id`: the data fields and the child references.  A reference is
a string or an object with an `id`; it is given here by the id the code reads from it
(`typeof nodeRef === 'string' ? nodeRef : nodeRef.id`): a string, a number, or
`undefined`. -/
structure BNode where
  data : NodeData := {}
  children : Option (List JId) := none
deriving Repr

/-- A node of the tree made by `resolveBundleToTree`: the id by which it was referred to,
the fields copied into the clone (absent when what was spread has no own field: nothing,
or an inherited member), the `cycleDetected` flag and the children. -/
inductive BTree where
  | mk (id : JId) (data : Option NodeData) (cycleDetected : Bool) (children : List BTree)
deriving Repr

/-- The id by which a node of the tree was referred to. -/
def BTree.id : BTree → JId
  | .mk i _ _ _ => i

/-- `nodes_by_id[nodeId]` on the plain object `nodes_by_id`: `some (some b)` for an own
entry (the key is `String(nodeId)`); `some none` for the name of a member that every
object inherits from `Object.prototype` (a function, for `__proto__` the prototype
object: truthy, without own enumerable fields and without `children`); `none` for
`undefined`. -/
def nodesByIdGet (nodesById : List (String × BNode)) (nodeId : JId) :
    Option (Option BNode) :=
  match nodesById.lookup nodeId.toStr with
  | some b => some (some b)
  | none => if objectPrototypeKeys.contains nodeId.toStr then some none else none

/-- `(originalNode.children || []).map(cloneNodeWithChildren).filter(child => child !== null)`
with the recursive call `f`; `none` is passed on from `f`. -/
def cloneKids (f : JId → Option (Option BTree)) : List JId → Option (List BTree)
  | [] => some []
  | r :: rs =>
    match f r with
    | none => none
    | some t =>
      match cloneKids f rs with
      | none => none
      | some ts => some (t.toList ++ ts)

/-- `cloneNodeWithChildren(nodeRef, pathStack)` with a recursion budget `fuel`: `none`
means the budget ran out, `some none` is the JavaScript result `null`
(`nodes_by_id[nodeId]` is falsy).  The path stack is a `Set` of the ids as they were read
(the string `"5"` and the number `5` are different members). -/
def cloneNodeWithChildren (nodesById : List (String × BNode)) :
    Nat → List JId → JId → Option (Option BTree)
  | 0, _, _ => none
  | fuel + 1, pathStack, nodeId =>
    if nodeId ∈ pathStack then
      some (some (.mk nodeId
        ((nodesByIdGet nodesById nodeId).bind (fun o => o.map (fun b => b.data))) true []))
    else
      match nodesByIdGet nodesById nodeId with
      | none => some none
      | some originalNode =>
        match cloneKids (cloneNodeWithChildren nodesById fuel (pathStack ++ [nodeId]))
            ((originalNode.bind (fun b => b.children)).getD []) with
        | none => none
        | some kids =>
          some (some (.mk nodeId (originalNode.map (fun b => b.data)) false kids))

/-- Every reference of a bundle: the root and the child references of all entries. -/
def bundleRefs (root : JId) (nodesById : List (String × BNode)) : List JId :=
  root :: nodesById.flatMap (fun e => e.2.children.getD [])

/-- `resolveBundleToTree(bundle)` for `bundle = { root, nodes_by_id }`, run with a
recursion budget of one more than the number of references of the bundle. -/
def resolveBundleToTree (root : JId) (nodesById : List (String × BNode)) :
    Option (Option BTree) :=
  cloneNodeWithChildren nodesById ((bundleRefs root nodesById).length + 1) [] root

mutual
/-- The number of nodes on the longest path from a node down to a leaf. -/
def BTree.depth : BTree → Nat
  | .mk _ _ _ kids => 1 + BTree.depthList kids
/-- The largest depth in a list of trees (`0` for the empty list). -/
def BTree.depthList : List BTree → Nat
  | [] => 0
  | t :: ts => max t.depth (BTree.depthList ts)
end

/-- The number of distinct references that are not on the path stack. -/
def offPath (refs : List JId) (pathStack : List JId) : Nat :=
  (refs.dedup.filter (fun r => decide (r ∉ pathStack))).length

/-- A legacy bundle with the cycle `A → B → A` and a reference to a missing id. -/
def exBundle : List (String × BNode) :=
  [("A", { data := { token := some "a" }, children := some [.str "B", .str "missing"] }),
   ("B", { data := { token := some "b" }, children := some [.str "A"] })]

/-- A legacy bundle whose only entry refers to the ids `constructor` and `missing`, neither
of which is in `nodes_by_id`. -/
def exBundleInherited : List (String × BNode) :=
  [("A", { data := { token := some "a" }
           children := some [.str "constructor", .str "missing"] })]

mutual
/-- The nodes of a resolved tree in depth-first order: id, whether fields were copied, and
the `cycleDetected` flag. -/
def BTree.flat : BTree → List (String × Bool × Bool)
  | .mk i d c kids => (i.toStr, d.isSome, c) :: BTree.flatList kids
/-- The nodes of a list of resolved trees. -/
def BTree.flatList : List BTree → List (String × Bool × Bool)
  | [] => []
  | t :: ts => t.flat ++ BTree.flatList ts
end

/-! ## Linear layout: what the annotated tree and the skyline guarantee -/

/-- `n._h`. -/
def LNode.h : LNode → ℚ
  | .mk _ _ h _ _ _ _ _ => h

mutual
/-- The facts about a tree annotated by `buildProfiles` that the placement relies on, for
a node at depth `d`: the height is a clamped one, the profile starts with the node's own
upper edge `-_h/2`, `_down` is not negative, and the children are well formed. -/
def LNode.WF (d : Nat) : LNode → Prop
  | .mk node _ h main offsets prof down kids =>
    node.info.depthRead = d ∧ 8 ≤ h ∧ 1 ≤ prof.span ∧ prof.top.getD 0 0 = -h / 2 ∧
    0 ≤ down ∧ LNode.WFKids (d + 1) main prof 0 kids offsets
/-- The children from index `k` on, with their offsets: well formed, offset `0` for the
main child and a positive offset for an alternate, and for every column `j` of the child's
profile the parent's profile has the column `j + 1` with `top` at most the offset plus the
child's `top`. -/
def LNode.WFKids (d : Nat) (main : Option Nat) (prof : Profile) :
    Nat → List LNode → List ℚ → Prop
  | _, [], _ => True
  | k, c :: cs, offsets =>
    c.WF d ∧
    (main = some k → offsets.headD 0 = 0) ∧ (main ≠ some k → 0 < offsets.headD 0) ∧
    (∀ j, j < c.profile.span →
      j + 1 < prof.span ∧ prof.top.getD (j + 1) 0 ≤ offsets.headD 0 + c.profile.top.getD j 0) ∧
    LNode.WFKids d main prof (k + 1) cs offsets.tail
end

mutual
/-- For each link that `placeSubtree(n, ...)` pushes, in the order of the calls of
`placeChild`: whether the child is the main child. -/
def linkFlags : LNode → List Bool
  | .mk _ _ _ main _ _ _ kids => linkFlagsKids true main 0 kids ++ linkFlagsKids false main 0 kids
/-- The flags of the links pushed by one pass over the children. -/
def linkFlagsKids (mainPass : Bool) (main : Option Nat) : Nat → List LNode → List Bool
  | _, [] => []
  | k, c :: cs =>
    (if decide (main = some k) = mainPass then mainPass :: linkFlags c else []) ++
      linkFlagsKids mainPass main (k + 1) cs
end

/-- What the specification says of the link `l` into a main child (`isMain`) or into an
alternate child, given the placed nodes: the link joins a placed parent `s` and a placed
child `t` (by key and by perpendicular coordinate), and the child lies on the parent's
line if it is the main child, strictly below it otherwise. -/
def MainAligned (nodes : List PlacedNode) (l : PlacedLink) (isMain : Bool) : Prop :=
  ∃ s ∈ nodes, ∃ t ∈ nodes, l.skey = some s.key ∧ l.tkey = some t.key ∧
    l.sy = s.x ∧ l.ty = t.x ∧ (if isMain = true then t.x = s.x else s.x < t.x)

/-- The skyline is at or below the lower edge of every node placed so far, in the node's
depth column. -/
def SkyCovers (st : LinState) : Prop :=
  ∀ pn ∈ st.placed.nodes, ∀ c : Nat, pn.depth = (c : Int) →
    ∃ v, mapGet st.sky c = some v ∧ pn.x + pn.h / 2 ≤ v

/-- Nodes of one depth column keep the distance `gap`: a node placed later has its upper
edge at least `gap` below the lower edge of every node placed earlier. -/
def ColumnsClear (gap : ℚ) (nodes : List PlacedNode) : Prop :=
  nodes.Pairwise (fun a b => a.depth = b.depth → a.x + a.h / 2 + gap ≤ b.x - b.h / 2)

/-- The placed node `pn` lies in a column of the profile `prof` of a node placed at
`baseY` in column `absDepth`, with its upper edge at or below the profile's `top`. -/
def BelowTop (prof : Profile) (baseY : ℚ) (absDepth : Nat) (pn : PlacedNode) : Prop :=
  ∃ j : Nat, pn.depth = ((absDepth + j : Nat) : Int) ∧ j < prof.span ∧
    baseY + prof.top.getD j 0 ≤ pn.x - pn.h / 2

/-- The list `l1` is `l` followed by nodes that all satisfy `P`. -/
def Pushed (P : PlacedNode → Prop) (l l1 : List PlacedNode) : Prop :=
  ∃ N : List PlacedNode, l1 = l ++ N ∧ ∀ q ∈ N, P q

/-- The placed node `q` lies in a column below the node placed at `baseY` in column
`absDepth`, with its upper edge at or below the `top` of the node's profile there. -/
def KidsBelow (prof : Profile) (baseY : ℚ) (absDepth : Nat) (q : PlacedNode) : Prop :=
  ∃ j : Nat, q.depth = ((absDepth + 1 + j : Nat) : Int) ∧ j + 1 < prof.span ∧
    baseY + prof.top.getD (j + 1) 0 ≤ q.x - q.h / 2

/-- What a stretch of the placement from state `st` to state `st1` guarantees: the skyline
covers the placed nodes, the depth columns are clear, no placed node is lost, and the links
pushed on the way are aligned as their flags (main child or alternate) say. -/
def SkyResult (gap : ℚ) (flags : List Bool) (st st1 : LinState) : Prop :=
  SkyCovers st1 ∧ ColumnsClear gap st1.placed.nodes ∧
  st.placed.nodes ⊆ st1.placed.nodes ∧
  ∃ L : List PlacedLink, st1.placed.links = st.placed.links ++ L ∧
    List.Forall₂ (MainAligned st1.placed.nodes) L flags

/-! ## Linear layout: keys -/

mutual
/-- The keys of the nodes of a tree, the node first, then its children's subtrees. -/
def HNode.keys (getKey : HNode → String) : HNode → List String
  | .mk i cs => getKey (.mk i cs) :: HNode.keysList getKey cs
/-- The keys of the nodes of a list of trees. -/
def HNode.keysList (getKey : HNode → String) : List HNode → List String
  | [] => []
  | c :: cs => c.keys getKey ++ HNode.keysList getKey cs
end

mutual
/-- The keys of the nodes of an annotated tree. -/
def LNode.keys (getKey : HNode → String) : LNode → List String
  | .mk node _ _ _ _ _ _ kids => getKey node :: LNode.keysList getKey kids
/-- The keys of the nodes of a list of annotated trees. -/
def LNode.keysList (getKey : HNode → String) : List LNode → List String
  | [] => []
  | c :: cs => c.keys getKey ++ LNode.keysList getKey cs
end

/-- The keys of the subtrees that one pass over the children places: the main child's in
the main pass, the alternates' in the other. -/
def LNode.keysSel (getKey : HNode → String) (mainPass : Bool) (main : Option Nat) :
    Nat → List LNode → List String
  | _, [] => []
  | k, c :: cs =>
    (if decide (main = some k) = mainPass then c.keys getKey else []) ++
      LNode.keysSel getKey mainPass main (k + 1) cs

/-- A GRAPH_V1 input whose two nodes have the distinct paths `a` and `a, x`, the first
with the predicted continuation `x`. -/
def exGhostClash : GraphV1 :=
  { nodes := some
      [{ id := .str "A", token := some "a", path := some ["a"], position := some 0
         theoretical_edges := some [{ token := "x", avg_prob := some (1 / 2) }] },
       { id := .str "B", token := some "x", path := some ["a", "x"], position := some 1 }]
    edges := some [{ source := .str "A", target := .str "B" }] }

/-! ## Rank-based layout: what the fan/anchor repair needs and gives -/

/-- The rectangles of two different placed nodes do not overlap: one lies to the left of
the other along the flow axis, or above it along the perpendicular axis. -/
def NoOverlap (nodes : List PlacedNode) : Prop :=
  ∀ a ∈ nodes, ∀ b ∈ nodes, a ≠ b →
    (a.y + a.w ≤ b.y ∨ b.y + b.w ≤ a.y ∨
      a.x + a.h / 2 ≤ b.x - b.h / 2 ∨ b.x + b.h / 2 ≤ a.x - a.h / 2)

/-- The link `l` joins the placed nodes `s` and `t`: it carries their keys, and its stored
endpoints are the right edge of `s` and the left edge of `t`. -/
def Joined (nodes : List PlacedNode) (l : PlacedLink) (s t : PlacedNode) : Prop :=
  s ∈ nodes ∧ t ∈ nodes ∧ l.skey = some s.key ∧ l.tkey = some t.key ∧
  l.sx = s.y + s.w ∧ l.sy = s.x ∧ l.tx = t.y ∧ l.ty = t.x

/-- The node as the second loop of `_enforceFanAnchorSpacing` leaves it:
`if (fanKeys.has(n.key)) n.y -= totalShift`. -/
def shiftFan (fanKeys : List String) (totalShift : ℚ) (n : PlacedNode) : PlacedNode :=
  if fanKeys.contains n.key then { n with y := n.y - totalShift } else n

/-- The angle bound on one entry of the traversal. -/
def EdgeOK (t : ℚ) (e : Option HNode × HNode) : Prop :=
  ∀ pn, e.1 = some pn →
    |e.2.info.x - pn.info.x| / t ≤ e.2.info.yRead - (pn.info.yRead + pn.info._w)

/-- What a call of `build` guarantees: the visited set only grows, and the tree
returned has pairwise distinct string ids, all of them newly visited. -/
def BuildOK (b : List JId → JId → List String → Option (Option Nested × List JId)) : Prop :=
  ∀ v id pp r v1, b v id pp = some (r, v1) →
    v ⊆ v1 ∧ ∀ t, r = some t →
      (strIds t.allData).Nodup ∧ ∀ s ∈ strIds t.allData, JId.str s ∈ v1 ∧ JId.str s ∉ v

/-! # Theorems -/

/-! ## Size clamp -/

/-- The clamp never returns less than 8. -/
theorem clampDim_ge (v : JSNum) : 8 ≤ _clampDim v := by
  cases v with
  | fin q =>
    simp only [_clampDim]
    split_ifs
    · exact le_max_left _ _
    · norm_num
  | nan => norm_num [_clampDim]
  | posInf => norm_num [_clampDim]
  | negInf => norm_num [_clampDim]

/-! ## Breadth-first traversal -/

/-- Membership in merged levels. -/
theorem mem_flatten_zipAppend {α : Type} (a : α) :
    ∀ (xs ys : List (List α)),
      a ∈ (zipAppend xs ys).flatten ↔ a ∈ xs.flatten ∨ a ∈ ys.flatten
  | [], ys => by simp [zipAppend]
  | x :: xs, [] => by simp [zipAppend]
  | x :: xs, y :: ys => by
    simp only [zipAppend, List.flatten_cons, List.mem_append]
    rw [mem_flatten_zipAppend a xs ys]
    tauto

/-- The entries of `each` below a node: the node itself, then those of its children. -/
theorem mem_levels (e : Option HNode × HNode) (parent : Option HNode) (i : HInfo)
    (cs : List HNode) :
    e ∈ (levels parent (.mk i cs)).flatten ↔
      e = (parent, .mk i cs) ∨ e ∈ (levelsList (.mk i cs) cs).flatten := by
  simp [levels]

/-- The entries of `each` below a list of children. -/
theorem mem_levelsList_cons (e : Option HNode × HNode) (pn c : HNode) (cs : List HNode) :
    e ∈ (levelsList pn (c :: cs)).flatten ↔
      e ∈ (levels (if c.info.wrapped then some pn else none) c).flatten ∨
        e ∈ (levelsList pn cs).flatten := by
  simp only [levelsList]
  exact mem_flatten_zipAppend e _ _

mutual
/-- The parent recorded with a visited node is itself visited (or is the parent the
traversal started with). -/
theorem levels_parent_mem :
    ∀ (n : HNode) (parent : Option HNode), ∀ e ∈ (levels parent n).flatten, ∀ pn,
      e.1 = some pn → parent = some pn ∨ ∃ q, (q, pn) ∈ (levels parent n).flatten
  | .mk i cs, parent, e, he, pn, hpn => by
    rw [mem_levels] at he
    rcases he with rfl | he
    · exact Or.inl hpn
    · right
      rcases levelsList_parent_mem cs (.mk i cs) e he pn hpn with h | ⟨q, hq⟩
      · exact ⟨parent, by rw [mem_levels]; exact Or.inl (by rw [h])⟩
      · exact ⟨q, by rw [mem_levels]; exact Or.inr hq⟩
/-- The same below the children of the node `pnode`. -/
theorem levelsList_parent_mem :
    ∀ (cs : List HNode) (pnode : HNode), ∀ e ∈ (levelsList pnode cs).flatten, ∀ pn,
      e.1 = some pn → pn = pnode ∨ ∃ q, (q, pn) ∈ (levelsList pnode cs).flatten
  | [], pnode, e, he, pn, _ => by simp [levelsList] at he
  | c :: cs, pnode, e, he, pn, hpn => by
    rw [mem_levelsList_cons] at he
    rcases he with he | he
    · rcases levels_parent_mem c _ e he pn hpn with h | ⟨q, hq⟩
      · left
        by_cases hc : c.info.wrapped = true
        · simp only [hc, if_true, Option.some.injEq] at h
          exact h.symm
        · simp [hc] at h
      · exact Or.inr ⟨q, by rw [mem_levelsList_cons]; exact Or.inl hq⟩
    · rcases levelsList_parent_mem cs pnode e he pn hpn with h | ⟨q, hq⟩
      · exact Or.inl h
      · exact Or.inr ⟨q, by rw [mem_levelsList_cons]; exact Or.inr hq⟩
end

/-! ## Branched layout: the angle pass -/

/-- The angle pass does not change whether a node is a raw object. -/
theorem anglePass_wrapped (t acc : ℚ) (parent : Option HInfo) (n : HNode) :
    (anglePass t acc parent n).info.wrapped = n.info.wrapped := by
  cases n with
  | mk i cs => simp [anglePass, HNode.info]

/-- After the shift computed by `angleShift`, the edge has the required horizontal run. -/
theorem angleShift_spec (t : ℚ) (p : HInfo) (nx ny : ℚ) :
    |nx - p.x| / t ≤ (ny + angleShift t p nx ny) - (p.yRead + p._w) := by
  unfold angleShift
  simp only
  split_ifs with h1 h2
  · linarith
  · linarith
  · linarith

mutual
/-- Every edge below a node satisfies the angle bound after the angle pass. -/
theorem anglePass_edges (t : ℚ) :
    ∀ (n : HNode) (acc : ℚ) (pi : Option HInfo) (pn : Option HNode),
      pn.map HNode.info = pi → (pn ≠ none → n.info.wrapped = true) →
      ∀ e ∈ (levels pn (anglePass t acc pi n)).flatten, EdgeOK t e
  | .mk i cs, acc, pi, pn, hp, hw, e, he => by
    simp only [anglePass] at he
    rw [mem_levels] at he
    rcases he with rfl | he
    · intro q hq
      simp only at hq
      subst hq
      simp only [Option.map_some'] at hp
      subst hp
      have hwr : i.wrapped = true := by simpa [HNode.info] using hw (by simp)
      have := angleShift_spec t q.info i.x (i.y + acc)
      simpa [HNode.info, HInfo.yRead, hwr] using this
    · exact anglePassList_edges t cs _ _ _ rfl e he
/-- Every edge below the children of a node satisfies the angle bound after the pass. -/
theorem anglePassList_edges (t : ℚ) :
    ∀ (cs : List HNode) (acc : ℚ) (p : HInfo) (pn : HNode),
      pn.info = p →
      ∀ e ∈ (levelsList pn (anglePassList t acc p cs)).flatten, EdgeOK t e
  | [], acc, p, pn, hp, e, he => by
    simp [anglePassList, levelsList] at he
  | c :: cs, acc, p, pn, hp, e, he => by
    simp only [anglePassList] at he
    rw [mem_levelsList_cons] at he
    rcases he with he | he
    · rw [anglePass_wrapped] at he
      refine anglePass_edges t c acc _ _ ?_ ?_ e he
      · by_cases hc : c.info.wrapped = true <;> simp [hc, hp]
      · intro hne
        by_cases hc : c.info.wrapped = true
        · exact hc
        · simp [hc] at hne
    · exact anglePassList_edges t cs acc p pn hp e he
end

/-- A run of `layoutBranched` on a tree that returns has gone through steps 1 to 7 on
some tree. -/
theorem layoutBranched_ok
    (tidy : ℚ → ℚ → HNode → List Nat → ℚ × ℚ) (tanDeg : ℚ → ℚ)
    (showPredictedPaths : Bool) (S : Settings) (nodeW nodeH : HNode → JSNum)
    (keyFn : Option (HNode → String)) (mat : HNode) (st p : Placed)
    (hrun : layoutBranched tidy tanDeg showPredictedPaths S nodeW nodeH keyFn (some mat) st
      = .ok p) :
    ∃ t, p = layoutBranchedSteps tidy tanDeg S nodeW nodeH keyFn t := by
  simp only [layoutBranched] at hrun
  split_ifs at hrun <;> exact ⟨_, (Except.ok.inj hrun).symm⟩

/-- The angle bound of the branched layout in exact arithmetic.  The coordinates are
rationals here, where the source computes in doubles and rounds every sum, difference
and quotient; what follows is a property of the algorithm, not of its rounded results.
For every tree, every sizing function and every setting whose `ANG_MAX_DEG` is a finite
number of degrees with a positive tangent, every parent→child link emitted by a run of
`layoutBranched` that returns joins two placed nodes, with `sx = parent.y + parent.w`,
`sy = parent.x`, `tx = child.y`, `ty = child.x`, and has
`tx − sx ≥ |ty − sy| / tan(ANG_MAX_DEG)`, whatever the tidy-tree pass produced and
whatever `BRANCHED_GAP_MAX` is. -/
theorem layoutBranched_angle_bound
    (tidy : ℚ → ℚ → HNode → List Nat → ℚ × ℚ) (tanDeg : ℚ → ℚ)
    (showPredictedPaths : Bool) (S : Settings) (nodeW nodeH : HNode → JSNum)
    (keyFn : Option (HNode → String)) (mat : HNode) (st p : Placed) (d : ℚ)
    (hdeg : S.ANG_MAX_DEG = .fin d) (htan : 0 < tanDeg d)
    (hrun : layoutBranched tidy tanDeg showPredictedPaths S nodeW nodeH keyFn (some mat) st
      = .ok p) :
    ∀ l ∈ p.links,
      (∃ parent ∈ p.nodes, ∃ child ∈ p.nodes,
          l.sx = parent.y + parent.w ∧ l.sy = parent.x ∧ l.tx = child.y ∧ l.ty = child.x) ∧
      |l.ty - l.sy| / tanDeg d ≤ l.tx - l.sx := by
  intro l hl
  obtain ⟨t, rfl⟩ := layoutBranched_ok _ _ _ _ _ _ _ _ _ _ hrun
  simp only [layoutBranchedSteps, hdeg, tanMaxOf, htan, if_true] at hl ⊢
  rw [List.mem_filterMap] at hl
  obtain ⟨e, he, hl⟩ := hl
  cases hpn : e.1 with
  | none => simp [hpn] at hl
  | some pn =>
    simp only [hpn, Option.map_some', Option.some.injEq] at hl
    subst hl
    have hb := anglePass_edges (tanDeg d) _ 0 none none rfl (by simp) e he pn hpn
    have hp := levels_parent_mem _ none e he pn hpn
    rcases hp with hp | ⟨q, hq⟩
    · simp at hp
    · refine ⟨⟨emitNode (keyFn.getD defaultKey) pn, List.mem_map.2 ⟨(q, pn), hq, rfl⟩,
        emitNode (keyFn.getD defaultKey) e.2, List.mem_map.2 ⟨e, he, rfl⟩, ?_⟩, ?_⟩
      · simp [emitLink, emitNode]
      · simpa [emitLink] using hb

/-- The exact angle bound on a root with one child placed 1000 below it while the column
gap is capped at 500: the run returns, one link is emitted, and it satisfies the bound. -/
theorem layoutBranched_angle_bound_witness :
    exSettings.ANG_MAX_DEG = .fin 60 ∧ 0 < exTan 60 ∧
    ∃ p, layoutBranched exTidy exTan true exSettings exNodeW exNodeH none
        (some (hierarchy exNested)) {} = .ok p ∧
      p.links.map (fun l => (l.sx, l.sy, l.tx, l.ty)) = [(50, 0, 4350 / 7, 1000)] ∧
      ∀ l ∈ p.links, |l.ty - l.sy| / exTan 60 ≤ l.tx - l.sx :=
  ⟨rfl, (by norm_num [exTan]), _, rfl, (by decide!),
    fun l hl => (layoutBranched_angle_bound exTidy exTan true exSettings exNodeW exNodeH none
      (hierarchy exNested) {} _ 60 rfl (by norm_num [exTan]) rfl l hl).2⟩

/-! ## Sizes of placed nodes -/

/-- Clamping a clamped size changes nothing. -/
theorem clampDim_idem (v : JSNum) : _clampDim (.fin (_clampDim v)) = _clampDim v := by
  have h := clampDim_ge v
  generalize _clampDim v = c at h
  simp only [_clampDim]
  rw [if_pos (by linarith), max_eq_right h]

mutual
/-- After the size pass every node carries the clamped measurements of a node. -/
theorem measure_all (nodeW nodeH : HNode → JSNum) :
    ∀ t : HNode, (measure nodeW nodeH t).AllInfo (fun i => MeasuredOn nodeW nodeH i._w i._h)
  | .mk i cs => by
    simp only [measure, HNode.AllInfo]
    exact ⟨⟨.mk i cs, rfl, rfl⟩, measureList_all nodeW nodeH cs⟩
/-- After the size pass every node of a forest carries clamped measurements. -/
theorem measureList_all (nodeW nodeH : HNode → JSNum) :
    ∀ cs : List HNode,
      HNode.AllInfoList (fun i => MeasuredOn nodeW nodeH i._w i._h) (measureList nodeW nodeH cs)
  | [] => by simp [measureList, HNode.AllInfoList]
  | c :: cs => by
    simp only [measureList, HNode.AllInfoList]
    exact ⟨measure_all nodeW nodeH c, measureList_all nodeW nodeH cs⟩
end

mutual
/-- The angle pass keeps every property of the fields that does not depend on `y`. -/
theorem anglePass_all (P : HInfo → Prop) (hP : ∀ (i : HInfo) (y : ℚ), P i → P { i with y := y })
    (t : ℚ) :
    ∀ (n : HNode) (acc : ℚ) (parent : Option HInfo), n.AllInfo P →
      (anglePass t acc parent n).AllInfo P
  | .mk i cs, acc, parent, h => by
    simp only [HNode.AllInfo] at h
    simp only [anglePass, HNode.AllInfo]
    exact ⟨hP _ _ (hP _ _ h.1), anglePassList_all P hP t cs _ _ h.2⟩
/-- The angle pass keeps such a property on a forest. -/
theorem anglePassList_all (P : HInfo → Prop)
    (hP : ∀ (i : HInfo) (y : ℚ), P i → P { i with y := y }) (t : ℚ) :
    ∀ (cs : List HNode) (acc : ℚ) (p : HInfo), HNode.AllInfoList P cs →
      HNode.AllInfoList P (anglePassList t acc p cs)
  | [], acc, p, _ => by simp [anglePassList, HNode.AllInfoList]
  | c :: cs, acc, p, h => by
    simp only [HNode.AllInfoList] at h
    simp only [anglePassList, HNode.AllInfoList]
    exact ⟨anglePass_all P hP t c _ _ h.1, anglePassList_all P hP t cs _ _ h.2⟩
end

mutual
/-- A property of all nodes of a tree holds for every node the traversal visits. -/
theorem levels_all (P : HInfo → Prop) :
    ∀ (n : HNode) (parent : Option HNode), n.AllInfo P →
      ∀ e ∈ (levels parent n).flatten, P e.2.info
  | .mk i cs, parent, h, e, he => by
    simp only [HNode.AllInfo] at h
    rw [mem_levels] at he
    rcases he with rfl | he
    · exact h.1
    · exact levelsList_all P cs _ h.2 e he
/-- The same for the children of a node. -/
theorem levelsList_all (P : HInfo → Prop) :
    ∀ (cs : List HNode) (pn : HNode), HNode.AllInfoList P cs →
      ∀ e ∈ (levelsList pn cs).flatten, P e.2.info
  | [], pn, _, e, he => by simp [levelsList] at he
  | c :: cs, pn, h, e, he => by
    simp only [HNode.AllInfoList] at h
    rw [mem_levelsList_cons] at he
    rcases he with he | he
    · exact levels_all P c _ h.1 e he
    · exact levelsList_all P cs pn h.2 e he
end

/-- Every node placed by `layoutBranched` has the clamped measurements of a tree node. -/
theorem layoutBranched_sizes
    (tidy : ℚ → ℚ → HNode → List Nat → ℚ × ℚ) (tanDeg : ℚ → ℚ)
    (showPredictedPaths : Bool) (S : Settings) (nodeW nodeH : HNode → JSNum)
    (keyFn : Option (HNode → String)) (mat : HNode) (st p : Placed)
    (hrun : layoutBranched tidy tanDeg showPredictedPaths S nodeW nodeH keyFn (some mat) st
      = .ok p) :
    ∀ pn ∈ p.nodes, MeasuredOn nodeW nodeH pn.w pn.h := by
  intro pn hpn
  obtain ⟨t, rfl⟩ := layoutBranched_ok _ _ _ _ _ _ _ _ _ _ hrun
  simp only [layoutBranchedSteps] at hpn
  rw [List.mem_map] at hpn
  obtain ⟨e, he, rfl⟩ := hpn
  simp only [emitNode]
  refine levels_all (fun i => MeasuredOn nodeW nodeH i._w i._h) _ none ?_ e he
  split
  · split
    · exact anglePass_all _ (fun i y h => h) _ _ _ _ (measure_all nodeW nodeH _)
    · exact measure_all nodeW nodeH _
  · exact measure_all nodeW nodeH _

mutual
/-- `buildProfiles` gives every node the clamped measurements of a tree node. -/
theorem buildProfiles_all (S : Settings) (nodeW nodeH : HNode → JSNum)
    (bcp : Option (HNode → Option Nat)) :
    ∀ t : HNode, (buildProfiles S nodeW nodeH bcp t).AllSize (MeasuredOn nodeW nodeH)
  | .mk i cs => by
    simp only [buildProfiles, LNode.AllSize]
    exact ⟨⟨.mk i cs, rfl, rfl⟩, buildProfilesList_all S nodeW nodeH bcp cs⟩
/-- The same for a forest. -/
theorem buildProfilesList_all (S : Settings) (nodeW nodeH : HNode → JSNum)
    (bcp : Option (HNode → Option Nat)) :
    ∀ cs : List HNode,
      LNode.AllSizeList (MeasuredOn nodeW nodeH) (buildProfilesList S nodeW nodeH bcp cs)
  | [] => by simp [buildProfilesList, LNode.AllSizeList]
  | c :: cs => by
    simp only [buildProfilesList, LNode.AllSizeList]
    exact ⟨buildProfiles_all S nodeW nodeH bcp c, buildProfilesList_all S nodeW nodeH bcp cs⟩
end

mutual
/-- Every node that `placeSubtree` pushes has the clamp of the sizes of a tree node. -/
theorem placeSubtree_nodes (P : ℚ → ℚ → Prop) (S : Settings) (tanMax : Option ℚ)
    (getKey : HNode → String) (firstGap : ℚ) :
    ∀ (n : LNode) (baseY : ℚ) (absDepth : Nat) (shift : ℚ) (st : LinState),
      n.AllSize P → (∀ pn ∈ st.placed.nodes, PlacedFrom P pn) →
      ∀ pn ∈ (placeSubtree S tanMax getKey firstGap n baseY absDepth shift st).placed.nodes,
        PlacedFrom P pn
  | .mk node w0 h0 main offsets prof down kids, baseY, absDepth, shift, st, hn, hst => by
    simp only [LNode.AllSize] at hn
    simp only [placeSubtree]
    apply placeKids_nodes P S tanMax getKey firstGap _ baseY absDepth shift false main kids 0
      offsets _ hn.2
    apply placeKids_nodes P S tanMax getKey firstGap _ baseY absDepth shift true main kids 0
      offsets _ hn.2
    intro pn hpn
    simp only [List.mem_append, List.mem_singleton] at hpn
    rcases hpn with hpn | rfl
    · exact hst pn hpn
    · exact ⟨w0, h0, hn.1, rfl, rfl⟩
/-- Every node that a pass over the children pushes has such sizes. -/
theorem placeKids_nodes (P : ℚ → ℚ → Prop) (S : Settings) (tanMax : Option ℚ)
    (getKey : HNode → String) (firstGap : ℚ) (ppn : PlacedNode) (baseY : ℚ) (absDepth : Nat)
    (shift : ℚ) (mainPass : Bool) (main : Option Nat) :
    ∀ (cs : List LNode) (k : Nat) (offsets : List ℚ) (st : LinState),
      LNode.AllSizeList P cs → (∀ pn ∈ st.placed.nodes, PlacedFrom P pn) →
      ∀ pn ∈ (placeKids S tanMax getKey firstGap ppn baseY absDepth shift mainPass main k cs
                offsets st).placed.nodes, PlacedFrom P pn
  | [], k, offsets, st, _, hst => by
    simpa [placeKids] using hst
  | c :: cs, k, offsets, st, hcs, hst => by
    simp only [LNode.AllSizeList] at hcs
    simp only [placeKids]
    apply placeKids_nodes P S tanMax getKey firstGap ppn baseY absDepth shift mainPass main cs
      (k + 1) offsets.tail _ hcs.2
    split
    · simp only
      exact placeSubtree_nodes P S tanMax getKey firstGap c _ _ _ _ hcs.1 (by simpa using hst)
    · exact hst
end

/-- Every node placed by the body of `layoutLinear` has the clamped measurements of a tree
node. -/
theorem layoutLinearTree_sizes (tanDeg : ℚ → ℚ) (S : Settings)
    (bcp : Option (HNode → Option Nat)) (nodeW nodeH : HNode → JSNum)
    (keyFn : Option (HNode → String)) (mat : HNode) :
    ∀ pn ∈ (layoutLinearTree tanDeg S bcp nodeW nodeH keyFn mat).nodes,
      MeasuredOn nodeW nodeH pn.w pn.h := by
  intro pn hpn
  have h := placeSubtree_nodes (MeasuredOn nodeW nodeH) S (tanMaxOf tanDeg S.ANG_MAX_DEG)
    (keyFn.getD defaultKey) _ (buildProfiles S nodeW nodeH bcp mat) 0 0 0 {}
    (buildProfiles_all S nodeW nodeH bcp mat) (by simp) pn hpn
  obtain ⟨w, h1, ⟨n, hw, hh⟩, hpw, hph⟩ := h
  refine ⟨n, ?_, ?_⟩
  · rw [hpw, hw, clampDim_idem]
  · rw [hph, hh, clampDim_idem]

/-- A node of the graph after `setNode` is the node set or was there before. -/
theorem setNode_mem (n m : DNode) : ∀ g : List DNode, m ∈ setNode g n → m = n ∨ m ∈ g
  | [], h => by
    simp only [setNode, List.mem_singleton] at h
    exact Or.inl h
  | a :: g, h => by
    simp only [setNode] at h
    split at h
    · rcases List.mem_cons.1 h with h | h
      · exact Or.inl h
      · exact Or.inr (List.mem_cons_of_mem _ h)
    · rcases List.mem_cons.1 h with h | h
      · exact Or.inr (by rw [h]; exact List.mem_cons_self _ _)
      · rcases setNode_mem n m g h with h | h
        · exact Or.inl h
        · exact Or.inr (List.mem_cons_of_mem _ h)

/-- Every node label built by the node loop has clamped measurements. -/
theorem buildNodes_sizes (nodeW nodeH : NodeData → Except String JSNum) :
    ∀ (ns : List NodeData) (g g1 : List DNode), buildNodes nodeW nodeH ns g = .ok g1 →
      (∀ m ∈ g, MeasuredOk nodeW nodeH m.width m.height) →
      ∀ m ∈ g1, MeasuredOk nodeW nodeH m.width m.height
  | [], g, g1, h, hg => by
    simp only [buildNodes, Except.ok.injEq] at h
    subst h
    exact hg
  | n :: ns, g, g1, h, hg => by
    simp only [buildNodes] at h
    split at h
    · simp at h
    · rename_i wv hw
      split at h
      · simp at h
      · rename_i hv hh
        refine buildNodes_sizes nodeW nodeH ns _ g1 h ?_
        intro m hm
        rcases setNode_mem _ m g hm with rfl | hm
        · exact ⟨n, wv, hv, hw, hh, rfl, rfl⟩
        · exact hg m hm

/-- A node pushed by the node loop of `_toPlaced` has the sizes of a graph node. -/
theorem toPlacedNodes_mem (keyFn : Option (NodeData → Except String String)) :
    ∀ (ns : List DNode) (acc : List PlacedNode) (pn : PlacedNode),
      pn ∈ (toPlacedNodes keyFn ns acc).1 →
      pn ∈ acc ∨ ∃ m ∈ ns, pn.w = m.width ∧ pn.h = m.height
  | [], acc, pn, h => by
    simp only [toPlacedNodes] at h
    exact Or.inl h
  | n :: ns, acc, pn, h => by
    simp only [toPlacedNodes] at h
    split at h
    · exact Or.inl h
    · rcases toPlacedNodes_mem keyFn ns _ pn h with h1 | ⟨m, hm, h2⟩
      · simp only [List.mem_append, List.mem_singleton] at h1
        rcases h1 with h1 | rfl
        · exact Or.inl h1
        · exact Or.inr ⟨n, List.mem_cons_self _ _, rfl, rfl⟩
      · exact Or.inr ⟨m, List.mem_cons_of_mem _ hm, h2⟩

/-- The fan-anchor repair changes no node's `x`, `w`, `h`, key or data and keeps the
number and order of the nodes: each node after the call comes from one before it. -/
theorem enforceFanAnchorSpacing_frame (tanDeg : ℚ → ℚ) (S : Option Settings) (st : Placed) :
    ∀ pn ∈ (_enforceFanAnchorSpacing tanDeg S st).nodes,
      ∃ pn0 ∈ st.nodes, pn.x = pn0.x ∧ pn.w = pn0.w ∧ pn.h = pn0.h ∧ pn.key = pn0.key ∧
        pn.data = pn0.data := by
  intro pn hpn
  unfold _enforceFanAnchorSpacing at hpn
  split at hpn
  · exact ⟨pn, hpn, rfl, rfl, rfl, rfl, rfl⟩
  · split at hpn
    · simp only at hpn
      split at hpn
      · simp only [List.mem_map] at hpn
        obtain ⟨pn0, h0, rfl⟩ := hpn
        refine ⟨pn0, h0, ?_⟩
        split <;> simp
      · exact ⟨pn, hpn, rfl, rfl, rfl, rfl, rfl⟩
    · exact ⟨pn, hpn, rfl, rfl, rfl, rfl, rfl⟩

/-- Inserting by index adds the element and keeps the others. -/
theorem insertByIndex_perm (x : Nat × DNode) :
    ∀ l : List (Nat × DNode), (insertByIndex x l).Perm (x :: l)
  | [] => List.Perm.refl _
  | y :: l => by
    simp only [insertByIndex]
    split
    · exact List.Perm.refl _
    · exact ((insertByIndex_perm x l).cons y).trans (List.Perm.swap x y l)

/-- Sorting by index permutes. -/
theorem foldr_insertByIndex_perm :
    ∀ l : List (Nat × DNode), (l.foldr insertByIndex []).Perm l
  | [] => List.Perm.refl _
  | x :: l => (insertByIndex_perm x _).trans ((foldr_insertByIndex_perm l).cons x)

/-- The nodes with an array-index id, tagged by that index and then untagged. -/
theorem map_snd_filterMap_index :
    ∀ l : List DNode,
      (l.filterMap (fun n => (arrayIndex n.id).map (fun k => (k, n)))).map (fun x => x.2)
        = l.filter (fun n => (arrayIndex n.id).isSome)
  | [] => rfl
  | n :: l => by
    cases h : arrayIndex n.id with
    | none => simp [List.filterMap_cons, List.filter_cons, h, map_snd_filterMap_index l]
    | some k => simp [List.filterMap_cons, List.filter_cons, h, map_snd_filterMap_index l]

/-- `dagreGraph.nodes()` lists every node of the graph exactly once. -/
theorem graphNodes_perm (g : DGraph) : (graphNodes g).Perm g.nodes := by
  unfold graphNodes
  have h1 := ((foldr_insertByIndex_perm
    (g.nodes.filterMap (fun n => (arrayIndex n.id).map (fun k => (k, n))))).map
      (fun x => x.2))
  rw [map_snd_filterMap_index] at h1
  refine (h1.append_right _).trans ?_
  have h2 := List.filter_append_perm (fun n : DNode => (arrayIndex n.id).isSome) g.nodes
  refine List.Perm.trans ?_ h2
  refine List.Perm.append_left _ ?_
  refine List.Perm.of_eq (List.filter_congr ?_)
  intro n _
  cases arrayIndex n.id <;> rfl

/-- Every node placed by `layoutDagSugiyama` has clamped measurements, also when the call
ends in the `catch` block. -/
theorem layoutDagSugiyama_sizes (dagre : Option (DGraph → Except String (String → ℚ × ℚ)))
    (tanDeg : ℚ → ℚ) (showPredictedPaths : Bool) (graphV1 : Option GraphV1)
    (key : Option (NodeData → Except String String)) (S : Option Settings)
    (nodeW nodeH : NodeData → Except String JSNum)
    (sizeSvg : List PlacedNode → Except String BBox) (st : Placed) :
    ∀ pn ∈ (layoutDagSugiyama dagre tanDeg showPredictedPaths graphV1 key S nodeW nodeH
              sizeSvg st).1.nodes, MeasuredOk nodeW nodeH pn.w pn.h := by
  intro pn hpn
  unfold layoutDagSugiyama at hpn
  simp only at hpn
  split at hpn
  · simp at hpn
  · split at hpn
    · simp at hpn
    · split at hpn
      · simp at hpn
      · rename_i g hg
        split at hpn
        · simp at hpn
        · rename_i pos hpos
          have hgn : ∀ m ∈ (applyLayout pos g).nodes, MeasuredOk nodeW nodeH m.width m.height := by
            intro m hm
            simp only [applyLayout, List.mem_map] at hm
            obtain ⟨m0, hm0, rfl⟩ := hm
            simp only [_buildDagreGraph_GraphV1] at hg
            split at hg
            · simp at hg
            · split at hg
              · simp at hg
              · rename_i ns hns
                simp only [Except.ok.injEq] at hg
                subst hg
                exact buildNodes_sizes nodeW nodeH _ [] ns hns (by simp) m0 hm0
          have hst1 : ∀ q ∈ (_toPlaced (applyLayout pos g) key { nodes := [], links := [] }).1.nodes,
              MeasuredOk nodeW nodeH q.w q.h := by
            intro q hq
            have hq1 : q ∈ (toPlacedNodes key (graphNodes (applyLayout pos g)) []).1 := by
              simp only [_toPlaced] at hq
              split at hq
              · rename_i ns err heq
                simp only at hq
                rw [heq]
                exact hq
              · rename_i ns u heq
                simp only at hq
                rw [heq]
                exact hq
            rcases toPlacedNodes_mem key _ _ q hq1 with h1 | ⟨m, hm, hw, hh⟩
            · simp at h1
            · rw [hw, hh]
              exact hgn m ((graphNodes_perm _).mem_iff.1 hm)
          split at hpn
          · rename_i st1 err heq
            simp only at hpn
            have := hst1 pn (by rw [heq]; exact hpn)
            exact this
          · rename_i st1 u heq
            have hst2 : ∀ q ∈ (_enforceFanAnchorSpacing tanDeg S st1).nodes,
                MeasuredOk nodeW nodeH q.w q.h := by
              intro q hq
              obtain ⟨q0, hq0, _, hw, hh, _⟩ := enforceFanAnchorSpacing_frame tanDeg S st1 q hq
              rw [hw, hh]
              exact hst1 q0 (by rw [heq]; exact hq0)
            split at hpn
            · exact hst2 pn hpn
            · exact hst2 pn hpn

/-- C3. In all three strategies every placed node has `w ≥ 8` and `h ≥ 8` whatever the
sizing callbacks return: its `w` and `h` are `_clampDim` of what `nodeW` and `nodeH`
returned for a node, where `_clampDim` maps `NaN`, `±Infinity`, zero and negative sizes to
exactly 24 and any other size `v` to `max(8, v)`; the result is always a finite number.
For `layoutBranched` and `layoutLinear` the statement is about the runs that return (a
run that throws places nothing).  For `layoutDagSugiyama` the layout primitive returns the
width and height it was given (it only writes coordinates), and the statement covers the
runs that end in `catch`. -/
theorem placed_sizes_clamped :
    (_clampDim .nan = 24 ∧ _clampDim .posInf = 24 ∧ _clampDim .negInf = 24 ∧
      (∀ q : ℚ, q ≤ 0 → _clampDim (.fin q) = 24) ∧
      (∀ q : ℚ, 0 < q → _clampDim (.fin q) = max 8 q)) ∧
    (∀ (tidy : ℚ → ℚ → HNode → List Nat → ℚ × ℚ) (tanDeg : ℚ → ℚ)
        (showPredictedPaths : Bool) (S : Settings) (nodeW nodeH : HNode → JSNum)
        (keyFn : Option (HNode → String)) (mat : HNode) (st placed : Placed),
      layoutBranched tidy tanDeg showPredictedPaths S nodeW nodeH keyFn (some mat) st
        = .ok placed →
      ∀ pn ∈ placed.nodes, MeasuredOn nodeW nodeH pn.w pn.h ∧ 8 ≤ pn.w ∧ 8 ≤ pn.h) ∧
    (∀ (tanDeg : ℚ → ℚ) (includeGhosts : Bool) (S : Settings)
        (bestChildPack : Option (HNode → Option Nat)) (nodeW nodeH : HNode → JSNum)
        (keyFn : Option (HNode → String)) (input : LinearInput) (st placed : Placed),
      input ≠ .nothing →
      layoutLinear tanDeg includeGhosts S bestChildPack nodeW nodeH keyFn input st
        = some (.ok placed) →
      ∀ pn ∈ placed.nodes, MeasuredOn nodeW nodeH pn.w pn.h ∧ 8 ≤ pn.w ∧ 8 ≤ pn.h) ∧
    (∀ (dagre : Option (DGraph → Except String (String → ℚ × ℚ))) (tanDeg : ℚ → ℚ)
        (showPredictedPaths : Bool) (graphV1 : Option GraphV1)
        (key : Option (NodeData → Except String String)) (S : Option Settings)
        (nodeW nodeH : NodeData → Except String JSNum)
        (sizeSvg : List PlacedNode → Except String BBox) (st : Placed),
      ∀ pn ∈ (layoutDagSugiyama dagre tanDeg showPredictedPaths graphV1 key S nodeW nodeH
                sizeSvg st).1.nodes,
        MeasuredOk nodeW nodeH pn.w pn.h ∧ 8 ≤ pn.w ∧ 8 ≤ pn.h) := by
  have hge : ∀ {ν : Type} (nodeW nodeH : ν → JSNum) (w h : ℚ),
      MeasuredOn nodeW nodeH w h → 8 ≤ w ∧ 8 ≤ h := by
    rintro ν nodeW nodeH w h ⟨n, rfl, rfl⟩
    exact ⟨clampDim_ge _, clampDim_ge _⟩
  refine ⟨⟨by simp [_clampDim], by simp [_clampDim], by simp [_clampDim], ?_, ?_⟩, ?_, ?_, ?_⟩
  · intro q hq
    simp [_clampDim, not_lt.2 hq]
  · intro q hq
    simp [_clampDim, hq]
  · intro tidy tanDeg sp S nodeW nodeH keyFn mat st placed hrun pn hpn
    have h := layoutBranched_sizes tidy tanDeg sp S nodeW nodeH keyFn mat st placed hrun pn hpn
    exact ⟨h, hge nodeW nodeH _ _ h⟩
  · intro tanDeg inc S bcp nodeW nodeH keyFn input st placed hne hrun pn hpn
    have key : ∀ mat, placed = layoutLinearTree tanDeg S bcp nodeW nodeH keyFn mat →
        MeasuredOn nodeW nodeH pn.w pn.h := by
      intro mat hmat
      subst hmat
      exact layoutLinearTree_sizes tanDeg S bcp nodeW nodeH keyFn mat pn hpn
    have h : MeasuredOn nodeW nodeH pn.w pn.h := by
      cases input with
      | nothing => exact absurd rfl hne
      | tree mat =>
        simp only [layoutLinear, Option.some.injEq, Except.ok.injEq] at hrun
        exact key mat hrun.symm
      | graph g =>
        simp only [layoutLinear] at hrun
        split at hrun
        · simp at hrun
        · simp at hrun
        · rename_i mat _
          simp only [Option.some.injEq, Except.ok.injEq] at hrun
          exact key mat hrun.symm
    exact ⟨h, hge nodeW nodeH _ _ h⟩
  · intro dagre tanDeg sp g key S nodeW nodeH sizeSvg st pn hpn
    have h := layoutDagSugiyama_sizes dagre tanDeg sp g key S nodeW nodeH sizeSvg st pn hpn
    obtain ⟨d, vw, vh, _, _, hw, hh⟩ := h
    exact ⟨⟨d, vw, vh, ‹_›, ‹_›, hw, hh⟩, by rw [hw]; exact clampDim_ge _,
      by rw [hh]; exact clampDim_ge _⟩

/-- C3, on `layoutLinear` for a root with one child whose width is measured as `NaN` and
whose height as `-5`: the run returns, both nodes are placed 24 × 24, and the theorem
applies. -/
theorem placed_sizes_clamped_witness :
    LinearInput.tree (hierarchy exNested) ≠ .nothing ∧
    layoutLinear exTan true exSettings none exNodeNaN exNodeNeg none
        (.tree (hierarchy exNested)) {}
      = some (.ok (layoutLinearTree exTan exSettings none exNodeNaN exNodeNeg none
          (hierarchy exNested))) ∧
    (layoutLinearTree exTan exSettings none exNodeNaN exNodeNeg none
        (hierarchy exNested)).nodes.map (fun pn => (pn.w, pn.h)) = [(24, 24), (24, 24)] ∧
    ∀ pn ∈ (layoutLinearTree exTan exSettings none exNodeNaN exNodeNeg none
              (hierarchy exNested)).nodes,
      MeasuredOn exNodeNaN exNodeNeg pn.w pn.h ∧ 8 ≤ pn.w ∧ 8 ≤ pn.h :=
  ⟨(by intro h; cases h), rfl, (by decide!),
    placed_sizes_clamped.2.2.1 exTan true exSettings none exNodeNaN exNodeNeg none
      (.tree (hierarchy exNested)) {} _ (by intro h; cases h) rfl⟩

/-! ## Rank-based layout: link probability -/

/-- C4 fails on the code. Node `A` has the empirical-children table `{x: 3}` and an edge
without explicit probability to node `B`, whose token `constructor` is not in the table:
the claim gives the link the probability `0`.  `_toPlaced` reads
`empChildren['constructor']`, which on a plain object is the inherited function, and
divides it by the total `3`: the link from `A` to `B` gets `p = NaN`.  On the table
`{x: 3, y: 1}` of the specification the two links get `3/4` and `1/4`. -/
theorem toPlaced_prob_inherited_token :
    (layoutDagSugiyama (some exDagre) exTan true (some exInheritedToken) none (some {})
        exNodeWData exNodeHData (fun ns => .ok (sizeSvgToContent ns)) {}).1.links.map
        (fun l => (l.skey, l.tkey, l.ghost, l.p))
      = [(some "A", some "B", false, .nan)] ∧
    ([("x", 3)] : List (String × Nat)).lookup "constructor" = none ∧
    (layoutDagSugiyama (some exDagre) exTan true (some exGraph) none (some {})
        exNodeWData exNodeHData (fun ns => .ok (sizeSvgToContent ns)) {}).1.links.map
        (fun l => (l.skey, l.tkey, l.p))
      = [(some "A", some "X", .fin (3 / 4)), (some "A", some "Y", .fin (1 / 4))] := by
  refine ⟨by decide!, by decide, by decide!⟩

/-! ## Viewport renderer -/

/-- For a positive scale, `nodeVisible` is the intersection test of the screen rectangle
with the viewport expanded by 300 px. -/
theorem nodeVisible_iff (t : Transform) (vp : Viewport) (n : PlacedNode)
    (hk : 0 < t.k) (hcw : 0 ≤ vp.clientWidth) (hch : 0 ≤ vp.clientHeight)
    (hw : 0 ≤ n.w) (hh : 0 ≤ n.h) :
    nodeVisible t vp n = true ↔ intersectsViewport t vp n := by
  have hke : effK t = t.k := by simp [effK, ne_of_gt hk]
  have hwk : 0 ≤ n.w * t.k := mul_nonneg hw (le_of_lt hk)
  have hhk : 0 ≤ n.h * t.k := mul_nonneg hh (le_of_lt hk)
  simp only [nodeVisible, hke, Bool.and_eq_true, decide_eq_true_eq, ge_iff_le,
    intersectsViewport, inScreenRect, inExpandedViewport]
  constructor
  · rintro ⟨⟨⟨h1, h2⟩, h3⟩, h4⟩
    refine ⟨max (n.y * t.k + t.x) (vp.scrollLeft - 300),
      max ((n.x - n.h / 2) * t.k + t.y) (vp.scrollTop - 300), ?_⟩
    refine ⟨⟨le_max_left _ _, max_le (by nlinarith) (by nlinarith), le_max_left _ _,
      max_le (by nlinarith) (by nlinarith)⟩,
      le_max_right _ _, max_le (by linarith) (by linarith), le_max_right _ _,
      max_le (by linarith) (by linarith)⟩
  · rintro ⟨px, py, ⟨a1, a2, a3, a4⟩, b1, b2, b3, b4⟩
    refine ⟨⟨⟨?_, ?_⟩, ?_⟩, ?_⟩
    · nlinarith
    · linarith
    · linarith
    · linarith

/-- C5 as stated fails at scale `k = 0`: `renderVisible` then uses the scale 1
(`curTransform.k || 1`).  With `k = 0`, zero pan and a 100 × 100 viewport at the origin,
the screen rectangle of a node at `y = 10000` as the claim writes it is the point `(0, 0)`,
which lies in the expanded viewport, yet the node is not in the visible set. -/
theorem renderVisible_scale_zero_counterexample :
    intersectsViewport { k := 0, x := 0, y := 0 } exViewport exFarNode ∧
    exFarNode ∉ (renderVisible { nodes := [exFarNode], links := [] }
      { k := 0, x := 0, y := 0 } exViewport).1 := by
  refine ⟨⟨0, 0, ?_, ?_⟩, by decide!⟩
  · norm_num [inScreenRect, exFarNode]
  · norm_num [inExpandedViewport, exViewport]

/-- C5, amended. For every transform with positive scale `k` and every scroll rectangle,
the visible node set computed by `renderVisible` is exactly the placed nodes whose screen
rectangle `[y·k + tx, (y + w)·k + tx] × [(x − h/2)·k + ty, (x + h/2)·k + ty]` intersects
the scroll viewport expanded by 300 px on every side; a node lying entirely more than
300 px outside the viewport is not in the visible set; and the visible nodes are placed
nodes as they stand (computing the visible set changes no node's `x`, `y`, `w`, `h`). -/
theorem renderVisible_nodes (placed : Placed) (t : Transform) (vp : Viewport)
    (hk : 0 < t.k) (hcw : 0 ≤ vp.clientWidth) (hch : 0 ≤ vp.clientHeight)
    (hsize : ∀ n ∈ placed.nodes, 0 ≤ n.w ∧ 0 ≤ n.h) :
    (∀ n, n ∈ (renderVisible placed t vp).1 ↔ n ∈ placed.nodes ∧ intersectsViewport t vp n) ∧
    (∀ n ∈ placed.nodes,
      ((n.y + n.w) * t.k + t.x < vp.scrollLeft - 300 ∨
        vp.scrollLeft + vp.clientWidth + 300 < n.y * t.k + t.x ∨
        (n.x + n.h / 2) * t.k + t.y < vp.scrollTop - 300 ∨
        vp.scrollTop + vp.clientHeight + 300 < (n.x - n.h / 2) * t.k + t.y) →
      n ∉ (renderVisible placed t vp).1) ∧
    (renderVisible placed t vp).1.Sublist placed.nodes := by
  have hiff : ∀ n, n ∈ (renderVisible placed t vp).1 ↔
      n ∈ placed.nodes ∧ intersectsViewport t vp n := by
    intro n
    simp only [renderVisible, List.mem_filter]
    constructor
    · rintro ⟨hn, hv⟩
      exact ⟨hn, (nodeVisible_iff t vp n hk hcw hch (hsize n hn).1 (hsize n hn).2).1 hv⟩
    · rintro ⟨hn, hv⟩
      exact ⟨hn, (nodeVisible_iff t vp n hk hcw hch (hsize n hn).1 (hsize n hn).2).2 hv⟩
  refine ⟨hiff, ?_, ?_⟩
  · intro n hn hout hvis
    obtain ⟨_, px, py, ⟨a1, a2, a3, a4⟩, b1, b2, b3, b4⟩ := (hiff n).1 hvis
    rcases hout with h | h | h | h <;> linarith
  · simp only [renderVisible]
    exact List.filter_sublist _

/-- C5 amended, at scale 1 on the two example nodes: the hypotheses hold, the near node is
visible and the far one is not. -/
theorem renderVisible_nodes_witness :
    (0 : ℚ) < (Transform.mk 1 0 0).k ∧ 0 ≤ exViewport.clientWidth ∧
    0 ≤ exViewport.clientHeight ∧
    (renderVisible { nodes := [exNearNode, exFarNode], links := [exStaleLink] }
        (Transform.mk 1 0 0) exViewport).1 = [exNearNode] ∧
    (renderVisible { nodes := [exNearNode, exFarNode], links := [exStaleLink] }
        (Transform.mk 1 0 0) exViewport).1.Sublist [exNearNode, exFarNode] :=
  ⟨(by norm_num), (by norm_num [exViewport]), (by norm_num [exViewport]), (by decide!),
    (renderVisible_nodes { nodes := [exNearNode, exFarNode], links := [exStaleLink] }
      (Transform.mk 1 0 0) exViewport (by norm_num) (by norm_num [exViewport])
      (by norm_num [exViewport])
      (by
        intro n hn
        simp only [List.mem_cons, List.mem_singleton, List.not_mem_nil, or_false] at hn
        rcases hn with rfl | rfl <;> norm_num [exNearNode, exFarNode])).2.2⟩

/-- With pairwise distinct keys, the key lookup of a placed node finds that node. -/
theorem byKeyGet_of_mem (nodes : List PlacedNode) (hnd : (nodes.map (fun n => n.key)).Nodup)
    (s : PlacedNode) (hs : s ∈ nodes) : byKeyGet nodes (some s.key) = some s := by
  simp only [byKeyGet]
  have hsome : (nodes.reverse.find? (fun n => n.key == s.key)).isSome := by
    rw [List.find?_isSome]
    exact ⟨s, by simpa using hs, by simp⟩
  obtain ⟨x, hx⟩ := Option.isSome_iff_exists.1 hsome
  have hxk := List.find?_some hx
  have hxm := List.mem_of_find?_eq_some hx
  simp only [beq_iff_eq] at hxk
  have hxs : x = s := List.inj_on_of_nodup_map hnd (by simpa using hxm) hs hxk
  rw [hx, hxs]

/-- A key that is among the visible keys is the key of a visible node. -/
theorem hasKey_visible (nodesV : List PlacedNode) (key : Option String)
    (h : hasKey (nodesV.map (fun n => n.key)) key = true) :
    ∃ s ∈ nodesV, key = some s.key := by
  cases key with
  | none => simp [hasKey] at h
  | some k =>
    simp only [hasKey, List.contains_eq_any_beq, List.any_eq_true, List.mem_map,
      beq_iff_eq] at h
    obtain ⟨k1, ⟨s, hs, hk⟩, hk1⟩ := h
    exact ⟨s, hs, by rw [hk, hk1]⟩

/-- The drawn links depend on the stored links only through their fields other than
`sx`, `sy`, `tx`, `ty`. -/
theorem resolveLink_strip (nodes : List PlacedNode) (l : PlacedLink) :
    resolveLink nodes l.strip = resolveLink nodes l := by
  simp only [resolveLink, PlacedLink.strip]

/-- C6. For placed nodes with pairwise distinct keys, every link drawn by `renderVisible`
comes from a placed link whose source key and target key are keys of visible nodes `s` and
`t`, found by key lookup, and its drawn endpoints are `(s.y + s.w, s.x)` and `(t.y, t.x)`;
the drawn links do not depend on the `sx`, `sy`, `tx`, `ty` stored on the placed links
(two link arrays that agree up to those fields are drawn alike), so that two calls with
unchanged nodes, transform and scroll rectangle yield the same links and endpoints. -/
theorem renderVisible_links (placed : Placed) (t : Transform) (vp : Viewport)
    (hnd : (placed.nodes.map (fun n => n.key)).Nodup) :
    (∀ d ∈ (renderVisible placed t vp).2,
      ∃ l ∈ placed.links, ∃ s ∈ (renderVisible placed t vp).1,
        ∃ u ∈ (renderVisible placed t vp).1,
          l.skey = some s.key ∧ l.tkey = some u.key ∧
          byKeyGet placed.nodes l.skey = some s ∧ byKeyGet placed.nodes l.tkey = some u ∧
          d = { l with sx := s.y + s.w, sy := s.x, tx := u.y, ty := u.x }) ∧
    (∀ links2 : List PlacedLink,
      links2.map PlacedLink.strip = placed.links.map PlacedLink.strip →
      (renderVisible { placed with links := links2 } t vp).2 = (renderVisible placed t vp).2) := by
  constructor
  · intro d hd
    simp only [renderVisible, List.mem_filterMap, List.mem_filter, Bool.and_eq_true] at hd
    obtain ⟨l, ⟨hl, hs, hu⟩, hres⟩ := hd
    obtain ⟨s, hsv, hsk⟩ := hasKey_visible _ _ hs
    obtain ⟨u, huv, huk⟩ := hasKey_visible _ _ hu
    have hsm : s ∈ placed.nodes := (List.mem_filter.1 hsv).1
    have hum : u ∈ placed.nodes := (List.mem_filter.1 huv).1
    have hbs := byKeyGet_of_mem placed.nodes hnd s hsm
    have hbu := byKeyGet_of_mem placed.nodes hnd u hum
    refine ⟨l, hl, s, hsv, u, huv, hsk, huk, by rw [hsk, hbs], by rw [huk, hbu], ?_⟩
    simp only [resolveLink] at hres
    rw [hsk, hbs, huk, hbu] at hres
    simp only [Option.some.injEq] at hres
    rw [← hres, hsk, huk]
  · intro links2 h
    have key : ∀ (ls : List PlacedLink),
        (ls.filter (fun l =>
            hasKey ((placed.nodes.filter (nodeVisible t vp)).map (fun n => n.key)) l.skey &&
            hasKey ((placed.nodes.filter (nodeVisible t vp)).map (fun n => n.key)) l.tkey)).filterMap
          (resolveLink placed.nodes) =
        ((ls.map PlacedLink.strip).filter (fun l =>
            hasKey ((placed.nodes.filter (nodeVisible t vp)).map (fun n => n.key)) l.skey &&
            hasKey ((placed.nodes.filter (nodeVisible t vp)).map (fun n => n.key)) l.tkey)).filterMap
          (resolveLink placed.nodes) := by
      intro ls
      induction ls with
      | nil => rfl
      | cons l ls ih =>
        simp only [List.map_cons, List.filter_cons]
        have hk1 : l.strip.skey = l.skey := rfl
        have hk2 : l.strip.tkey = l.tkey := rfl
        rw [hk1, hk2]
        split
        · simp only [List.filterMap_cons, resolveLink_strip, ih]
        · exact ih
    simp only [renderVisible]
    rw [key links2, key placed.links, h]

/-- C6, on two nodes at scale 1 in a viewport wide enough to show both, and a link whose
stored endpoints are stale: the keys are distinct and the link is drawn from the node
positions. -/
theorem renderVisible_links_witness :
    (([exNearNode, exFarNode] : List PlacedNode).map (fun n => n.key)).Nodup ∧
    (renderVisible { nodes := [exNearNode, exFarNode], links := [exStaleLink] }
        (Transform.mk 1 0 0) { exViewport with clientWidth := 20000 }).2
      = [{ exStaleLink with sx := 50, sy := 0, tx := 10000, ty := 0 }] ∧
    (∀ links2 : List PlacedLink,
      links2.map PlacedLink.strip = [exStaleLink].map PlacedLink.strip →
      (renderVisible { nodes := [exNearNode, exFarNode], links := links2 }
          (Transform.mk 1 0 0) { exViewport with clientWidth := 20000 }).2
        = (renderVisible { nodes := [exNearNode, exFarNode], links := [exStaleLink] }
          (Transform.mk 1 0 0) { exViewport with clientWidth := 20000 }).2) :=
  ⟨(by decide), (by decide!),
    (renderVisible_links { nodes := [exNearNode, exFarNode], links := [exStaleLink] }
      (Transform.mk 1 0 0) { exViewport with clientWidth := 20000 } (by decide)).2⟩

/-! ## Rank-based layout: failure paths -/

/-- C7. `layoutDagSugiyama` returns exactly
`{minX: 0, maxX: 0, minY: 0, maxY: 0, pad: 40, width: 400, height: 300}` and leaves
`placedNodes` and `placedLinks` empty, whatever they held before the call, whenever the
dagre primitive is undefined or the input has zero nodes (no graph object, `nodes` missing
or not an array, or an empty array). -/
theorem layoutDagSugiyama_empty (dagre : Option (DGraph → Except String (String → ℚ × ℚ)))
    (tanDeg : ℚ → ℚ) (showPredictedPaths : Bool) (graphV1 : Option GraphV1)
    (key : Option (NodeData → Except String String)) (S : Option Settings)
    (nodeW nodeH : NodeData → Except String JSNum)
    (sizeSvg : List PlacedNode → Except String BBox) (st : Placed)
    (h : dagre = none ∨ graphV1 = none ∨
      ∃ g, graphV1 = some g ∧ (g.nodes = none ∨ g.nodes = some [])) :
    layoutDagSugiyama dagre tanDeg showPredictedPaths graphV1 key S nodeW nodeH sizeSvg st
      = ({ nodes := [], links := [] },
         { minX := 0, maxX := 0, minY := 0, maxY := 0, pad := 40, width := 400,
           height := 300 }) := by
  unfold layoutDagSugiyama
  rcases h with rfl | rfl | ⟨g, rfl, hg | hg⟩
  · rfl
  · cases dagre <;> simp [_emptyBBox]
  · cases dagre <;> simp [_emptyBBox, hg]
  · cases dagre <;> simp [_emptyBBox, hg]

/-- C7, with the dagre primitive undefined and arrays that held two nodes and a link
before the call. -/
theorem layoutDagSugiyama_empty_witness :
    ((none : Option (DGraph → Except String (String → ℚ × ℚ))) = none ∨
      some exGraph = none ∨
      ∃ g, some exGraph = some g ∧ (g.nodes = none ∨ g.nodes = some [])) ∧
    layoutDagSugiyama none exTan true (some exGraph) none (some {}) exNodeWData exNodeHData
        (fun ns => .ok (sizeSvgToContent ns))
        { nodes := [exNearNode, exFarNode], links := [exStaleLink] }
      = ({ nodes := [], links := [] },
         { minX := 0, maxX := 0, minY := 0, maxY := 0, pad := 40, width := 400,
           height := 300 }) :=
  ⟨Or.inl rfl,
    layoutDagSugiyama_empty none exTan true (some exGraph) none (some {}) exNodeWData
      exNodeHData (fun ns => .ok (sizeSvgToContent ns))
      { nodes := [exNearNode, exFarNode], links := [exStaleLink] } (Or.inl rfl)⟩

/-- When the layout primitive throws on every graph, `layoutDagSugiyama` leaves the arrays
empty and returns the empty bounding box. -/
theorem layoutDagSugiyama_layout_throws (layout : DGraph → Except String (String → ℚ × ℚ))
    (hthrow : ∀ dg, ∃ err, layout dg = .error err)
    (tanDeg : ℚ → ℚ) (showPredictedPaths : Bool) (graphV1 : Option GraphV1)
    (key : Option (NodeData → Except String String)) (S : Option Settings)
    (nodeW nodeH : NodeData → Except String JSNum)
    (sizeSvg : List PlacedNode → Except String BBox) (st : Placed) :
    layoutDagSugiyama (some layout) tanDeg showPredictedPaths graphV1 key S nodeW nodeH
      sizeSvg st = ({ nodes := [], links := [] }, _emptyBBox) := by
  unfold layoutDagSugiyama
  simp only
  split
  · rfl
  · split
    · rfl
    · rename_i g hg
      obtain ⟨err, herr⟩ := hthrow g
      simp [herr]

/-- The traversal of a tree is never empty: it starts with the root. -/
theorem each_ne_nil : ∀ t : HNode, each t ≠ []
  | .mk i cs => by simp [each, levels]

/-- A child of a node is visited by the traversal below the node. -/
theorem mem_levelsList_child (pn : HNode) :
    ∀ (cs : List HNode) (c : HNode), c ∈ cs →
      ∃ par, (par, c) ∈ (levelsList pn cs).flatten
  | [], c, h => by simp at h
  | c0 :: cs, c, h => by
    rcases List.mem_cons.1 h with h | h
    · subst h
      refine ⟨if c.info.wrapped then some pn else none, ?_⟩
      rw [mem_levelsList_cons]
      left
      cases c with
      | mk i cs1 => exact (mem_levels _ _ i cs1).2 (Or.inl rfl)
    · obtain ⟨par, hpar⟩ := mem_levelsList_child pn cs c h
      exact ⟨par, (mem_levelsList_cons _ pn c0 cs).2 (Or.inr hpar)⟩

mutual
/-- Every node made by `d3.hierarchy` is a wrapped node. -/
theorem hierarchyAt_wrapped :
    ∀ (d : Nat) (t : Nested), (hierarchyAt d t).AllInfo (fun i => i.wrapped = true)
  | d, .mk dat cs => by
    simp only [hierarchyAt, HNode.AllInfo]
    exact ⟨trivial, hierarchyListAt_wrapped (d + 1) cs⟩
/-- The same for a list of children. -/
theorem hierarchyListAt_wrapped :
    ∀ (d : Nat) (cs : List Nested),
      HNode.AllInfoList (fun i => i.wrapped = true) (hierarchyListAt d cs)
  | _, [] => by simp [hierarchyListAt, HNode.AllInfoList]
  | d, c :: cs => by
    simp only [hierarchyListAt, HNode.AllInfoList]
    exact ⟨hierarchyAt_wrapped d c, hierarchyListAt_wrapped d cs⟩
end

/-- A tree made by `d3.hierarchy` holds no raw object. -/
theorem hasRaw_hierarchy (r : Nested) : hasRaw (hierarchy r) = false := by
  unfold hasRaw
  rw [List.any_eq_false]
  intro e he
  have h := levels_all (fun i => i.wrapped = true) (hierarchy r) none
    (hierarchyAt_wrapped 0 r) e he
  simp [h]

/-- A run of `layoutBranched` on a tree that returns has placed the root. -/
theorem layoutBranched_places_root
    (tidy : ℚ → ℚ → HNode → List Nat → ℚ × ℚ) (tanDeg : ℚ → ℚ)
    (showPredictedPaths : Bool) (S : Settings) (nodeW nodeH : HNode → JSNum)
    (keyFn : Option (HNode → String)) (mat : HNode) (st p : Placed)
    (hrun : layoutBranched tidy tanDeg showPredictedPaths S nodeW nodeH keyFn (some mat) st
      = .ok p) : p.nodes ≠ [] := by
  obtain ⟨t, rfl⟩ := layoutBranched_ok _ _ _ _ _ _ _ _ _ _ hrun
  simp only [layoutBranchedSteps, ne_eq, List.map_eq_nil_iff]
  exact each_ne_nil _

/-- With ghost injection enabled, `layoutBranched` throws on every tree whose root carries
a non-empty `theoretical_edges` array: a raw ghost is pushed under the root. -/
theorem layoutBranched_root_ghost_throws
    (tidy : ℚ → ℚ → HNode → List Nat → ℚ × ℚ) (tanDeg : ℚ → ℚ)
    (S : Settings) (nodeW nodeH : HNode → JSNum)
    (keyFn : Option (HNode → String)) (i : HInfo) (cs : List HNode) (st : Placed)
    (e : TheoEdge) (es : List TheoEdge)
    (hw : i.wrapped = true) (hte : i.data.theoretical_edges = some (e :: es)) :
    layoutBranched tidy tanDeg true S nodeW nodeH keyFn (some (.mk i cs)) st
      = .error "TypeError" := by
  have hraw : hasRaw (_injectGhostsIntoTree (.mk i cs)) = true := by
    unfold hasRaw
    rw [List.any_eq_true]
    simp only [_injectGhostsIntoTree, HInfo.dataOpt, hw, if_true, hte]
    obtain ⟨par, hpar⟩ := mem_levelsList_child
      (.mk i (_injectGhostsIntoTreeList cs ++ ((e :: es).take 3).map (fun g =>
          HNode.mk { data := mkGhost i.data.position (i.data.path.getD []) g,
                     wrapped := false } [])))
      (_injectGhostsIntoTreeList cs ++ ((e :: es).take 3).map (fun g =>
          HNode.mk { data := mkGhost i.data.position (i.data.path.getD []) g,
                     wrapped := false } []))
      (.mk { data := mkGhost i.data.position (i.data.path.getD []) e, wrapped := false } [])
      (by simp)
    exact ⟨_, (mem_levels _ none _ _).2 (Or.inr hpar), by simp [HNode.info]⟩
  simp [layoutBranched, HNode.info, HInfo.dataOpt, hw, hte, hraw]

/-- C8 as stated fails: with the rank-based strategy selected, the dagre primitive
undefined and a nested tree loaded, `layoutAndRender` runs `layoutBranched` on the tree;
the arrays then hold the two nodes and the link of the branched layout, and the bounding
box returned is the one of that placement, not the empty bounding box. -/
theorem layoutAndRender_fallback_counterexample :
    (∃ p b, layoutAndRender exEnvNoDagre exStateTree = some (.ok (p, some b)) ∧
      layoutBranched exTidy exTan true exStateTree.S exNodeW exNodeH none
            (some (hierarchy exNested)) {} = .ok p ∧
      p.nodes.length = 2 ∧ p.links.length = 1 ∧ b ≠ _emptyBBox) := by
  refine ⟨_, _, rfl, rfl, by decide!, by decide!, by decide!⟩

/-- C8, amended. When the selected strategy is the rank-based one (`S.LAYOUT = 'dagre'`)
and the dagre primitive is undefined, `layoutAndRender` runs `layoutBranched` on the tree
root when one is loaded and the branched module is present: if that run returns, the
arrays hold its placement, which is never empty, and the bounding box returned is the one
of that placement; if it throws, the exception leaves `layoutAndRender`.  The run returns
when ghost injection is off or the root has no `theoretical_edges`, and throws when
injection is on and the root has a non-empty `theoretical_edges` array.  When no tree root
is loaded (a GRAPH_V1 input) or the branched module is missing, no layout is run: the
arrays are left empty and the bounding box is the one `sizeSvgToContent` gives an empty
placement (`minX −50, maxX 50, minY 0, maxY 0, pad 40, width 80, height 180`).  When the
primitive is defined but throws on every graph and a GRAPH_V1 input is loaded, no other
strategy is run: the arrays are left empty and the empty bounding box is returned. -/
theorem layoutAndRender_dagre_unavailable (env : VizEnv) (st : VizState)
    (hS : st.S.LAYOUT = "dagre") :
    (env.dagre = none → env.modBranched = true → ∀ r, st.root = some r →
      (∀ p, layoutBranched env.tidy env.tanDeg env.showPredictedPaths st.S env.nodeW
            env.nodeH none (some (hierarchy r)) {} = .ok p →
          p.nodes ≠ [] ∧
          layoutAndRender env st = some (.ok (p, some (sizeSvgToContent p.nodes)))) ∧
      (∀ err, layoutBranched env.tidy env.tanDeg env.showPredictedPaths st.S env.nodeW
            env.nodeH none (some (hierarchy r)) {} = .error err →
          layoutAndRender env st = some (.error err)) ∧
      (env.showPredictedPaths = false ∨ r.data.theoretical_edges = none →
        ∃ p, layoutBranched env.tidy env.tanDeg env.showPredictedPaths st.S env.nodeW
            env.nodeH none (some (hierarchy r)) {} = .ok p) ∧
      (env.showPredictedPaths = true →
        (∃ e es, r.data.theoretical_edges = some (e :: es)) →
        layoutAndRender env st = some (.error "TypeError"))) ∧
    (env.dagre = none → st.root = none ∨ env.modBranched = false →
      layoutAndRender env st =
        some (.ok ({ nodes := [], links := [] },
          some { minX := -50, maxX := 50, minY := 0, maxY := 0, pad := 40, width := 80,
                 height := 180 }))) ∧
    (∀ layout g, env.dagre = some layout → (∀ dg, ∃ err, layout dg = .error err) →
      env.modDagre = true → st.graphV1 = some g →
      layoutAndRender env st = some (.ok ({ nodes := [], links := [] }, some _emptyBBox))) := by
  refine ⟨?_, ?_, ?_⟩
  · intro hd hm r hr
    have hrun : layoutAndRender env st =
        match layoutBranched env.tidy env.tanDeg env.showPredictedPaths st.S env.nodeW
            env.nodeH none (some (hierarchy r)) {} with
        | .ok p1 => some (.ok (p1, some (sizeSvgToContent p1.nodes)))
        | .error err => some (.error err) := by
      simp only [layoutAndRender, hS, if_true, hd, hr, hm]
    refine ⟨?_, ?_, ?_, ?_⟩
    · intro p hp
      exact ⟨layoutBranched_places_root _ _ _ _ _ _ _ _ _ _ hp, by rw [hrun, hp]⟩
    · intro err he
      rw [hrun, he]
    · intro h
      cases r with
      | mk d cs =>
        simp only [Nested.data] at h
        have hraw := hasRaw_hierarchy (.mk d cs)
        have hraw2 : hasRaw (HNode.mk { data := d, depth := 0 } (hierarchyListAt (0 + 1) cs))
            = false := hraw
        rcases h with h | h
        · simp only [layoutBranched, h, Bool.false_and, Bool.false_eq_true, if_false, hraw]
          exact ⟨_, rfl⟩
        · simp [layoutBranched, hierarchy, hierarchyAt, HNode.info, HInfo.dataOpt, h, hraw2]
    · rintro hsp ⟨e, es, hte⟩
      cases r with
      | mk d cs =>
        simp only [Nested.data] at hte
        rw [hrun, hsp, show hierarchy (.mk d cs)
          = HNode.mk { data := d, depth := 0 } (hierarchyListAt (0 + 1) cs) from rfl,
          layoutBranched_root_ghost_throws _ _ _ _ _ _ _ _ _ e es rfl hte]
  · intro hd hr
    rcases hr with hr | hm
    · simp only [layoutAndRender, hS, if_true, hd, hr]
      norm_num [sizeSvgToContent, pickOf]
    · cases hroot : st.root with
      | none =>
        simp only [layoutAndRender, hS, if_true, hd, hroot]
        norm_num [sizeSvgToContent, pickOf]
      | some r =>
        simp only [layoutAndRender, hS, if_true, hd, hroot, hm, Bool.false_eq_true, if_false]
        norm_num [sizeSvgToContent, pickOf]
  · intro layout g hd hthrow hmod hg
    simp only [layoutAndRender, hS, if_true, hd, hmod, hg]
    rw [layoutDagSugiyama_layout_throws layout hthrow]

/-- C8 amended, on the default environment without dagre and a root with one child: the
fallback run returns, and the arrays hold its placement, which is not empty. -/
theorem layoutAndRender_dagre_unavailable_witness :
    exStateTree.S.LAYOUT = "dagre" ∧ exEnvNoDagre.dagre = none ∧
    ∃ p, layoutAndRender exEnvNoDagre exStateTree
        = some (.ok (p, some (sizeSvgToContent p.nodes))) ∧
      p.nodes ≠ [] :=
  ⟨rfl, rfl, _,
    (((layoutAndRender_dagre_unavailable exEnvNoDagre exStateTree rfl).1
      rfl rfl exNested rfl).1 _ rfl).2,
    (((layoutAndRender_dagre_unavailable exEnvNoDagre exStateTree rfl).1
      rfl rfl exNested rfl).1 _ rfl).1⟩

/-- C9 fails on the code. With a working layout primitive and a three-node graph, a
`sizeSvgToContent` callback that throws makes `layoutDagSugiyama` return the empty
bounding box while `placedNodes` holds all three nodes and `placedLinks` both links; a key
callback that throws on the second node leaves one node behind the empty bounding box. -/
theorem layoutDagSugiyama_catch_leaves_placement :
    (layoutDagSugiyama (some exDagre) exTan true (some exGraph) none (some {})
        exNodeWData exNodeHData exSizeSvgThrows {}).2 = _emptyBBox ∧
    (layoutDagSugiyama (some exDagre) exTan true (some exGraph) none (some {})
        exNodeWData exNodeHData exSizeSvgThrows {}).1.nodes.length = 3 ∧
    (layoutDagSugiyama (some exDagre) exTan true (some exGraph) none (some {})
        exNodeWData exNodeHData exSizeSvgThrows {}).1.links.length = 2 ∧
    (layoutDagSugiyama (some exDagre) exTan true (some exGraph) (some exKeyThrows) (some {})
        exNodeWData exNodeHData (fun ns => .ok (sizeSvgToContent ns)) {}).2 = _emptyBBox ∧
    (layoutDagSugiyama (some exDagre) exTan true (some exGraph) (some exKeyThrows) (some {})
        exNodeWData exNodeHData (fun ns => .ok (sizeSvgToContent ns)) {}).1.nodes.length = 1 := by
  refine ⟨by decide!, by decide!, by decide!, by decide!, by decide!⟩

/-- C10 fails on the code. On a fan node (the root) at `y = 0` and an anchor node at
`y = 50` joined by a link that violates the 45° bound by 60, `_enforceFanAnchorSpacing`
moves the fan node to `y = −80` (a shift of `60 + 20` to the left) and leaves the anchor
node at `y = 50`; the link's source end follows the fan node to `−70`. -/
theorem enforceFanAnchorSpacing_moves_fan :
    (_enforceFanAnchorSpacing exTanOne (some { ANG_MAX_DEG := .fin 45 }) exFanPlaced).nodes.map
        (fun n => (n.key, n.x, n.y))
      = [("F", 0, -80), ("A", 100, 50)] ∧
    (_enforceFanAnchorSpacing exTanOne (some { ANG_MAX_DEG := .fin 45 }) exFanPlaced).links.map
        (fun l => (l.sx, l.sy, l.tx, l.ty))
      = [(-70, 0, 50, 100)] := by
  refine ⟨by decide!, by decide!⟩

/-! ## Ghost toggle -/

/-- C11 fails on the code. With `window.APP_CONFIG.SHOW_PREDICTED_PATHS` at its default
`true` and a GRAPH_V1 input whose node `A` has one predicted continuation, unchecking the
box (`VIZ.setSettings({SHOW_PREDICTED_PATHS: false})` followed by `layoutAndRender`) still
places a ghost node under `linear` and under `dagre`; under `branched` the run still
injects the ghost, as a raw object on which the tidy-tree pass throws, so that nothing is
placed with the toggle off as with the toggle on. -/
theorem ghost_toggle_ignored :
    ghostCount (onPredictedPathsChange exEnvDagre (exStateGhost "linear") false) = 1 ∧
    ghostCount (onPredictedPathsChange exEnvDagre (exStateGhost "dagre") false) = 1 ∧
    errOf (onPredictedPathsChange exEnvDagre (exStateGhost "branched") false)
      = some "TypeError" ∧
    errOf (onPredictedPathsChange exEnvDagre (exStateGhost "branched") true)
      = some "TypeError" ∧
    (setShowPredictedPaths (exStateGhost "linear").S false).SHOW_PREDICTED_PATHS = some false := by
  refine ⟨by decide!, by decide!, by decide!, by decide!, rfl⟩

/-! ## GRAPH_V1 → tree -/

/-- A weaker filter keeps at least as many elements. -/
theorem length_filter_mono {α : Type} (p q : α → Bool) :
    ∀ (l : List α), (∀ a ∈ l, p a = true → q a = true) →
      (l.filter p).length ≤ (l.filter q).length
  | [], _ => by simp
  | a :: l, h => by
    have ih := length_filter_mono p q l (fun b hb => h b (List.mem_cons_of_mem _ hb))
    have ha := h a (List.mem_cons_self _ _)
    by_cases hp : p a = true
    · simp [List.filter_cons, hp, ha hp, ih]
    · by_cases hq : q a = true
      · simp [List.filter_cons, hp, hq]; omega
      · simp [List.filter_cons, hp, hq, ih]

/-- A weaker filter keeps strictly more elements when it keeps one the other drops. -/
theorem length_filter_lt {α : Type} (p q : α → Bool) (x : α) :
    ∀ (l : List α), (∀ a ∈ l, p a = true → q a = true) → x ∈ l → q x = true → p x = false →
      (l.filter p).length < (l.filter q).length
  | [], _, hx, _, _ => by simp at hx
  | a :: l, h, hx, hq, hp => by
    have hmono := length_filter_mono p q l (fun b hb => h b (List.mem_cons_of_mem _ hb))
    rcases List.mem_cons.1 hx with rfl | hx1
    · simp [List.filter_cons, hp, hq]; omega
    · have ih := length_filter_lt p q x l (fun b hb => h b (List.mem_cons_of_mem _ hb)) hx1 hq hp
      have ha := h a (List.mem_cons_self _ _)
      by_cases hpa : p a = true
      · simp [List.filter_cons, hpa, ha hpa, ih]
      · by_cases hqa : q a = true
        · simp [List.filter_cons, hpa, hqa]; omega
        · simp [List.filter_cons, hpa, hqa, ih]

/-- Visiting more nodes leaves fewer unvisited. -/
theorem unvisited_mono (nodes : List NodeData) (v v1 : List JId) (h : v ⊆ v1) :
    unvisited nodes v1 ≤ unvisited nodes v := by
  unfold unvisited
  apply length_filter_mono
  intro a _ ha
  simp only [decide_eq_true_eq] at ha ⊢
  exact fun hm => ha (h hm)

/-- There are at most as many unvisited keys as nodes. -/
theorem unvisited_le_length (nodes : List NodeData) (v : List JId) :
    unvisited nodes v ≤ nodes.length := by
  unfold unvisited
  calc _ ≤ ((nodes.map (fun n => n.id.toStr)).dedup).length := List.length_filter_le _ _
    _ ≤ (nodes.map (fun n => n.id.toStr)).length := (List.dedup_sublist _).length_le
    _ = nodes.length := by simp

/-- A node found under a key carries that key as its id. -/
theorem byIdGet_id (nodes : List NodeData) (id : JId) (n : NodeData)
    (h : byIdGet nodes id = some n) : n.id = id := by
  cases id with
  | str s =>
    simp only [byIdGet, Option.map_eq_some'] at h
    obtain ⟨m, hm, rfl⟩ := h
    have := List.find?_some hm
    simp only [beq_iff_eq] at this
    simp [this]
  | num k => simp [byIdGet] at h
  | absent => simp [byIdGet] at h

/-- A key under which a node is found is the key of some input node. -/
theorem byIdGet_mem (nodes : List NodeData) (s : String) (n : NodeData)
    (h : byIdGet nodes (.str s) = some n) : s ∈ nodes.map (fun n => n.id.toStr) := by
  simp only [byIdGet, Option.map_eq_some'] at h
  obtain ⟨m, hm, _⟩ := h
  have h1 := List.find?_some hm
  have h2 := List.mem_of_find?_eq_some hm
  simp only [beq_iff_eq] at h1
  simp only [List.mem_map]
  exact ⟨m, by simpa using h2, h1⟩

/-- Visiting a node that exists and was not visited leaves strictly fewer unvisited. -/
theorem unvisited_lt (nodes : List NodeData) (v : List JId) (s : String) (n : NodeData)
    (h : byIdGet nodes (.str s) = some n) (hv : JId.str s ∉ v) :
    unvisited nodes (v ++ [.str s]) < unvisited nodes v := by
  unfold unvisited
  apply length_filter_lt _ _ s
  · intro a _ ha
    simp only [decide_eq_true_eq, List.mem_append, not_or] at ha ⊢
    exact ha.1
  · exact List.mem_dedup.2 (byIdGet_mem nodes s n h)
  · simpa using hv
  · simp

/-- The data of a concatenation of forests. -/
theorem Nested.allDataList_append :
    ∀ (a b : List Nested),
      Nested.allDataList (a ++ b) = Nested.allDataList a ++ Nested.allDataList b
  | [], b => by simp [Nested.allDataList]
  | t :: a, b => by simp [Nested.allDataList, Nested.allDataList_append a b]

/-- The string ids of a concatenation. -/
theorem strIds_append (a b : List NodeData) : strIds (a ++ b) = strIds a ++ strIds b := by
  simp [strIds, List.filterMap_append]

/-- The data of the forest made of an optional tree. -/
theorem Nested.allDataList_toList (r : Option Nested) :
    Nested.allDataList r.toList = (r.map Nested.allData).getD [] := by
  cases r <;> simp [Nested.allDataList]

/-- The children loop keeps the guarantees of the recursive call. -/
theorem buildKids_ok (b : List JId → JId → List String → Option (Option Nested × List JId))
    (hb : BuildOK b) (nodes : List NodeData) (path : List String) :
    ∀ (l : List String) (v : List JId) (ks : List Nested) (v1 : List JId),
      buildKids b nodes path l v = some (ks, v1) →
      v ⊆ v1 ∧ (strIds (Nested.allDataList ks)).Nodup ∧
        ∀ s ∈ strIds (Nested.allDataList ks), JId.str s ∈ v1 ∧ JId.str s ∉ v
  | [], v, ks, v1, h => by
    simp only [buildKids, Option.some.injEq, Prod.mk.injEq] at h
    obtain ⟨rfl, rfl⟩ := h
    simp [Nested.allDataList, strIds]
  | cid :: rest, v, ks, v1, h => by
    simp only [buildKids] at h
    split at h
    · exact buildKids_ok b hb nodes path rest v ks v1 h
    · split at h
      · exact buildKids_ok b hb nodes path rest v ks v1 h
      · split at h
        · exact absurd h (by simp)
        · rename_i built v2 hcall
          split at h
          · exact absurd h (by simp)
          · rename_i ks1 v3 hrest
            simp only [Option.some.injEq, Prod.mk.injEq] at h
            obtain ⟨rfl, rfl⟩ := h
            obtain ⟨hsub1, hone⟩ := hb _ _ _ _ _ hcall
            obtain ⟨hsub2, hnd2, hmem2⟩ := buildKids_ok b hb nodes path rest v2 ks1 v3 hrest
            refine ⟨fun x hx => hsub2 (hsub1 hx), ?_, ?_⟩
            · rw [Nested.allDataList_append, strIds_append, List.nodup_append]
              refine ⟨?_, hnd2, ?_⟩
              · cases built with
                | none => simp [Nested.allDataList, strIds]
                | some t => simpa [Nested.allDataList] using (hone t rfl).1
              · intro s hs1 hs2
                cases built with
                | none => simp [Nested.allDataList, strIds] at hs1
                | some t =>
                  have h1 := (hone t rfl).2 s (by simpa [Nested.allDataList] using hs1)
                  exact (hmem2 s hs2).2 h1.1
            · intro s hs
              rw [Nested.allDataList_append, strIds_append, List.mem_append] at hs
              rcases hs with hs | hs
              · cases built with
                | none => simp [Nested.allDataList, strIds] at hs
                | some t =>
                  have h1 := (hone t rfl).2 s (by simpa [Nested.allDataList] using hs)
                  exact ⟨hsub2 h1.1, h1.2⟩
              · exact ⟨(hmem2 s hs).1, fun hv => (hmem2 s hs).2 (hsub1 hv)⟩

/-- Injected ghosts carry no id. -/
theorem strIds_ghostKids (includeGhosts : Bool) (data : NodeData) (path : List String) :
    strIds (Nested.allDataList (ghostKids includeGhosts data path)) = [] := by
  unfold ghostKids
  split
  · induction (data.theoretical_edges.getD []).take 3 with
    | nil => simp [Nested.allDataList, strIds]
    | cons g l ih =>
      simp only [List.map_cons, Nested.allDataList, Nested.allData, List.append_nil]
      rw [← List.singleton_append, strIds_append, ih]
      simp [strIds, mkGhost]
  · simp [Nested.allDataList, strIds]

/-- A string is among the string ids exactly when some node carries it as its id. -/
theorem mem_strIds (s : String) (ds : List NodeData) :
    s ∈ strIds ds ↔ ∃ d ∈ ds, d.id = JId.str s := by
  simp only [strIds, List.mem_filterMap]
  constructor
  · rintro ⟨d, hd, h⟩
    refine ⟨d, hd, ?_⟩
    split at h
    · rename_i s1 he
      simp only [Option.some.injEq] at h
      rw [he, h]
    · simp at h
  · rintro ⟨d, hd, h⟩
    exact ⟨d, hd, by simp [h]⟩

/-- The only string id the data built for `id` can carry is `id` itself. -/
theorem strIds_buildData (nodes : List NodeData) (id : JId) (pp : List String) (s : String)
    (hs : s ∈ strIds [buildData nodes id pp]) : JId.str s = id := by
  have hid : (buildData nodes id pp).id = ((byIdGet nodes id).getD {}).id := rfl
  rw [mem_strIds] at hs
  obtain ⟨d, hd, heq⟩ := hs
  simp only [List.mem_singleton] at hd
  subst hd
  rw [hid] at heq
  cases hg : byIdGet nodes id with
  | none => simp [hg] at heq
  | some n =>
    simp only [hg, Option.getD_some] at heq
    rw [← byIdGet_id nodes id n hg, heq]

/-- Every call of `build` keeps its guarantees, whatever the budget. -/
theorem build_ok (nodes : List NodeData) (out : List (JId × List OutEdge))
    (includeGhosts : Bool) : ∀ fuel, BuildOK (build nodes out includeGhosts fuel)
  | 0 => by
    intro v id pp r v1 h
    simp [build] at h
  | fuel + 1 => by
    intro v id pp r v1 h
    simp only [build] at h
    split at h
    · simp only [Option.some.injEq, Prod.mk.injEq] at h
      obtain ⟨rfl, rfl⟩ := h
      exact ⟨fun x hx => hx, fun t ht => by simp at ht⟩
    · rename_i hid
      split at h
      · exact absurd h (by simp)
      · rename_i kids v2 hk
        simp only [Option.some.injEq, Prod.mk.injEq] at h
        obtain ⟨hr, hv2⟩ := h
        subst hv2
        obtain ⟨hsub, hnd, hmem⟩ :=
          buildKids_ok _ (build_ok nodes out includeGhosts fuel) nodes _ _ _ _ _ hk
        refine ⟨fun x hx => hsub (List.mem_append_left _ hx), ?_⟩
        intro t ht
        rw [← hr] at ht
        simp only [Option.some.injEq] at ht
        subst ht
        simp only [Nested.allData, Nested.allDataList_append]
        rw [← List.singleton_append, strIds_append, strIds_append, strIds_ghostKids,
          List.append_nil]
        refine ⟨?_, ?_⟩
        · rw [List.nodup_append]
          refine ⟨?_, hnd, ?_⟩
          · simp only [strIds, List.filterMap_cons, List.filterMap_nil]
            split <;> simp
          · intro s hs1 hs2
            have h1 := strIds_buildData nodes id pp s hs1
            exact (hmem s hs2).2 (by rw [h1]; simp)
        · intro s hs
          rw [List.mem_append] at hs
          rcases hs with hs | hs
          · have h1 := strIds_buildData nodes id pp s hs
            refine ⟨hsub (by rw [h1]; simp), ?_⟩
            rw [h1]; exact hid
          · exact ⟨(hmem s hs).1, fun hx => (hmem s hs).2 (List.mem_append_left _ hx)⟩

/-- The children loop returns when the recursive call does. -/
theorem buildKids_total (b : List JId → JId → List String → Option (Option Nested × List JId))
    (hb : BuildOK b) (nodes : List NodeData) (path : List String) (f : Nat)
    (ht : ∀ v cid pp, (byIdGet nodes (.str cid)).isSome → unvisited nodes v < f →
      (b v (.str cid) pp).isSome) :
    ∀ (l : List String) (v : List JId), unvisited nodes v < f →
      (buildKids b nodes path l v).isSome
  | [], v, _ => by simp [buildKids]
  | cid :: rest, v, hv => by
    simp only [buildKids]
    split
    · exact buildKids_total b hb nodes path f ht rest v hv
    · rename_i child hchild
      split
      · exact buildKids_total b hb nodes path f ht rest v hv
      · have h1 := ht v cid path (by simp [hchild]) hv
        obtain ⟨⟨built, v1⟩, hcall⟩ := Option.isSome_iff_exists.1 h1
        have hsub := (hb _ _ _ _ _ hcall).1
        have h2 := buildKids_total b hb nodes path f ht rest v1
          (lt_of_le_of_lt (unvisited_mono nodes v v1 hsub) hv)
        obtain ⟨⟨ks, v2⟩, hrest⟩ := Option.isSome_iff_exists.1 h2
        simp [hcall, hrest]

/-- A call of `build` on an existing node returns when the budget exceeds the number of
unvisited nodes. -/
theorem build_total (nodes : List NodeData) (out : List (JId × List OutEdge))
    (includeGhosts : Bool) :
    ∀ (fuel : Nat) (v : List JId) (s : String) (pp : List String),
      (byIdGet nodes (.str s)).isSome → unvisited nodes v < fuel →
      (build nodes out includeGhosts fuel v (.str s) pp).isSome
  | 0, _, _, _, _, h => by omega
  | fuel + 1, v, s, pp, hs, h => by
    simp only [build]
    split
    · simp
    · rename_i hid
      obtain ⟨n, hn⟩ := Option.isSome_iff_exists.1 hs
      have hlt := unvisited_lt nodes v s n hn hid
      have h2 := buildKids_total _ (build_ok nodes out includeGhosts fuel) nodes
        (buildPath ((byIdGet nodes (.str s)).getD {}) pp) fuel
        (fun v1 cid pp1 h1 h3 => build_total nodes out includeGhosts fuel v1 cid pp1 h1 h3)
        (sortedChildren nodes out (.str s)) (v ++ [.str s]) (by omega)
      obtain ⟨⟨ks, v2⟩, hk⟩ := Option.isSome_iff_exists.1 h2
      simp [hk]

/-- A call of `build` on any id returns when the budget exceeds the number of unvisited
nodes by two. -/
theorem build_total_any (nodes : List NodeData) (out : List (JId × List OutEdge))
    (includeGhosts : Bool) (fuel : Nat) (v : List JId) (id : JId) (pp : List String)
    (h : unvisited nodes v + 1 < fuel) :
    (build nodes out includeGhosts fuel v id pp).isSome := by
  cases fuel with
  | zero => omega
  | succ f =>
    simp only [build]
    split
    · simp
    · have hm := unvisited_mono nodes v (v ++ [id]) (fun x hx => List.mem_append_left _ hx)
      have h2 := buildKids_total _ (build_ok nodes out includeGhosts f) nodes
        (buildPath ((byIdGet nodes id).getD {}) pp) f
        (fun v1 cid pp1 h1 h3 => build_total nodes out includeGhosts f v1 cid pp1 h1 h3)
        (sortedChildren nodes out id) (v ++ [id]) (by omega)
      obtain ⟨⟨ks, v2⟩, hk⟩ := Option.isSome_iff_exists.1 h2
      simp [hk]

mutual
/-- `d3.hierarchy` keeps the data of every node, in order. -/
theorem hierarchyAt_allData : ∀ (t : Nested) (d : Nat), (hierarchyAt d t).allData = t.allData
  | .mk dat cs, d => by
    simp only [hierarchyAt, HNode.allData, Nested.allData]
    rw [hierarchyListAt_allData cs (d + 1)]
/-- `d3.hierarchy` keeps the data of every node of a forest, in order. -/
theorem hierarchyListAt_allData :
    ∀ (cs : List Nested) (d : Nat),
      HNode.allDataList (hierarchyListAt d cs) = Nested.allDataList cs
  | [], d => by simp [hierarchyListAt, HNode.allDataList, Nested.allDataList]
  | c :: cs, d => by
    simp only [hierarchyListAt, HNode.allDataList, Nested.allDataList]
    rw [hierarchyAt_allData c d, hierarchyListAt_allData cs d]
end

/-- C2. `graphV1ToHierarchy` terminates on every GRAPH_V1 input, cyclic and multi-parent
graphs included: with a recursion budget of at least the number of nodes plus two, `build`
never runs out of budget, so the run returns a tree or throws.  The tree it builds
carries each node id at most once (the ids of its nodes are pairwise distinct: the first
parent reached wins).  For the 3-cycle `A → B → C → A` the tree is the chain
`A → B → C`: of the three edges exactly `C → A` is dropped. -/
theorem graphV1ToHierarchy_terminates_nodup (g : GraphV1) (includeGhosts : Bool) :
    (∀ fuel, (g.nodes.getD []).length + 2 ≤ fuel →
        (graphV1ToHierarchyFuel fuel g includeGhosts).isSome) ∧
    (∀ fuel t, graphV1ToHierarchyFuel fuel g includeGhosts = some (.ok t) →
        (strIds t.allData).Nodup) ∧
    (treeOf (graphV1ToHierarchy cycle3 includeGhosts)).map (fun t => t.idEdges)
      = some [(.str "A", .str "B"), (.str "B", .str "C")] := by
  refine ⟨?_, ?_, ?_⟩
  · intro fuel hfuel
    simp only [graphV1ToHierarchyFuel]
    split
    · simp
    · rename_i o i hadd
      split
      · simp
      · have hm := unvisited_le_length (g.nodes.getD []) []
        have h2 := build_total_any (g.nodes.getD []) o includeGhosts fuel []
          (chooseRoot g (g.nodes.getD []) i) [] (by omega)
        obtain ⟨⟨r, v2⟩, hk⟩ := Option.isSome_iff_exists.1 h2
        simp [hk]
  · intro fuel t h
    simp only [graphV1ToHierarchyFuel] at h
    split at h
    · simp at h
    · rename_i o i hadd
      split at h
      · simp at h
      · split at h
        · simp at h
        · rename_i built v2 hb
          simp only [Option.some.injEq, Except.ok.injEq] at h
          subst h
          rw [hierarchy, hierarchyAt_allData]
          have hok := build_ok (g.nodes.getD []) o includeGhosts fuel _ _ _ _ _ hb
          cases built with
          | some t => simpa using (hok.2 t rfl).1
          | none =>
            simp only [Option.getD_none, Nested.allData, Nested.allDataList,
              List.append_nil]
            simp only [strIds, List.filterMap_cons, List.filterMap_nil]
            split <;> simp
  · cases includeGhosts <;> decide

/-! ## Ghost injection -/

/-- A list zipped with indices stands in a pointwise relation to the list. -/
theorem forall2_zipWith {α β : Type} (R : α → β → Prop) (F : α → Nat → β)
    (hF : ∀ a k, R a (F a k)) :
    ∀ (l : List α) (l2 : List Nat), l2.length = l.length → List.Forall₂ R l (List.zipWith F l l2)
  | [], _, _ => by simp
  | a :: l, [], h => by simp at h
  | a :: l, k :: l2, h => by
    simp only [List.zipWith_cons_cons]
    exact List.Forall₂.cons (hF a k) (forall2_zipWith R F hF l l2 (by simpa using h))

/-- A mapped list stands in a pointwise relation to the list. -/
theorem forall2_map {α β : Type} (R : α → β → Prop) (f : α → β) (hf : ∀ a, R a (f a)) :
    ∀ l : List α, List.Forall₂ R l (l.map f)
  | [] => by simp
  | a :: l => by
    simp only [List.map_cons]
    exact List.Forall₂.cons (hf a) (forall2_map R f hf l)

/-- The object built by `mkGhost` has the fields the specification lists. -/
theorem ghostOf_mkGhost (P : NodeData) (e : TheoEdge) :
    GhostOf P e (mkGhost P.position (P.path.getD []) e) := by
  simp [GhostOf, mkGhost]

/-- The ghosts of one node in `_injectGhostNodes` are made from its first three
continuations, in input order. -/
theorem ghostsOf_forall2 (P : NodeData) (c : Nat) :
    List.Forall₂ (GhostOf P) (firstThree P) (ghostsOf P c) := by
  unfold ghostsOf
  apply forall2_zipWith
  · intro e k
    simp [GhostOf, mkGhost]
  · simp

theorem ghostsOf_length (P : NodeData) (c : Nat) :
    (ghostsOf P c).length = (firstThree P).length :=
  (ghostsOf_forall2 P c).length_eq.symm

theorem firstThree_length (d : NodeData) :
    (firstThree d).length = min 3 (d.theoretical_edges.getD []).length := by
  simp [firstThree]

/-- One iteration of the loop of `_injectGhostNodes` appends the ghosts of the node. -/
theorem injectStep_eq (acc : List NodeData × List Edge × Nat) (node : NodeData) :
    injectStep acc node =
      (acc.1 ++ ghostsOf node acc.2.2,
       acc.2.1 ++ (ghostsOf node acc.2.2).map (ghostEdge node),
       acc.2.2 + (ghostsOf node acc.2.2).length) := by
  obtain ⟨N, E, c⟩ := acc
  unfold injectStep
  cases hte : node.theoretical_edges with
  | none => simp [ghostsOf, firstThree, hte]
  | some l =>
    cases l with
    | nil => simp [ghostsOf, firstThree, hte]
    | cons e es =>
      simp only [ghostsOf, firstThree, hte, Option.getD_some]
      refine Prod.ext rfl (Prod.ext rfl ?_)
      simp

theorem foldl_injectStep (ns : List NodeData) :
    ∀ (N : List NodeData) (E : List Edge) (c : Nat),
      ns.foldl injectStep (N, E, c) =
        (N ++ ghostsFrom ns c, E ++ ghostEdgesFrom ns c, c + (ghostsFrom ns c).length) := by
  induction ns with
  | nil => intro N E c; simp [ghostsFrom, ghostEdgesFrom]
  | cons n ns ih =>
    intro N E c
    rw [List.foldl_cons, injectStep_eq, ih]
    simp [ghostsFrom, ghostEdgesFrom, List.append_assoc, Nat.add_assoc]

/-- `_injectGhostNodes` returns the input nodes and edges followed by the ghosts. -/
theorem injectGhostNodes_eq (ns : List NodeData) (es : List Edge) :
    _injectGhostNodes ns es = (ns ++ ghostsFrom ns 0, es ++ ghostEdgesFrom ns 0) := by
  simp [_injectGhostNodes, foldl_injectStep]



/-- The subtrees of a list of leaves are the leaves. -/
theorem Nested.subtreesList_leaves (l : List NodeData) :
    Nested.subtreesList (l.map (fun g => Nested.mk g [])) = l.map (fun g => Nested.mk g []) := by
  induction l with
  | nil => rfl
  | cons a l ih => simp [Nested.subtreesList, Nested.subtrees, ih]

theorem Nested.subtreesList_append (a b : List Nested) :
    Nested.subtreesList (a ++ b) = Nested.subtreesList a ++ Nested.subtreesList b := by
  induction a with
  | nil => rfl
  | cons x a ih => simp [Nested.subtreesList, ih, List.append_assoc]

/-- The ghosts appended by `build` are flagged leaves without continuations of their own. -/
theorem ghostKids_mem (inc : Bool) (d : NodeData) (path : List String) (c : Nested)
    (hc : c ∈ ghostKids inc d path) :
    c.data.isGhost = true ∧ c.children = [] ∧ c.data.theoretical_edges = none ∧ c.subtrees = [c] := by
  unfold ghostKids at hc
  split at hc
  · obtain ⟨e, _, rfl⟩ := List.mem_map.1 hc
    simp [Nested.data, Nested.children, mkGhost, Nested.subtrees, Nested.subtreesList]
  · simp at hc

theorem ghostKids_subtrees (inc : Bool) (d : NodeData) (path : List String) :
    Nested.subtreesList (ghostKids inc d path) = ghostKids inc d path := by
  unfold ghostKids
  split
  · have h := Nested.subtreesList_leaves
      ((List.take 3 (d.theoretical_edges.getD [])).map (mkGhost d.position path))
    simpa [List.map_map, Function.comp] using h
  · rfl

/-- A ghost leaf has the shape of a built node. -/
theorem nshape_of_ghostKid (inc inc1 : Bool) (d : NodeData) (path : List String) (c : Nested)
    (hc : c ∈ ghostKids inc1 d path) : NShape inc c := by
  obtain ⟨_, hch, hte, _⟩ := ghostKids_mem inc1 d path c hc
  refine ⟨[], ?_, by simp⟩
  simp [hch, ghostKids, hte]

theorem buildKids_shape (b : List JId → JId → List String → Option (Option Nested × List JId))
    (nodes : List NodeData) (path : List String) (inc : Bool)
    (hb : ∀ v id p r v1, b v id p = some (some r, v1) →
      r.data = buildData nodes id p ∧ ∀ s ∈ r.subtrees, NShape inc s) :
    ∀ (cids : List String) (visited : List JId) (kids : List Nested) (v1 : List JId),
      buildKids b nodes path cids visited = some (kids, v1) →
      (∀ c ∈ kids, c.data.isGhost = false) ∧ ∀ s ∈ Nested.subtreesList kids, NShape inc s := by
  intro cids
  induction cids with
  | nil =>
    intro visited kids v1 h
    simp only [buildKids, Option.some.injEq, Prod.mk.injEq] at h
    obtain ⟨h1, _⟩ := h
    subst h1
    simp [Nested.subtreesList]
  | cons cid rest ih =>
    intro visited kids v1 h
    unfold buildKids at h
    cases hby : byIdGet nodes (.str cid) with
    | none => rw [hby] at h; exact ih _ _ _ h
    | some child =>
      rw [hby] at h
      simp only at h
      by_cases hg : child.isGhost = true
      · rw [if_pos hg] at h; exact ih _ _ _ h
      · rw [if_neg hg] at h
        cases hbv : b visited (.str cid) path with
        | none => rw [hbv] at h; simp at h
        | some r =>
          obtain ⟨built, v2⟩ := r
          rw [hbv] at h
          simp only at h
          cases hrest : buildKids b nodes path rest v2 with
          | none => rw [hrest] at h; simp at h
          | some r2 =>
            obtain ⟨ks, v3⟩ := r2
            rw [hrest] at h
            simp only [Option.some.injEq, Prod.mk.injEq] at h
            obtain ⟨h1, _⟩ := h
            subst h1
            obtain ⟨ihg, ihs⟩ := ih _ _ _ hrest
            cases built with
            | none => simpa using ⟨ihg, ihs⟩
            | some t =>
              obtain ⟨hd, hs⟩ := hb _ _ _ _ _ hbv
              constructor
              · intro c hc
                simp only [Option.toList, List.cons_append, List.nil_append,
                  List.mem_cons] at hc
                rcases hc with rfl | hc
                · rw [hd]
                  simp only [buildData, hby, Option.getD_some]
                  simpa using hg
                · exact ihg c hc
              · intro s hs1
                simp only [Option.toList, List.cons_append, List.nil_append,
                  Nested.subtreesList, List.mem_append] at hs1
                rcases hs1 with hs1 | hs1
                · exact hs s hs1
                · exact ihs s hs1

theorem build_shape (nodes : List NodeData) (out : List (JId × List OutEdge)) (inc : Bool) :
    ∀ (fuel : Nat) (visited : List JId) (id : JId) (pp : List String) (r : Nested)
      (v1 : List JId),
      build nodes out inc fuel visited id pp = some (some r, v1) →
      r.data = buildData nodes id pp ∧ ∀ s ∈ r.subtrees, NShape inc s := by
  intro fuel
  induction fuel with
  | zero => intro visited id pp r v1 h; simp [build] at h
  | succ fuel ih =>
    intro visited id pp r v1 h
    unfold build at h
    by_cases hv : id ∈ visited
    · rw [if_pos hv] at h; simp at h
    · rw [if_neg hv] at h
      simp only at h
      cases hk : buildKids (build nodes out inc fuel) nodes
          (buildPath ((byIdGet nodes id).getD {}) pp) (sortedChildren nodes out id)
          (visited ++ [id]) with
      | none => rw [hk] at h; simp at h
      | some r2 =>
        obtain ⟨kids, v2⟩ := r2
        rw [hk] at h
        simp only [Option.some.injEq, Prod.mk.injEq] at h
        obtain ⟨h1, _⟩ := h
        subst h1
        obtain ⟨hg, hs⟩ := buildKids_shape _ nodes _ inc ih _ _ _ _ hk
        refine ⟨rfl, ?_⟩
        intro s hs1
        simp only [Nested.subtrees, List.mem_cons, Nested.subtreesList_append,
          List.mem_append, ghostKids_subtrees] at hs1
        rcases hs1 with rfl | hs1 | hs1
        · exact ⟨kids, by simp [Nested.children, Nested.data, buildData], hg⟩
        · exact hs s hs1
        · exact nshape_of_ghostKid inc _ _ _ s hs1

/-- The root is never skipped: `build(rootId)` is not `null`. -/
theorem build_root_some (nodes : List NodeData) (out : List (JId × List OutEdge)) (inc : Bool)
    (fuel : Nat) (id : JId) (pp : List String) (r : Option Nested) (v1 : List JId)
    (h : build nodes out inc fuel [] id pp = some (r, v1)) : r.isSome = true := by
  cases fuel with
  | zero => simp [build] at h
  | succ fuel =>
    unfold build at h
    rw [if_neg (by simp)] at h
    simp only at h
    split at h
    · simp at h
    · simp only [Option.some.injEq, Prod.mk.injEq] at h
      rw [← h.1]; rfl

/-- Every node of the tree returned by `graphV1ToHierarchy` has the shape made by
`build`. -/
theorem graphV1ToHierarchy_shape (fuel : Nat) (g : GraphV1) (inc : Bool) (h : HNode)
    (hr : graphV1ToHierarchyFuel fuel g inc = some (.ok h)) :
    ∃ t : Nested, h = hierarchy t ∧ ∀ s ∈ t.subtrees, NShape inc s := by
  unfold graphV1ToHierarchyFuel at hr
  simp only at hr
  split at hr
  · simp at hr
  · rename_i out indeg _
    split at hr
    · simp at hr
    · split at hr
      · simp at hr
      · rename_i built v1 hb
        have hsome := build_root_some _ _ _ _ _ _ _ _ hb
        cases built with
        | none => simp at hsome
        | some t =>
          simp only [Option.getD_some, Option.some.injEq, Except.ok.injEq] at hr
          exact ⟨t, hr.symm, (build_shape _ _ _ _ _ _ _ _ _ hb).2⟩

theorem filter_append_ghosts (inc : Bool) (d : NodeData) (path : List String)
    (kids : List Nested) (hk : ∀ c ∈ kids, c.data.isGhost = false) :
    (kids ++ ghostKids inc d path).filter (fun c => c.data.isGhost) = ghostKids inc d path := by
  rw [List.filter_append]
  have h1 : kids.filter (fun c => c.data.isGhost) = [] := by
    rw [List.filter_eq_nil_iff]
    intro c hc
    simp [hk c hc]
  have h2 : (ghostKids inc d path).filter (fun c => c.data.isGhost) = ghostKids inc d path := by
    rw [List.filter_eq_self]
    intro c hc
    exact (ghostKids_mem inc d path c hc).1
  rw [h1, h2, List.nil_append]

/-- The ghost children of a built node are made from its first three continuations, in
input order, and are leaves. -/
theorem nshape_ghosts (s : Nested) (hs : NShape true s) :
    List.Forall₂ (fun e c => GhostOf s.data e c.data ∧ c.children = [])
      (firstThree s.data) s.ghostChildren := by
  obtain ⟨kids, hch, hk⟩ := hs
  unfold Nested.ghostChildren
  rw [hch, filter_append_ghosts _ _ _ _ hk]
  simp only [ghostKids, if_true]
  exact forall2_map _ _ (fun e => ⟨ghostOf_mkGhost s.data e, rfl⟩) _

/-- Without ghost injection a built node has no ghost child. -/
theorem nshape_no_ghosts (s : Nested) (hs : NShape false s) : s.ghostChildren = [] := by
  obtain ⟨kids, hch, hk⟩ := hs
  unfold Nested.ghostChildren
  rw [hch, filter_append_ghosts _ _ _ _ hk]
  rfl

theorem injectGhostsIntoTreeList_length :
    ∀ cs : List HNode, (_injectGhostsIntoTreeList cs).length = cs.length
  | [] => by simp [_injectGhostsIntoTreeList]
  | c :: cs => by simp [_injectGhostsIntoTreeList, injectGhostsIntoTreeList_length cs]

/-- `_injectGhostsIntoTree` at one node: the processed children followed by the raw ghosts
of the node. -/
theorem injectGhostsIntoTree_eq (i : HInfo) (cs : List HNode) :
    _injectGhostsIntoTree (.mk i cs) = .mk i (_injectGhostsIntoTreeList cs ++ rawGhostsOf i) := by
  unfold _injectGhostsIntoTree rawGhostsOf
  cases hd : i.dataOpt with
  | none => simp
  | some d =>
    cases hte : d.theoretical_edges with
    | none => simp [firstThree, hte]
    | some l =>
      cases l with
      | nil => simp [firstThree, hte]
      | cons e es => simp [firstThree, hte]

/-- The raw ghosts of a node are made from its first three continuations, in input order,
and are leaves. -/
theorem rawGhostsOf_forall2 (i : HInfo) (hw : i.wrapped = true) :
    List.Forall₂ (fun e c => GhostOf i.data e c.info.data ∧ c.children = [] ∧
        c.info.wrapped = false)
      (firstThree i.data) (rawGhostsOf i) := by
  unfold rawGhostsOf
  simp only [HInfo.dataOpt, hw, if_true]
  exact forall2_map _ _ (fun e => ⟨ghostOf_mkGhost i.data e, rfl, rfl⟩) _

theorem rawGhostsOf_raw (i : HInfo) (hw : i.wrapped = false) : rawGhostsOf i = [] := by
  simp [rawGhostsOf, HInfo.dataOpt, hw]

/-! ## Ghost injection: the claims -/

/-- C12. A node with `k` predicted continuations gets exactly `min(k, 3)` ghost children
from `graphV1ToHierarchy` (ghosts enabled) and from `_injectGhostNodes`, and at most
`min(k, 3)` raw ghosts from `_injectGhostsIntoTree` (exactly that many on a hierarchy
node, none on a raw object); a node without continuations gets none. -/
theorem ghost_injection_at_most_three (g : GraphV1) (h : HNode)
    (hr : graphV1ToHierarchy g true = some (.ok h)) :
    (∃ t : Nested, h = hierarchy t ∧
      ∀ s ∈ t.subtrees, s.ghostChildren.length = min (predictedCount s.data) 3) ∧
    (∀ (ns : List NodeData) (es : List Edge),
      _injectGhostNodes ns es = (ns ++ ghostsFrom ns 0, es ++ ghostEdgesFrom ns 0)) ∧
    (∀ (P : NodeData) (c : Nat), (ghostsOf P c).length = min (predictedCount P) 3) ∧
    (∀ (i : HInfo) (cs : List HNode),
      _injectGhostsIntoTree (.mk i cs) = .mk i (_injectGhostsIntoTreeList cs ++ rawGhostsOf i) ∧
      (_injectGhostsIntoTreeList cs).length = cs.length ∧
      (rawGhostsOf i).length = (if i.wrapped then min (predictedCount i.data) 3 else 0) ∧
      (rawGhostsOf i).length ≤ min (predictedCount i.data) 3) := by
  refine ⟨?_, injectGhostNodes_eq, ?_, ?_⟩
  · obtain ⟨t, ht, hs⟩ := graphV1ToHierarchy_shape _ g true h hr
    refine ⟨t, ht, fun s hs1 => ?_⟩
    rw [← (nshape_ghosts s (hs s hs1)).length_eq, firstThree_length, predictedCount, min_comm]
  · intro P c
    rw [ghostsOf_length, firstThree_length, predictedCount, min_comm]
  · intro i cs
    refine ⟨injectGhostsIntoTree_eq i cs, injectGhostsIntoTreeList_length cs, ?_, ?_⟩
    · cases hw : i.wrapped with
      | true =>
        rw [← (rawGhostsOf_forall2 i hw).length_eq, firstThree_length, predictedCount, min_comm]
        simp
      | false => simp [rawGhostsOf_raw i hw]
    · cases hw : i.wrapped with
      | true =>
        rw [← (rawGhostsOf_forall2 i hw).length_eq, firstThree_length, predictedCount, min_comm]
      | false => simp [rawGhostsOf_raw i hw]

/-- Witness for C12: the graph with four continuations on its one node. -/
theorem ghost_injection_at_most_three_witness :
    ∃ h : HNode, graphV1ToHierarchy exUnsortedGraph true = some (.ok h) ∧
      (∃ t : Nested, h = hierarchy t ∧
        ∀ s ∈ t.subtrees, s.ghostChildren.length = min (predictedCount s.data) 3) :=
  ⟨_, rfl, (ghost_injection_at_most_three exUnsortedGraph _ rfl).1⟩

/-- C13 fails on the code. The node `exUnsorted` lists its continuations with probabilities
`0.1, 0.2, 0.3, 0.9`; each injector makes ghosts of the first three and omits the fourth,
which is more probable than every ghost made. -/
theorem ghosts_not_ranked_counterexample :
    ((_injectGhostNodes [exUnsorted] []).1.drop 1).map (fun g => (g.token, g.model_prob_here)) =
      [(some "p", some (1 / 10)), (some "q", some (2 / 10)), (some "r", some (3 / 10))] ∧
    (treeOf (graphV1ToHierarchy exUnsortedGraph true)).map
        (fun h => h.children.map (fun c => (c.info.data.token, c.info.data.model_prob_here))) =
      some [(some "p", some (1 / 10)), (some "q", some (2 / 10)), (some "r", some (3 / 10))] ∧
    (_injectGhostsIntoTree (hierarchy (.mk exUnsorted []))).children.map
        (fun c => (c.info.data.token, c.info.data.model_prob_here)) =
      [(some "p", some (1 / 10)), (some "q", some (2 / 10)), (some "r", some (3 / 10))] := by
  refine ⟨by decide!, by decide!, by decide!⟩

/-- What the injectors do: the ghosts of a node are made from the first three entries of
`theoretical_edges` in input order, token and probability taken over unchanged, whatever
the probabilities are. -/
theorem ghosts_first_three_in_input_order (g : GraphV1) (h : HNode)
    (hr : graphV1ToHierarchy g true = some (.ok h)) :
    (∃ t : Nested, h = hierarchy t ∧
      ∀ s ∈ t.subtrees,
        s.ghostChildren.map (fun c => (c.data.token, c.data.model_prob_here)) =
          ((s.data.theoretical_edges.getD []).take 3).map
            (fun e => (some e.token, e.avg_prob))) ∧
    (∀ (P : NodeData) (c : Nat),
      (ghostsOf P c).map (fun gh => (gh.token, gh.model_prob_here)) =
        ((P.theoretical_edges.getD []).take 3).map (fun e => (some e.token, e.avg_prob))) ∧
    (∀ i : HInfo, i.wrapped = true →
      (rawGhostsOf i).map (fun c => (c.info.data.token, c.info.data.model_prob_here)) =
        ((i.data.theoretical_edges.getD []).take 3).map (fun e => (some e.token, e.avg_prob))) := by
  have key : ∀ {β : Type} (P : NodeData) (f : β → NodeData) (l : List TheoEdge) (l2 : List β),
      List.Forall₂ (fun e c => GhostOf P e (f c)) l l2 →
      l2.map (fun c => ((f c).token, (f c).model_prob_here)) =
        l.map (fun e => (some e.token, e.avg_prob)) := by
    intro β P f l l2 hf
    induction hf with
    | nil => rfl
    | cons hab _ ih =>
      simp only [List.map_cons, ih]
      rw [hab.2.1, hab.2.2.2.2.1]
  refine ⟨?_, ?_, ?_⟩
  · obtain ⟨t, ht, hs⟩ := graphV1ToHierarchy_shape _ g true h hr
    refine ⟨t, ht, fun s hs1 => ?_⟩
    exact key s.data Nested.data _ _ ((nshape_ghosts s (hs s hs1)).imp (fun _ _ hh => hh.1))
  · intro P c
    exact key P id _ _ (ghostsOf_forall2 P c)
  · intro i hw
    exact key i.data (fun c => c.info.data) _ _
      ((rawGhostsOf_forall2 i hw).imp (fun _ _ hh => hh.1))

/-- The first three entries in input order, on the graph with four continuations on its
one node. -/
theorem ghosts_first_three_in_input_order_witness :
    ∃ h : HNode, graphV1ToHierarchy exUnsortedGraph true = some (.ok h) ∧
      (∃ t : Nested, h = hierarchy t ∧
        ∀ s ∈ t.subtrees,
          s.ghostChildren.map (fun c => (c.data.token, c.data.model_prob_here)) =
            ((s.data.theoretical_edges.getD []).take 3).map
              (fun e => (some e.token, e.avg_prob))) :=
  ⟨_, rfl, (ghosts_first_three_in_input_order exUnsortedGraph _ rfl).1⟩

/-- C14. Every ghost made by an injector from a parent `P` and a continuation `e` has the
fields of `GhostOf P e` (flagged, `path = P.path + [token]`, `position = P.position + 1`
or `0`, `model_prob_here = avg_prob`, no empirical data, no `theoretical_edges`, no
`model_children`), and is a leaf: in the tree of `graphV1ToHierarchy`, in the output of
`_injectGhostNodes` and among the raw objects of `_injectGhostsIntoTree`. -/
theorem ghost_fields (g : GraphV1) (h : HNode)
    (hr : graphV1ToHierarchy g true = some (.ok h)) :
    (∃ t : Nested, h = hierarchy t ∧
      ∀ s ∈ t.subtrees,
        List.Forall₂ (fun e c => GhostOf s.data e c.data ∧ c.children = [])
          (firstThree s.data) s.ghostChildren) ∧
    (∀ (P : NodeData) (c : Nat), List.Forall₂ (GhostOf P) (firstThree P) (ghostsOf P c)) ∧
    (∀ i : HInfo, i.wrapped = true →
      List.Forall₂ (fun e c => GhostOf i.data e c.info.data ∧ c.children = [] ∧
          c.info.wrapped = false)
        (firstThree i.data) (rawGhostsOf i)) := by
  refine ⟨?_, ghostsOf_forall2, rawGhostsOf_forall2⟩
  obtain ⟨t, ht, hs⟩ := graphV1ToHierarchy_shape _ g true h hr
  exact ⟨t, ht, fun s hs1 => nshape_ghosts s (hs s hs1)⟩

/-- Witness for C14: the graph with one continuation on its one node. -/
theorem ghost_fields_witness :
    ∃ h : HNode, graphV1ToHierarchy exGhostGraph true = some (.ok h) ∧
      (∃ t : Nested, h = hierarchy t ∧
        ∀ s ∈ t.subtrees,
          List.Forall₂ (fun e c => GhostOf s.data e c.data ∧ c.children = [])
            (firstThree s.data) s.ghostChildren) :=
  ⟨_, rfl, (ghost_fields exGhostGraph _ rfl).1⟩
theorem ghostsFrom_append (a b : List NodeData) :
    ∀ c : Nat, ghostsFrom (a ++ b) c = ghostsFrom a c ++ ghostsFrom b (c + (ghostsFrom a c).length) := by
  induction a with
  | nil => intro c; simp [ghostsFrom]
  | cons x a ih =>
    intro c
    simp [ghostsFrom, ih, List.append_assoc, Nat.add_assoc]

theorem ghostEdgesFrom_append (a b : List NodeData) :
    ∀ c : Nat, ghostEdgesFrom (a ++ b) c =
      ghostEdgesFrom a c ++ ghostEdgesFrom b (c + (ghostsFrom a c).length) := by
  induction a with
  | nil => intro c; simp [ghostsFrom, ghostEdgesFrom]
  | cons x a ih =>
    intro c
    simp [ghostsFrom, ghostEdgesFrom, ih, List.append_assoc, Nat.add_assoc]

/-- The number of ghosts does not depend on where the counter starts. -/
theorem ghostsFrom_length (ns : List NodeData) :
    ∀ c c1 : Nat, (ghostsFrom ns c).length = (ghostsFrom ns c1).length := by
  induction ns with
  | nil => intro c c1; rfl
  | cons n ns ih =>
    intro c c1
    simp only [ghostsFrom, List.length_append, ghostsOf_length]
    rw [ih (c + (firstThree n).length) (c1 + (firstThree n).length)]

theorem ghostEdgesFrom_length (ns : List NodeData) :
    ∀ c : Nat, (ghostEdgesFrom ns c).length = (ghostsFrom ns c).length := by
  induction ns with
  | nil => intro c; rfl
  | cons n ns ih => intro c; simp [ghostsFrom, ghostEdgesFrom, ih]

/-- A ghost made by `_injectGhostNodes` carries no predicted continuations. -/
theorem ghostsFrom_no_edges (ns : List NodeData) :
    ∀ (c : Nat), ∀ g ∈ ghostsFrom ns c, g.theoretical_edges = none := by
  induction ns with
  | nil => intro c g hg; simp [ghostsFrom] at hg
  | cons n ns ih =>
    intro c g hg
    simp only [ghostsFrom, List.mem_append] at hg
    rcases hg with hg | hg
    · have h2 := ghostsOf_forall2 n c
      have : ∀ (l : List TheoEdge) (l2 : List NodeData), List.Forall₂ (GhostOf n) l l2 →
          ∀ x ∈ l2, x.theoretical_edges = none := by
        intro l l2 hf
        induction hf with
        | nil => intro x hx; simp at hx
        | cons hab _ ih2 =>
          intro x hx
          rcases List.mem_cons.1 hx with rfl | hx
          · exact hab.2.2.2.2.2.2.2.2.1
          · exact ih2 x hx
      exact this _ _ h2 g hg
    · exact ih _ g hg

/-- Nodes without predicted continuations get no ghost. -/
theorem ghostsFrom_nil_of (G : List NodeData) (hG : ∀ g ∈ G, g.theoretical_edges = none) :
    ∀ c : Nat, ghostsFrom G c = [] ∧ ghostEdgesFrom G c = [] := by
  induction G with
  | nil => intro c; exact ⟨rfl, rfl⟩
  | cons g G ih =>
    intro c
    have h0 : ghostsOf g c = [] := by
      simp [ghostsOf, firstThree, hG g (List.mem_cons_self _ _)]
    have ih2 := ih (fun x hx => hG x (List.mem_cons_of_mem _ hx))
    simp [ghostsFrom, ghostEdgesFrom, h0, ih2]

/-- C15 fails on the code. One node with one predicted continuation: the first run of
`_injectGhostNodes` returns 2 nodes and 1 edge, the run on that output returns 3 nodes and
2 edges; and `_injectGhostsIntoTree` run on the tree that `graphV1ToHierarchy` already
augmented gives the root a second ghost child. -/
theorem ghost_injection_twice_counterexample :
    ((_injectGhostNodes (exGhostGraph.nodes.getD []) []).1.length = 2 ∧
     (_injectGhostNodes (exGhostGraph.nodes.getD []) []).2.length = 1) ∧
    ((_injectGhostNodes (_injectGhostNodes (exGhostGraph.nodes.getD []) []).1
        (_injectGhostNodes (exGhostGraph.nodes.getD []) []).2).1.length = 3 ∧
     (_injectGhostNodes (_injectGhostNodes (exGhostGraph.nodes.getD []) []).1
        (_injectGhostNodes (exGhostGraph.nodes.getD []) []).2).2.length = 2) ∧
    (treeOf (graphV1ToHierarchy exGhostGraph true)).map (fun h => h.children.length) = some 1 ∧
    (treeOf (graphV1ToHierarchy exGhostGraph true)).map
      (fun h => (_injectGhostsIntoTree h).children.length) = some 2 := by
  refine ⟨by decide, by decide, by decide, by decide⟩

/-- C15 as the code has it: an injector run on an already augmented graph makes no ghost of
a ghost (a ghost carries no `theoretical_edges`), but it makes the ghosts of the original
nodes again.  `_injectGhostNodes` run on its own output adds as many nodes and edges as the
first run added; `_injectGhostsIntoTree` pushes nothing into a node without
`theoretical_edges`, ghosts included. -/
theorem ghost_injection_twice (ns : List NodeData) (es : List Edge) :
    (_injectGhostNodes ns es).1.length = ns.length + (ghostsFrom ns 0).length ∧
    (_injectGhostNodes ns es).2.length = es.length + (ghostsFrom ns 0).length ∧
    (_injectGhostNodes (_injectGhostNodes ns es).1 (_injectGhostNodes ns es).2).1.length =
      (_injectGhostNodes ns es).1.length + (ghostsFrom ns 0).length ∧
    (_injectGhostNodes (_injectGhostNodes ns es).1 (_injectGhostNodes ns es).2).2.length =
      (_injectGhostNodes ns es).2.length + (ghostsFrom ns 0).length ∧
    (∀ (c c1 : Nat), ∀ g ∈ ghostsFrom ns c, ghostsOf g c1 = []) ∧
    (∀ i : HInfo, i.data.theoretical_edges = none → rawGhostsOf i = []) := by
  have hno := ghostsFrom_nil_of (ghostsFrom ns 0) (ghostsFrom_no_edges ns 0)
  refine ⟨?_, ?_, ?_, ?_, ?_, ?_⟩
  · simp [injectGhostNodes_eq]
  · simp [injectGhostNodes_eq, ghostEdgesFrom_length]
  · simp only [injectGhostNodes_eq, ghostsFrom_append, (hno _).1, List.length_append,
      List.append_nil]
  · simp only [injectGhostNodes_eq, ghostEdgesFrom_append, (hno _).2, List.length_append,
      List.append_nil, ghostEdgesFrom_length]
  · intro c c1 g hg
    simp [ghostsOf, firstThree, ghostsFrom_no_edges ns c g hg]
  · intro i hi
    unfold rawGhostsOf
    split
    · rename_i d hd
      have : d = i.data := by
        unfold HInfo.dataOpt at hd
        split at hd
        · exact (Option.some.inj hd).symm
        · simp at hd
      subst this
      simp [firstThree, hi]
    · rfl

/-- Witness for the amended C15: a hierarchy node whose data is a ghost gets no raw
ghost. -/
theorem ghost_injection_twice_witness :
    rawGhostsOf { data := mkGhost (some 0) ["a"] { token := "z" } } = [] :=
  (ghost_injection_twice [] []).2.2.2.2.2 _ rfl

/-- C16 fails on the code. The node `exObserved` has `x` both as a key of `emp_children`
and as a predicted continuation; `_injectGhostNodes` adds a ghost node with token `x` and
a ghost edge to it.  The sibling `promoteGhosts` does filter the ghosts it derives from
`model_children`: on a node with the same table and the model children `x` and `y` it adds
a ghost for `y` only. -/
theorem observed_token_ghost_counterexample :
    ((_injectGhostNodes [exObserved] []).1.drop 1).map (fun g => (g.isGhost, g.token)) =
      [(true, some "x")] ∧
    (_injectGhostNodes [exObserved] []).2.map (fun e => (e.source, e.kind)) =
      [(.str "A", some "ghost")] ∧
    (promoteGhosts true (.mk exObservedModel [])).children.map
        (fun c => (c.data.isGhost, c.data.token)) = [(true, some "y")] := by
  refine ⟨by decide, by decide, by decide⟩

/-- What `_injectGhostNodes` does: it makes a ghost node and a ghost edge for each of the
first three predicted continuations of every node, whatever `emp_children` holds: changing
the table of a node changes none of its ghosts. -/
theorem ghosts_ignore_emp_children (ns : List NodeData) (es : List Edge) (P : NodeData)
    (m : Option (List (String × Nat))) (c : Nat) :
    _injectGhostNodes ns es = (ns ++ ghostsFrom ns 0, es ++ ghostEdgesFrom ns 0) ∧
    ghostsOf { P with emp_children := m } c = ghostsOf P c ∧
    (ghostsOf P c).map (fun g => g.token) =
      ((P.theoretical_edges.getD []).take 3).map (fun e => some e.token) := by
  refine ⟨injectGhostNodes_eq ns es, rfl, ?_⟩
  have h := ghostsOf_forall2 P c
  unfold firstThree at h
  generalize ghostsOf P c = l2 at h
  generalize List.take 3 (P.theoretical_edges.getD []) = l at h
  induction h with
  | nil => rfl
  | cons hab _ ih => simp only [List.map_cons, ih, hab.2.1]

/-! ## Main-child selection -/

theorem sortIdx_ne_nil (a : Nat × ℚ) (l : List (Nat × ℚ)) : sortIdx (a :: l) ≠ [] := by
  unfold sortIdx
  simp only [List.foldr_cons]
  generalize List.foldr insertIdx [] l = r
  cases r with
  | nil => simp [insertIdx]
  | cons y ys =>
    unfold insertIdx
    split <;> simp

/-- The head of the sorted children is the first child of maximal score. -/
theorem sortIdx_head (metric : String) :
    ∀ (l : List HNode) (k : Nat) (x : Nat × ℚ),
      (sortIdx (indexedScores metric k l)).head? = some x →
      ∃ (i : Nat) (c : HNode), x = (k + i, scoreBy metric c.info.data) ∧ l[i]? = some c ∧
        (∀ (j : Nat) (c1 : HNode), l[j]? = some c1 →
          scoreBy metric c1.info.data ≤ scoreBy metric c.info.data) ∧
        (∀ (j : Nat) (c1 : HNode), j < i → l[j]? = some c1 →
          scoreBy metric c1.info.data < scoreBy metric c.info.data) := by
  intro l
  induction l with
  | nil => intro k x h; simp [indexedScores, sortIdx] at h
  | cons a l ih =>
    intro k x h
    simp only [indexedScores, sortIdx, List.foldr_cons] at h
    cases hs : List.foldr insertIdx [] (indexedScores metric (k + 1) l) with
    | nil =>
      rw [hs] at h
      have hl : l = [] := by
        cases l with
        | nil => rfl
        | cons b l2 => exact absurd hs (sortIdx_ne_nil _ _)
      subst hl
      simp only [insertIdx, List.head?_cons, Option.some.injEq] at h
      refine ⟨0, a, by simpa using h.symm, by simp, ?_, ?_⟩
      · intro j c1 hj
        cases j with
        | zero => simp at hj; subst hj; exact le_refl _
        | succ j => simp at hj
      · intro j c1 hj; omega
    | cons y ys =>
      rw [hs] at h
      have hy : (sortIdx (indexedScores metric (k + 1) l)).head? = some y := by
        unfold sortIdx; rw [hs]; rfl
      obtain ⟨i, c, hx, hc, hmax, hlt⟩ := ih (k + 1) y hy
      unfold insertIdx at h
      by_cases hcmp : scoreBy metric a.info.data < y.2
      · rw [if_pos hcmp] at h
        simp only [List.head?_cons, Option.some.injEq] at h
        subst h
        refine ⟨i + 1, c, ?_, by simpa using hc, ?_, ?_⟩
        · rw [hx]; congr 1; omega
        · intro j c1 hj
          cases j with
          | zero =>
            simp at hj; subst hj
            rw [hx] at hcmp; exact le_of_lt hcmp
          | succ j => exact hmax j c1 (by simpa using hj)
        · intro j c1 hji hj
          cases j with
          | zero =>
            simp at hj; subst hj
            rw [hx] at hcmp; exact hcmp
          | succ j => exact hlt j c1 (by omega) (by simpa using hj)
      · rw [if_neg hcmp] at h
        simp only [List.head?_cons, Option.some.injEq] at h
        subst h
        refine ⟨0, a, by simp, by simp, ?_, ?_⟩
        · intro j c1 hj
          cases j with
          | zero => simp at hj; subst hj; exact le_refl _
          | succ j =>
            have h1 := hmax j c1 (by simpa using hj)
            rw [hx] at hcmp
            exact le_trans h1 (not_lt.1 hcmp)
        · intro j c1 hj; omega

/-- C17 fails on the code. The node `exGhostWins` has an empirical child (frequency `0.1`)
and a ghost child (model probability `0.9`): under `"prob"` and under `"emp"` (where the
ghost scores `0.45`) `bestChildBy` returns the ghost, the child of index `1`. -/
theorem bestChildBy_ghost_counterexample :
    bestChildBy "prob" exGhostWins = some 1 ∧ bestChildBy "emp" exGhostWins = some 1 ∧
    bestChildPack {} exGhostWins = some 1 ∧
    exGhostWins.children.map (fun c => c.info.data.isGhost) = [false, true] := by
  refine ⟨by decide!, by decide!, by decide!, by decide⟩

/-- C17 as the code has it: `bestChildBy` does not look at `isGhost`.  Under a metric
other than `"data"` it returns the first child whose score is maximal among all the
children, ghosts included; so the child returned is not a ghost when every ghost child
scores strictly less than some other child.  Under `"data"` it returns the first child. -/
theorem bestChildBy_first_max (metric : String) (n : HNode) (i : Nat)
    (hm : metric ≠ "data") (hb : bestChildBy metric n = some i) :
    ∃ c : HNode, n.children[i]? = some c ∧
      (∀ (j : Nat) (c1 : HNode), n.children[j]? = some c1 →
        scoreBy metric c1.info.data ≤ scoreBy metric c.info.data) ∧
      (∀ (j : Nat) (c1 : HNode), j < i → n.children[j]? = some c1 →
        scoreBy metric c1.info.data < scoreBy metric c.info.data) ∧
      ((∀ g ∈ n.children, g.info.data.isGhost = true →
          ∃ c1 ∈ n.children, scoreBy metric g.info.data < scoreBy metric c1.info.data) →
        c.info.data.isGhost = false) := by
  unfold bestChildBy at hb
  cases hch : n.children with
  | nil => rw [hch] at hb; simp at hb
  | cons a l =>
    rw [hch] at hb
    simp only [if_neg hm, Option.map_eq_some'] at hb
    obtain ⟨x, hx, hxi⟩ := hb
    obtain ⟨i1, c, hxe, hc, hmax, hlt⟩ := sortIdx_head metric (a :: l) 0 x hx
    have hi : i = i1 := by rw [← hxi, hxe]; simp
    subst hi
    refine ⟨c, hc, hmax, hlt, ?_⟩
    intro hg
    by_contra hne
    have hgc : c.info.data.isGhost = true := by simpa using hne
    obtain ⟨c1, hc1, hlt1⟩ := hg c (List.getElem?_mem hc) hgc
    obtain ⟨j, hj⟩ := List.getElem?_of_mem hc1
    exact absurd (hmax j c1 hj) (not_le.2 hlt1)

/-- Witness for the amended C17: a node whose two children score `0.3` and `0.1`. -/
theorem bestChildBy_first_max_witness :
    ∃ c : HNode,
      (hierarchy (.mk {} [.mk { emp_freq_here := some (3 / 10) } [],
          .mk { emp_freq_here := some (1 / 10) } []])).children[0]? = some c ∧
      c.info.data.emp_freq_here = some (3 / 10) := by
  obtain ⟨c, hc, _⟩ := bestChildBy_first_max "emp"
    (hierarchy (.mk {} [.mk { emp_freq_here := some (3 / 10) } [],
          .mk { emp_freq_here := some (1 / 10) } []])) 0 (by decide) (by decide!)
  refine ⟨c, hc, ?_⟩
  have : c = hierarchyAt 1 (.mk { emp_freq_here := some (3 / 10) } []) := by
    have h2 : (hierarchy (.mk {} [.mk { emp_freq_here := some (3 / 10) } [],
          .mk { emp_freq_here := some (1 / 10) } []])).children[0]? =
        some (hierarchyAt 1 (.mk { emp_freq_here := some (3 / 10) } [])) := rfl
    rw [h2] at hc
    exact (Option.some.inj hc).symm
  rw [this]; rfl

/-! ## Ghost promotion -/

/-- C30 fails on the code. The node `exUnsorted` has four entries in `theoretical_edges`;
`promoteGhosts` appends four ghost children to it. -/
theorem promoteGhosts_four_ghosts :
    (promoteGhosts true (.mk exUnsorted [])).children.length = 4 ∧
    (promoteGhosts true (.mk exUnsorted [])).ghostChildren.length = 4 ∧
    (promoteGhosts true (.mk exUnsorted [])).children.map (fun c => c.data.token) =
      [some "p", some "q", some "r", some "s"] := by
  refine ⟨by decide, by decide, by decide⟩

/-! ## Linear layout: link endpoints -/

/-- C20 fails on the code. A root with three leaf children, `GAP_X = 100`,
`ANG_MAX_DEG = 45` (tangent `1`), nodes of size 50 × 70: the second child needs a shift of
`15`, which is added to the column; the link into the third child ends at `tx = 280`
(column shift `15` plus its own `115`), while the third child is placed at `y = 265` (its
own `115` only).  The first child stays at `y = 150`. -/
theorem layoutLinear_link_off_node :
    ((linkIntoKey (layoutLinearTree exTanOne exSettings45 none exNodeW exNodeH none
        (hierarchy exFan3)) "r␟c").map (fun l => l.tx) = some 280) ∧
    ((nodeOfKey (layoutLinearTree exTanOne exSettings45 none exNodeW exNodeH none
        (hierarchy exFan3)) "r␟c").map (fun n => n.y) = some 265) ∧
    ((layoutLinearTree exTanOne exSettings45 none exNodeW exNodeH none
        (hierarchy exFan3)).nodes.map (fun n => (n.key, n.y)) =
      [("r", 0), ("r␟a", 150), ("r␟b", 165), ("r␟c", 265)]) := by
  refine ⟨by decide!, by decide!, by decide!⟩

/-! ## Maximum angle of 90° -/

/-- C22 fails on the code. A root with one child, `GAP_X = 400`, `BRANCHED_GAP_MAX = 300`:
with `ANG_MAX_DEG = 90` the tangent is the finite double `16331239353195370`, enforcement
stays on and the column gap is capped to `300`; with `ANG_MAX_DEG = 0` or unset the gap
stays `400`.  The child is placed at `y = 300` in the first run and at `y = 400` in the
other two. -/
theorem layoutBranched_ang90_differs :
    (layoutBranched exTidyLine exTan90 true (exCap (.fin 90)) exNodeW exNodeH none
        (some (hierarchy exPair)) {}).toOption.map
        (fun p => p.nodes.map (fun n => (n.key, n.x, n.y))) =
      some [("r", 0, 0), ("r␟a", 0, 300)] ∧
    (layoutBranched exTidyLine exTan90 true (exCap (.fin 0)) exNodeW exNodeH none
        (some (hierarchy exPair)) {}).toOption.map
        (fun p => p.nodes.map (fun n => (n.key, n.x, n.y))) =
      some [("r", 0, 0), ("r␟a", 0, 400)] ∧
    (layoutBranched exTidyLine exTan90 true (exCap .nan) exNodeW exNodeH none
        (some (hierarchy exPair)) {}).toOption.map
        (fun p => p.nodes.map (fun n => (n.key, n.x, n.y))) =
      some [("r", 0, 0), ("r␟a", 0, 400)] := by
  refine ⟨by decide!, by decide!, by decide!⟩

/-! ## Node ids that are numbers, and graphs without nodes -/

/-- C23 fails on the code. For the GRAPH_V1 input with the single node `{id: 0}` and no
edges, `layoutLinear` throws `'GRAPH_V1 has no nodes'` and places nothing. -/
theorem layoutLinear_single_node_id_zero :
    errOf (layoutLinear exTanOne true {} none exNodeW exNodeH none (.graph exZeroId) {}) =
      some "GRAPH_V1 has no nodes" := by
  decide

/-- C24 fails on the code. With the numeric ids `1`, `2` and the edge `1 → 2`,
`graphV1ToHierarchy` throws a `TypeError` at `out.get(src).push` (`out` is keyed by the
numbers, `src` is the string `"1"`); with the single node of id `0` it throws
`'GRAPH_V1 has no nodes'`.  The rank-based layout, which coerces the ids first, places
both graphs (run with the default settings object). -/
theorem graphV1ToHierarchy_numeric_ids_throw :
    errOf (graphV1ToHierarchy exNumIds true) = some "TypeError: out.get(src) is undefined" ∧
    errOf (graphV1ToHierarchy exZeroId true) = some "GRAPH_V1 has no nodes" ∧
    (layoutDagSugiyama (some exDagre) exTanOne true (some exNumIds) none (some {})
        exNodeWData exNodeHData (fun ns => .ok (sizeSvgToContent ns)) {}).1.nodes.map
        (fun n => n.key) = ["1", "2"] ∧
    (layoutDagSugiyama (some exDagre) exTanOne true (some exNumIds) none (some {})
        exNodeWData exNodeHData (fun ns => .ok (sizeSvgToContent ns)) {}).1.links.map
        (fun l => (l.skey, l.tkey)) = [(some "1", some "2")] ∧
    (layoutDagSugiyama (some exDagre) exTanOne true (some exZeroId) none (some {})
        exNodeWData exNodeHData (fun ns => .ok (sizeSvgToContent ns)) {}).1.nodes.map
        (fun n => n.key) = ["0"] := by
  refine ⟨by decide, by decide, by decide!, by decide!, by decide!⟩

theorem addEdges_no_nodes (es : List Edge)
    (st : List (JId × List OutEdge) × List (JId × Nat)) : addEdges [] es st = .ok st := by
  induction es with
  | nil => rfl
  | cons e es ih =>
    unfold addEdges
    have : addEdge [] st e = .ok st := by
      unfold addEdge
      simp [byIdGet]
    rw [this]
    exact ih

/-- C25 fails on the code. For the GRAPH_V1 input without nodes the linear and the
branched run of `layoutAndRender` end with the exception `'GRAPH_V1 has no nodes'`; no
bounding box is returned. -/
theorem layoutAndRender_empty_graph_throws :
    errOf (layoutAndRender exEnvDagre { S := { LAYOUT := "linear" }, graphV1 := some exEmptyGraph })
      = some "GRAPH_V1 has no nodes" ∧
    errOf (layoutAndRender exEnvDagre { S := { LAYOUT := "branched" }, graphV1 := some exEmptyGraph })
      = some "GRAPH_V1 has no nodes" ∧
    errOf (layoutLinear exTanOne true {} none exNodeW exNodeH none (.graph exEmptyGraph) {})
      = some "GRAPH_V1 has no nodes" := by
  refine ⟨by decide, by decide, by decide⟩

/-- C25 as the code has it: for a GRAPH_V1 input with zero nodes `graphV1ToHierarchy`
throws `Error('GRAPH_V1 has no nodes')`, and `layoutLinear` passes the exception on. -/
theorem graphV1_no_nodes_throws (g : GraphV1) (hn : g.nodes.getD [] = [])
    (includeGhosts : Bool) (tanDeg : ℚ → ℚ) (S : Settings)
    (bestChildPack : Option (HNode → Option Nat)) (nodeW nodeH : HNode → JSNum)
    (keyFn : Option (HNode → String)) (st : Placed) :
    graphV1ToHierarchy g includeGhosts = some (.error "GRAPH_V1 has no nodes") ∧
    layoutLinear tanDeg includeGhosts S bestChildPack nodeW nodeH keyFn (.graph g) st =
      some (.error "GRAPH_V1 has no nodes") := by
  have h1 : graphV1ToHierarchy g includeGhosts = some (.error "GRAPH_V1 has no nodes") := by
    unfold graphV1ToHierarchy graphV1ToHierarchyFuel
    simp only [hn, addEdges_no_nodes]
    simp [chooseRoot, byIdGet, JId.truthy, initIndeg]
  refine ⟨h1, ?_⟩
  unfold layoutLinear
  simp only [h1]

/-- Witness for the amended C25: the graph without nodes. -/
theorem graphV1_no_nodes_throws_witness :
    graphV1ToHierarchy exEmptyGraph true = some (.error "GRAPH_V1 has no nodes") :=
  (graphV1_no_nodes_throws exEmptyGraph rfl true exTanOne {} none exNodeW exNodeH none {}).1

/-! ## Search -/

theorem searchFrom_spec (toLowerCase : String → String) (q : String) :
    ∀ (ns : List PlacedNode) (idx : Nat), (∀ n ∈ ns, n.data.isSome = true) →
      ∃ r : List Nat, searchFrom toLowerCase q idx ns = .ok r ∧
        r.Pairwise (fun a b => a < b) ∧
        (∀ i, i ∈ r ↔ ∃ (j : Nat) (n : PlacedNode), i = idx + j ∧ ns[j]? = some n ∧
          includesChars (searchText toLowerCase n).data q.data = true) := by
  intro ns
  induction ns with
  | nil =>
    intro idx _
    exact ⟨[], rfl, List.Pairwise.nil, by simp⟩
  | cons n ns ih =>
    intro idx hd
    obtain ⟨r, hr, hs, hm⟩ := ih (idx + 1) (fun m hm => hd m (List.mem_cons_of_mem _ hm))
    have hn := hd n (List.mem_cons_self _ _)
    cases hdn : n.data with
    | none => rw [hdn] at hn; simp at hn
    | some d =>
      have hge : ∀ i ∈ r, idx < i := by
        intro i hi
        obtain ⟨j, _, hj, _⟩ := (hm i).1 hi
        omega
      have htxt : searchText toLowerCase n = toLowerCase (d.token.getD "") := by
        simp [searchText, hdn]
      unfold searchFrom
      simp only [hdn, hr]
      by_cases hinc : includesChars (toLowerCase (d.token.getD "")).data q.data = true
      · refine ⟨idx :: r, by rw [if_pos hinc], List.Pairwise.cons hge hs, ?_⟩
        intro i
        constructor
        · intro hi
          rcases List.mem_cons.1 hi with rfl | hi
          · exact ⟨0, n, rfl, by simp, by rw [htxt]; exact hinc⟩
          · obtain ⟨j, m, hj, hjm, hjq⟩ := (hm i).1 hi
            exact ⟨j + 1, m, by omega, by simpa using hjm, hjq⟩
        · rintro ⟨j, m, hj, hjm, hjq⟩
          cases j with
          | zero => simp [hj]
          | succ j =>
            exact List.mem_cons_of_mem _ ((hm i).2 ⟨j, m, by omega, by simpa using hjm, hjq⟩)
      · refine ⟨r, by rw [if_neg hinc], hs, ?_⟩
        intro i
        constructor
        · intro hi
          obtain ⟨j, m, hj, hjm, hjq⟩ := (hm i).1 hi
          exact ⟨j + 1, m, by omega, by simpa using hjm, hjq⟩
        · rintro ⟨j, m, hj, hjm, hjq⟩
          cases j with
          | zero =>
            simp only [List.getElem?_cons_zero, Option.some.injEq] at hjm
            subst hjm
            rw [htxt] at hjq
            exact absurd hjq hinc
          | succ j => exact (hm i).2 ⟨j, m, by omega, by simpa using hjm, hjq⟩

/-- C27. With `q' = trim(toLowerCase(query))`: for empty `q'` `runSearch` returns count `0`
and leaves `searchMatches` empty; else `searchMatches` holds, in strictly increasing order,
exactly the indices of the placed nodes whose lower-cased token contains `q'`, and the
count is its length.  The placed nodes carry `data`, as `n.hnode.data.token` needs. -/
theorem runSearch_spec (toLowerCase trim : String → String) (placedNodes : List PlacedNode)
    (query : Option String) (hd : ∀ n ∈ placedNodes, n.data.isSome = true) :
    (trim (toLowerCase (query.getD "")) = "" →
      runSearch toLowerCase trim placedNodes query = .ok ([], 0)) ∧
    (trim (toLowerCase (query.getD "")) ≠ "" →
      ∃ r : List Nat, runSearch toLowerCase trim placedNodes query = .ok (r, r.length) ∧
        r.Pairwise (fun a b => a < b) ∧
        ∀ i, i ∈ r ↔ ∃ n : PlacedNode, placedNodes[i]? = some n ∧
          includesChars (searchText toLowerCase n).data
            (trim (toLowerCase (query.getD ""))).data = true) := by
  constructor
  · intro hq
    simp [runSearch, hq]
  · intro hq
    obtain ⟨r, hr, hs, hm⟩ :=
      searchFrom_spec toLowerCase (trim (toLowerCase (query.getD ""))) placedNodes 0 hd
    refine ⟨r, by simp [runSearch, hq, hr], hs, fun i => ?_⟩
    rw [hm i]
    constructor
    · rintro ⟨j, n, hj, hjn, hjq⟩
      exact ⟨n, by rw [hj, Nat.zero_add]; exact hjn, hjq⟩
    · rintro ⟨n, hn, hq2⟩
      exact ⟨i, n, by omega, hn, hq2⟩

/-- Witness for C27: the query `" HEL "` on the tokens `Hello`, `world`, `HELP` matches the
indices `0` and `2`. -/
theorem runSearch_spec_witness :
    ∃ r : List Nat, runSearch exLower exTrim exSearchNodes (some " HEL ") =
        .ok (r, r.length) ∧ r.Pairwise (fun a b => a < b) ∧
      ∀ i, i ∈ r ↔ ∃ n : PlacedNode, exSearchNodes[i]? = some n ∧
        includesChars (searchText exLower n).data
          (exTrim (exLower ((some " HEL ").getD ""))).data = true :=
  (runSearch_spec exLower exTrim exSearchNodes (some " HEL ")
    (by decide)).2 (by decide)

/-! ## Legacy bundle → tree -/

theorem lookup_mem_keys {β : Type} (l : List (String × β)) (k : String) (b : β)
    (h : l.lookup k = some b) : (k, b) ∈ l := by
  induction l with
  | nil => simp at h
  | cons e l ih =>
    obtain ⟨k1, b1⟩ := e
    simp only [List.lookup] at h
    by_cases hk : k = k1
    · subst hk
      simp at h
      subst h
      exact List.mem_cons_self _ _
    · have : (k == k1) = false := by simpa using hk
      rw [this] at h
      exact List.mem_cons_of_mem _ (ih h)

/-- Pushing a reference of the bundle leaves fewer references off the path. -/
theorem offPath_lt (refs : List JId) (ps : List JId) (k : JId)
    (h : k ∈ refs) (hk : k ∉ ps) :
    offPath refs (ps ++ [k]) < offPath refs ps := by
  unfold offPath
  apply length_filter_lt _ _ k
  · intro a _ ha
    simp only [decide_eq_true_eq, List.mem_append, not_or] at ha ⊢
    exact ha.1
  · exact List.mem_dedup.2 h
  · simpa using hk
  · simp

theorem offPath_le (refs : List JId) (ps : List JId) :
    offPath refs ps ≤ refs.length := by
  unfold offPath
  exact (List.length_filter_le _ _).trans (List.Sublist.length_le (List.dedup_sublist _))

/-- The children loop returns when every recursive call does, and its result is no deeper
than the calls' results. -/
theorem cloneKids_total (f : JId → Option (Option BTree)) (bound : Nat) :
    ∀ refs : List JId,
      (∀ r ∈ refs, ∃ t, f r = some t ∧ ∀ u, t = some u → u.depth ≤ bound) →
      ∃ kids, cloneKids f refs = some kids ∧ BTree.depthList kids ≤ bound
  | [], _ => ⟨[], rfl, by simp [BTree.depthList]⟩
  | r :: rs, hf => by
    obtain ⟨kids, hk, hdep⟩ :=
      cloneKids_total f bound rs (fun r1 h1 => hf r1 (List.mem_cons_of_mem _ h1))
    obtain ⟨t, ht, hu⟩ := hf r (List.mem_cons_self _ _)
    cases t with
    | none => exact ⟨kids, by simp [cloneKids, ht, hk], hdep⟩
    | some u =>
      refine ⟨u :: kids, by simp [cloneKids, ht, hk], ?_⟩
      simp only [BTree.depthList]
      exact max_le (hu u rfl) hdep

/-- `cloneNodeWithChildren` returns within a budget of one more than the number of
distinct references off the path, with a tree of depth at most that number plus one. -/
theorem cloneNodeWithChildren_total (nodesById : List (String × BNode)) (refs : List JId)
    (hclosed : ∀ k b, nodesById.lookup k = some b → ∀ r ∈ b.children.getD [], r ∈ refs) :
    ∀ (fuel : Nat) (ps : List JId) (nodeId : JId),
      offPath refs ps < fuel → nodeId ∈ refs →
      ∃ t, cloneNodeWithChildren nodesById fuel ps nodeId = some t ∧
        ∀ u, t = some u → u.depth ≤ offPath refs ps + 1 := by
  intro fuel
  induction fuel with
  | zero => intro ps nodeId h; omega
  | succ fuel ih =>
    intro ps nodeId hfuel href
    unfold cloneNodeWithChildren
    by_cases hin : nodeId ∈ ps
    · rw [if_pos hin]
      refine ⟨_, rfl, ?_⟩
      intro u hu
      simp only [Option.some.injEq] at hu
      subst hu
      simp [BTree.depth, BTree.depthList]
    · rw [if_neg hin]
      cases hl : nodesByIdGet nodesById nodeId with
      | none => exact ⟨none, rfl, by intro u hu; simp at hu⟩
      | some o =>
        simp only
        have hlt := offPath_lt refs ps nodeId href hin
        have hkids : ∀ r ∈ (o.bind (fun b => b.children)).getD [], r ∈ refs := by
          intro r hr
          cases o with
          | none => simp at hr
          | some b =>
            have hb : nodesById.lookup nodeId.toStr = some b := by
              unfold nodesByIdGet at hl
              split at hl
              · simp only [Option.some.injEq] at hl
                subst hl
                assumption
              · split at hl <;> simp at hl
            exact hclosed _ b hb r (by simpa using hr)
        obtain ⟨kids, hk, hdep⟩ :=
          cloneKids_total (cloneNodeWithChildren nodesById fuel (ps ++ [nodeId]))
            (offPath refs (ps ++ [nodeId]) + 1) _
            (fun r hr => ih (ps ++ [nodeId]) r (by omega) (hkids r hr))
        rw [hk]
        refine ⟨_, rfl, ?_⟩
        intro u hu
        simp only [Option.some.injEq] at hu
        subst hu
        simp only [BTree.depth]
        omega

/-- `resolveBundleToTree` returns on every finite bundle, cyclic ones included, with `null`
or a tree whose depth is at most the number of references of the bundle plus one. -/
theorem resolveBundleToTree_total (root : JId) (nodesById : List (String × BNode)) :
    ∃ t, resolveBundleToTree root nodesById = some t ∧
      ∀ u, t = some u → u.depth ≤ (bundleRefs root nodesById).length + 1 := by
  have hclosed : ∀ k b, nodesById.lookup k = some b →
      ∀ r ∈ b.children.getD [], r ∈ bundleRefs root nodesById := by
    intro k b hb r hr
    refine List.mem_cons_of_mem _ (List.mem_flatMap.2 ⟨(k, b), lookup_mem_keys _ _ _ hb, hr⟩)
  obtain ⟨t, ht, hu⟩ := cloneNodeWithChildren_total nodesById (bundleRefs root nodesById)
    hclosed ((bundleRefs root nodesById).length + 1) [] root
    (by have := offPath_le (bundleRefs root nodesById) []; omega) (List.mem_cons_self _ _)
  refine ⟨t, ht, fun u hut => ?_⟩
  have := hu u hut
  have := offPath_le (bundleRefs root nodesById) []
  omega

/-- C26 fails on the code. In the bundle whose only entry `A` refers to the ids
`constructor` and `missing`, neither id is a key of `nodes_by_id`.  The reference to
`missing` is dropped, but `nodes_by_id['constructor']` reads the function every object
inherits, which is truthy: the reference is kept, as a node without any copied field and
without children.  The bundle with the cycle `A → B → A` resolves as claimed, to the path
`A`, `B`, `A` with the last node flagged. -/
theorem resolveBundleToTree_keeps_inherited_id :
    (resolveBundleToTree (.str "A") exBundleInherited).map
        (fun r => r.map (fun t => (t.flat, t.depth)))
      = some (some ([("A", true, false), ("constructor", false, false)], 2)) ∧
    exBundleInherited.lookup "constructor" = none ∧
    exBundleInherited.lookup "missing" = none ∧
    (resolveBundleToTree (.str "A") exBundle).map
        (fun r => r.map (fun t => (t.flat, t.depth)))
      = some (some ([("A", true, false), ("B", true, false), ("A", true, true)], 3)) := by
  refine ⟨by decide, ?_, ?_, by decide⟩ <;> rfl

/-! ## Linear layout: the annotated tree -/

theorem foldl_max_ge_init (l : List ℚ) : ∀ a : ℚ, a ≤ l.foldl max a := by
  induction l with
  | nil => intro a; exact le_refl _
  | cons x l ih => intro a; exact le_trans (le_max_left a x) (ih (max a x))

theorem span_fold_ge (kids : List LNode) :
    ∀ (a : Nat), a ≤ kids.foldl (fun sp c => max sp (max c.profile.span 1 + 1)) a ∧
      ∀ c ∈ kids, c.profile.span + 1 ≤ kids.foldl (fun sp c => max sp (max c.profile.span 1 + 1)) a := by
  induction kids with
  | nil => intro a; exact ⟨le_refl _, by simp⟩
  | cons x l ih =>
    intro a
    obtain ⟨h1, h2⟩ := ih (max a (max x.profile.span 1 + 1))
    refine ⟨le_trans (le_max_left _ _) h1, ?_⟩
    intro c hc
    rcases List.mem_cons.1 hc with rfl | hc
    · simp only [List.foldl_cons]
      have : c.profile.span + 1 ≤ max a (max c.profile.span 1 + 1) := by omega
      exact le_trans this h1
    · exact h2 c hc

/-- A merged column is at most the value contributed by any child that reaches it. -/
theorem mergeCol_min_le (sel : Profile → List ℚ) (j : Nat) :
    ∀ (l : List (Nat × LNode × ℚ)) (acc : Option ℚ),
      (∀ a, acc = some a → ∃ v, l.foldl (fun acc e =>
          if j < e.2.1.profile.span then
            some (match acc with
              | none => e.2.2 + (sel e.2.1.profile).getD j 0
              | some a => min a (e.2.2 + (sel e.2.1.profile).getD j 0))
          else acc) acc = some v ∧ v ≤ a) ∧
      (∀ e ∈ l, j < e.2.1.profile.span → ∃ v, l.foldl (fun acc e =>
          if j < e.2.1.profile.span then
            some (match acc with
              | none => e.2.2 + (sel e.2.1.profile).getD j 0
              | some a => min a (e.2.2 + (sel e.2.1.profile).getD j 0))
          else acc) acc = some v ∧ v ≤ e.2.2 + (sel e.2.1.profile).getD j 0) := by
  intro l
  induction l with
  | nil =>
    intro acc
    exact ⟨fun a ha => ⟨a, ha, le_refl _⟩, by simp⟩
  | cons x l ih =>
    intro acc
    simp only [List.foldl_cons]
    constructor
    · intro a ha
      subst ha
      by_cases hx : j < x.2.1.profile.span
      · rw [if_pos hx]
        obtain ⟨v, hv, hle⟩ := (ih _).1 _ rfl
        exact ⟨v, hv, le_trans hle (min_le_left _ _)⟩
      · rw [if_neg hx]
        exact (ih _).1 a rfl
    · intro e he hj
      rcases List.mem_cons.1 he with rfl | he
      · rw [if_pos hj]
        obtain ⟨v, hv, hle⟩ := (ih _).1 _ rfl
        refine ⟨v, hv, le_trans hle ?_⟩
        cases acc with
        | none => exact le_refl _
        | some a => exact min_le_right _ _
      · exact (ih _).2 e he hj

/-- The offsets of `buildProfiles`: `0` for the main child, positive for an alternate. -/
theorem childOffsetsFrom_spec (main : Option Nat) (gap : ℚ) (hgap : 0 ≤ gap) :
    ∀ (cs : List LNode) (k : Nat) (altStart : ℚ), 0 < altStart → (∀ c ∈ cs, 0 ≤ c.down) →
      (childOffsetsFrom main gap cs k altStart).length = cs.length ∧
      ∀ i, i < cs.length →
        (main = some (k + i) → (childOffsetsFrom main gap cs k altStart).getD i 0 = 0) ∧
        (main ≠ some (k + i) → 0 < (childOffsetsFrom main gap cs k altStart).getD i 0) := by
  intro cs
  induction cs with
  | nil => intro k a _ _; exact ⟨rfl, by intro i hi; simp at hi⟩
  | cons c cs ih =>
    intro k a ha hd
    have hdc := hd c (List.mem_cons_self _ _)
    have hd2 : ∀ x ∈ cs, 0 ≤ x.down := fun x hx => hd x (List.mem_cons_of_mem _ hx)
    unfold childOffsetsFrom
    by_cases hm : main = some k
    · rw [if_pos hm]
      obtain ⟨hl, hi⟩ := ih (k + 1) a ha hd2
      refine ⟨by simp [hl], ?_⟩
      intro i hilt
      cases i with
      | zero => simp [hm]
      | succ i =>
        have := hi i (by simpa using hilt)
        simpa [Nat.add_assoc, Nat.add_comm 1 i] using this
    · rw [if_neg hm]
      obtain ⟨hl, hi⟩ := ih (k + 1) (a + c.down + gap) (by linarith) hd2
      refine ⟨by simp [hl], ?_⟩
      intro i hilt
      cases i with
      | zero => simp [hm, ha]
      | succ i =>
        have := hi i (by simpa using hilt)
        simpa [Nat.add_assoc, Nat.add_comm 1 i] using this

/-- Every child with its index and offset is among the children that are merged. -/
theorem mem_orderedKids (main : Option Nat) (kids : List LNode) (offsets : List ℚ)
    (hl : offsets.length = kids.length) (i : Nat) (c : LNode) (hc : kids[i]? = some c) :
    (i, c, offsets.getD i 0) ∈ orderedKids main kids offsets := by
  unfold orderedKids
  have hi : i < kids.length := by
    rcases Nat.lt_or_ge i kids.length with h | h
    · exact h
    · rw [List.getElem?_eq_none h] at hc; simp at hc
  have hmem : (i, c, offsets.getD i 0) ∈
      List.zip (List.range kids.length) (List.zip kids offsets) := by
    rw [List.mem_iff_getElem?]
    refine ⟨i, ?_⟩
    have ho : offsets[i]? = some (offsets.getD i 0) := by
      rw [List.getD_eq_getElem?_getD, List.getElem?_eq_getElem (by omega)]
      simp
    rw [List.getElem?_zip_eq_some]
    refine ⟨List.getElem?_range hi, ?_⟩
    rw [List.getElem?_zip_eq_some]
    exact ⟨hc, ho⟩
  simp only [List.mem_append, List.mem_filter]
  by_cases hm : main = some i
  · left; exact ⟨hmem, by simp [hm]⟩
  · right; exact ⟨hmem, by simp [hm]⟩

theorem wfKids_of (d : Nat) (main : Option Nat) (prof : Profile) :
    ∀ (cs : List LNode) (offs : List ℚ) (k : Nat),
      (∀ c ∈ cs, c.WF d) →
      (∀ i c, cs[i]? = some c →
        (main = some (k + i) → offs.getD i 0 = 0) ∧ (main ≠ some (k + i) → 0 < offs.getD i 0) ∧
        ∀ j, j < c.profile.span →
          j + 1 < prof.span ∧ prof.top.getD (j + 1) 0 ≤ offs.getD i 0 + c.profile.top.getD j 0) →
      LNode.WFKids d main prof k cs offs := by
  intro cs
  induction cs with
  | nil => intro offs k _ _; simp [LNode.WFKids]
  | cons c cs ih =>
    intro offs k hwf h
    have h0 := h 0 c (by simp)
    have hhd : offs.headD 0 = offs.getD 0 0 := by cases offs <;> rfl
    simp only [LNode.WFKids]
    refine ⟨hwf c (List.mem_cons_self _ _), ?_, ?_, ?_, ?_⟩
    · rw [hhd]; simpa using h0.1
    · rw [hhd]; simpa using h0.2.1
    · rw [hhd]; exact h0.2.2
    · apply ih offs.tail (k + 1) (fun x hx => hwf x (List.mem_cons_of_mem _ hx))
      intro i x hx
      have := h (i + 1) x (by simpa using hx)
      have ht : offs.tail.getD i 0 = offs.getD (i + 1) 0 := by cases offs <;> simp
      rw [ht]
      simpa [Nat.add_assoc, Nat.add_comm 1 i] using this
theorem mergeCol_top_le (ordered : List (Nat × LNode × ℚ)) (j : Nat) (e : Nat × LNode × ℚ)
    (he : e ∈ ordered) (hj : j < e.2.1.profile.span) :
    ∃ v, mergeCol ordered (fun q => q.top) min j = some v ∧
      v ≤ e.2.2 + e.2.1.profile.top.getD j 0 := by
  unfold mergeCol
  exact (mergeCol_min_le (fun q => q.top) j ordered none).2 e he hj

theorem LNode.WF_down (d : Nat) : ∀ c : LNode, c.WF d → 0 ≤ c.down
  | .mk _ _ _ _ _ _ _ _, h => by
    simp only [LNode.WF] at h
    exact h.2.2.2.2.1

theorem getD_map_range (f : Nat → ℚ) (n i : Nat) (hi : i < n) :
    ((List.range n).map f).getD i 0 = f i := by
  rw [List.getD_eq_getElem?_getD, List.getElem?_map, List.getElem?_range hi]
  rfl

mutual
/-- The tree annotated by `buildProfiles` from a `d3.hierarchy` tree is well formed. -/
theorem buildProfiles_wf (S : Settings) (nodeW nodeH : HNode → JSNum)
    (bcp : Option (HNode → Option Nat)) (hgap : 0 ≤ jsOr S.ALT_GAP 0) :
    ∀ (t : Nested) (d : Nat), (buildProfiles S nodeW nodeH bcp (hierarchyAt d t)).WF d
  | .mk dat cs, d => by
    have ihk := buildProfilesList_wf S nodeW nodeH bcp hgap cs (d + 1)
    simp only [hierarchyAt, buildProfiles, LNode.WF]
    have h8 := clampDim_ge (nodeH (.mk { data := dat, depth := d } (hierarchyListAt (d + 1) cs)))
    generalize _clampDim (nodeH (.mk { data := dat, depth := d } (hierarchyListAt (d + 1) cs))) = h at h8 ⊢
    generalize buildProfilesList S nodeW nodeH bcp (hierarchyListAt (d + 1) cs) = kids at ihk ⊢
    generalize mainIndex bcp (.mk { data := dat, depth := d } (hierarchyListAt (d + 1) cs)) = main
    have hsp := span_fold_ge kids 1
    generalize hspan : kids.foldl (fun sp c => max sp (max c.profile.span 1 + 1)) 1 = span at hsp ⊢
    have hoff := childOffsetsFrom_spec main (jsOr S.ALT_GAP 0) hgap kids 0 (h / 2 + jsOr S.ALT_GAP 0)
      (by linarith) (fun c hc => LNode.WF_down (d + 1) c (ihk c hc))
    generalize childOffsetsFrom main (jsOr S.ALT_GAP 0) kids 0 (h / 2 + jsOr S.ALT_GAP 0) = offs
      at hoff ⊢
    refine ⟨by simp [HInfo.depthRead, HNode.info], h8, hsp.1, ?_, ?_, ?_⟩
    · rw [getD_map_range _ _ _ (by omega)]; simp
    · exact le_trans (by linarith) (foldl_max_ge_init _ _)
    · apply wfKids_of (d + 1) main _ kids offs 0 ihk
      intro i c hc
      have hi : i < kids.length := by
        rcases Nat.lt_or_ge i kids.length with h | h
        · exact h
        · rw [List.getElem?_eq_none h] at hc; simp at hc
      refine ⟨?_, ?_, ?_⟩
      · simpa using (hoff.2 i hi).1
      · simpa using (hoff.2 i hi).2
      · intro j hj
        have hcm : c ∈ kids := List.getElem?_mem hc
        have hj1 : j + 1 < span := by have := hsp.2 c hcm; omega
        refine ⟨hj1, ?_⟩
        simp only
        rw [getD_map_range _ _ _ hj1]
        obtain ⟨v, hv, hle⟩ := mergeCol_top_le (orderedKids main kids offs) j
          (i, c, offs.getD i 0) (mem_orderedKids main kids offs hoff.1 i c hc) hj
        simp only [Nat.add_sub_cancel, Nat.succ_ne_zero, if_false, hv, Option.getD_some]
        exact hle
/-- The children annotated by `buildProfiles` are well formed. -/
theorem buildProfilesList_wf (S : Settings) (nodeW nodeH : HNode → JSNum)
    (bcp : Option (HNode → Option Nat)) (hgap : 0 ≤ jsOr S.ALT_GAP 0) :
    ∀ (cs : List Nested) (d : Nat),
      ∀ c ∈ buildProfilesList S nodeW nodeH bcp (hierarchyListAt d cs), c.WF d
  | [], d => by simp [hierarchyListAt, buildProfilesList]
  | t :: ts, d => by
    intro c hc
    simp only [hierarchyListAt, buildProfilesList, List.mem_cons] at hc
    rcases hc with rfl | hc
    · exact buildProfiles_wf S nodeW nodeH bcp hgap t d
    · exact buildProfilesList_wf S nodeW nodeH bcp hgap ts d c hc
end

/-! ## Linear layout: maps and the skyline -/

theorem mapGet_mapSet {α : Type} (m : List (Nat × α)) (k : Nat) (v : α) (k1 : Nat) :
    mapGet (mapSet m k v) k1 = if k1 = k then some v else mapGet m k1 := by
  induction m with
  | nil =>
    by_cases h : k1 = k
    · simp [mapGet, mapSet, h]
    · have h2 : ¬ k = k1 := fun e => h e.symm
      simp [mapGet, mapSet, h, h2]
  | cons e m ih =>
    unfold mapSet
    by_cases he : e.1 = k
    · rw [if_pos he]
      by_cases h : k1 = k
      · simp [mapGet, h]
      · have h2 : ¬ k = k1 := fun e => h e.symm
        have h3 : ¬ e.1 = k1 := by rw [he]; exact h2
        simp [mapGet, h, h2, h3, List.find?_cons]
    · rw [if_neg he]
      by_cases h1 : e.1 = k1
      · have h : ¬ k1 = k := by rw [← h1]; exact he
        simp [mapGet, List.find?_cons, h1, h]
      · have ih2 := ih
        unfold mapGet at ih2 ⊢
        simp only [List.find?_cons, h1, decide_False]
        exact ih2

/-- `need` is never negative. -/
theorem needOf_nonneg (S : Settings) (sky : List (Nat × ℚ)) (absDepth : Nat) (base : ℚ)
    (prof : Profile) : 0 ≤ needOf S sky absDepth base prof := by
  unfold needOf
  have : ∀ (l : List Nat) (a : ℚ), a ≤ l.foldl (fun need j =>
      match mapGet sky (absDepth + 1 + j) with
      | some skybot => max need ((skybot + jsOr S.ALT_GAP 0) - (base + prof.top.getD j 0))
      | none => need) a := by
    intro l
    induction l with
    | nil => intro a; exact le_refl _
    | cons x l ih =>
      intro a
      simp only [List.foldl_cons]
      refine le_trans ?_ (ih _)
      split
      · exact le_max_left _ _
      · exact le_refl _
  exact this _ 0

/-- `need` lifts the child's profile clear of the skyline in every column it reaches. -/
theorem needOf_ge (S : Settings) (sky : List (Nat × ℚ)) (absDepth : Nat) (base : ℚ)
    (prof : Profile) (j : Nat) (hj : j < prof.span) (v : ℚ)
    (hv : mapGet sky (absDepth + 1 + j) = some v) :
    v + jsOr S.ALT_GAP 0 ≤ base + needOf S sky absDepth base prof + prof.top.getD j 0 := by
  have key : ∀ (l : List Nat) (a : ℚ),
      a ≤ l.foldl (fun need j =>
        match mapGet sky (absDepth + 1 + j) with
        | some skybot => max need ((skybot + jsOr S.ALT_GAP 0) - (base + prof.top.getD j 0))
        | none => need) a ∧
      (j ∈ l → (v + jsOr S.ALT_GAP 0) - (base + prof.top.getD j 0) ≤ l.foldl (fun need j =>
        match mapGet sky (absDepth + 1 + j) with
        | some skybot => max need ((skybot + jsOr S.ALT_GAP 0) - (base + prof.top.getD j 0))
        | none => need) a) := by
    intro l
    induction l with
    | nil => intro a; exact ⟨le_refl _, by simp⟩
    | cons x l ih =>
      intro a
      simp only [List.foldl_cons]
      constructor
      · refine le_trans ?_ (ih _).1
        split
        · exact le_max_left _ _
        · exact le_refl _
      · intro hjm
        rcases List.mem_cons.1 hjm with rfl | hjm
        · rw [hv]
          exact le_trans (le_max_right _ _) (ih _).1
        · exact (ih _).2 hjm
  have h3 : (v + jsOr S.ALT_GAP 0) - (base + prof.top.getD j 0) ≤
      needOf S sky absDepth base prof := by
    unfold needOf
    exact (key (List.range prof.span) 0).2 (List.mem_range.2 hj)
  linarith

/-- `need` is `0` when the profile is clear of the skyline already. -/
theorem needOf_zero (S : Settings) (sky : List (Nat × ℚ)) (absDepth : Nat) (base : ℚ)
    (prof : Profile)
    (h : ∀ j, j < prof.span → ∀ v, mapGet sky (absDepth + 1 + j) = some v →
      v + jsOr S.ALT_GAP 0 ≤ base + prof.top.getD j 0) :
    needOf S sky absDepth base prof = 0 := by
  unfold needOf
  have key : ∀ (l : List Nat), (∀ j ∈ l, j < prof.span) →
      l.foldl (fun need j =>
        match mapGet sky (absDepth + 1 + j) with
        | some skybot => max need ((skybot + jsOr S.ALT_GAP 0) - (base + prof.top.getD j 0))
        | none => need) 0 = 0 := by
    intro l
    induction l with
    | nil => intro _; rfl
    | cons x l ih =>
      intro hl
      simp only [List.foldl_cons]
      have hx := hl x (List.mem_cons_self _ _)
      have : (match mapGet sky (absDepth + 1 + x) with
        | some skybot => max (0 : ℚ) ((skybot + jsOr S.ALT_GAP 0) - (base + prof.top.getD x 0))
        | none => 0) = 0 := by
        cases hm : mapGet sky (absDepth + 1 + x) with
        | none => rfl
        | some v =>
          simp only
          have := h x hx v hm
          exact max_eq_left (by linarith)
      rw [this]
      exact ih (fun j hj => hl j (List.mem_cons_of_mem _ hj))
  exact key _ (fun j hj => List.mem_range.1 hj)

/-- The skyline update after a child never lowers a column. -/
theorem raiseSky_ge (absDepth : Nat) (childBase : ℚ) (prof : Profile) :
    ∀ (sky : List (Nat × ℚ)) (col : Nat) (v : ℚ), mapGet sky col = some v →
      ∃ v1, mapGet (raiseSky sky absDepth childBase prof) col = some v1 ∧ v ≤ v1 := by
  unfold raiseSky
  generalize List.range prof.span = l
  induction l with
  | nil => intro sky col v h; exact ⟨v, h, le_refl _⟩
  | cons x l ih =>
    intro sky col v h
    simp only [List.foldl_cons]
    have hstep : ∃ v0, mapGet (mapSet sky (absDepth + 1 + x)
        (match mapGet sky (absDepth + 1 + x) with
          | some v => max v (childBase + prof.bottom.getD x 0)
          | none => childBase + prof.bottom.getD x 0)) col = some v0 ∧ v ≤ v0 := by
      rw [mapGet_mapSet]
      by_cases hc : col = absDepth + 1 + x
      · rw [if_pos hc]
        subst hc
        rw [h]
        exact ⟨_, rfl, le_max_left _ _⟩
      · rw [if_neg hc]
        exact ⟨v, h, le_refl _⟩
    obtain ⟨v0, hv0, hle0⟩ := hstep
    obtain ⟨v1, hv1, hle1⟩ := ih _ col v0 hv0
    exact ⟨v1, hv1, le_trans hle0 hle1⟩
/-! ## Linear layout: the profile's upper bound -/

theorem pushed_refl (P : PlacedNode → Prop) (l : List PlacedNode) : Pushed P l l :=
  ⟨[], by simp, by simp⟩

theorem pushed_trans {P : PlacedNode → Prop} {a b c : List PlacedNode}
    (h1 : Pushed P a b) (h2 : Pushed P b c) : Pushed P a c := by
  obtain ⟨N1, e1, p1⟩ := h1
  obtain ⟨N2, e2, p2⟩ := h2
  refine ⟨N1 ++ N2, by rw [e2, e1, List.append_assoc], ?_⟩
  intro q hq
  rcases List.mem_append.1 hq with hq | hq
  · exact p1 q hq
  · exact p2 q hq

theorem pushed_mono {P Q : PlacedNode → Prop} {a b : List PlacedNode}
    (h : ∀ q, P q → Q q) (h1 : Pushed P a b) : Pushed Q a b := by
  obtain ⟨N1, e1, p1⟩ := h1
  exact ⟨N1, e1, fun q hq => h q (p1 q hq)⟩

theorem clampDim_fin_of_ge (v : ℚ) (h : 8 ≤ v) : _clampDim (.fin v) = v := by
  have h0 : (0 : ℚ) < v := by linarith
  simp only [_clampDim, if_pos h0]
  exact max_eq_right h

theorem kidsBelow_belowTop {prof : Profile} {baseY : ℚ} {absDepth : Nat} {q : PlacedNode}
    (h : KidsBelow prof baseY absDepth q) : BelowTop prof baseY absDepth q := by
  obtain ⟨j, hd, hj, hle⟩ := h
  exact ⟨j + 1, by rw [hd]; congr 1; omega, hj, hle⟩

theorem LNode.WF_top (d : Nat) : ∀ c : LNode, c.WF d →
    1 ≤ c.profile.span ∧ c.profile.top.getD 0 0 = -c.h / 2 ∧ 8 ≤ c.h
  | .mk _ _ _ _ _ _ _ _, h => by
    simp only [LNode.WF] at h
    exact ⟨h.2.2.1, h.2.2.2.1, h.2.1⟩

theorem pushed_cons {P : PlacedNode → Prop} {a b : List PlacedNode} {pn : PlacedNode}
    (h : Pushed P (a ++ [pn]) b) (hp : P pn) : Pushed P a b := by
  obtain ⟨N, e, p⟩ := h
  refine ⟨pn :: N, by rw [e]; simp, ?_⟩
  intro q hq
  rcases List.mem_cons.1 hq with rfl | hq
  · exact hp
  · exact p q hq

theorem pushed_subset {P : PlacedNode → Prop} {a b : List PlacedNode} (h : Pushed P a b) :
    a ⊆ b := by
  obtain ⟨N, e, _⟩ := h
  rw [e]
  exact List.subset_append_left _ _

mutual
/-- The call `placeSubtree(n, baseY, absDepth)` pushes the node itself, at `x = baseY`, and
then nodes that lie in the columns below, at or below the `top` of the profile of `n`. -/
theorem placeSubtree_top (S : Settings) (tanMax : Option ℚ) (getKey : HNode → String)
    (firstGap : ℚ) :
    ∀ (n : LNode) (baseY : ℚ) (absDepth : Nat) (shift : ℚ) (st : LinState), n.WF absDepth →
      ∃ pn : PlacedNode,
        Pushed (KidsBelow n.profile baseY absDepth) (st.placed.nodes ++ [pn])
          (placeSubtree S tanMax getKey firstGap n baseY absDepth shift st).placed.nodes ∧
        pn.x = baseY ∧ pn.h = n.h ∧ pn.key = getKey n.node ∧ pn.depth = (absDepth : Int)
  | .mk node w0 h0 main offsets prof down kids, baseY, absDepth, shift, st, hn => by
    simp only [LNode.WF] at hn
    obtain ⟨hd, h8, hsp, htop, _, hk⟩ := hn
    simp only [placeSubtree, LNode.profile, LNode.h, LNode.node]
    refine ⟨_, pushed_trans
      (placeKids_top S tanMax getKey firstGap _ baseY absDepth shift true main prof kids 0
          offsets _ hk)
      (placeKids_top S tanMax getKey firstGap _ baseY absDepth shift false main prof kids 0
          offsets _ hk), rfl, ?_, rfl, ?_⟩
    · exact clampDim_fin_of_ge h0 h8
    · simp [hd]
/-- Every node pushed by a pass over the children lies in a column below the parent, at or
below the `top` of the parent's profile there. -/
theorem placeKids_top (S : Settings) (tanMax : Option ℚ) (getKey : HNode → String)
    (firstGap : ℚ) (ppn : PlacedNode) (baseY : ℚ) (absDepth : Nat) (shift : ℚ)
    (mainPass : Bool) (main : Option Nat) (prof : Profile) :
    ∀ (cs : List LNode) (k : Nat) (offsets : List ℚ) (st : LinState),
      LNode.WFKids (absDepth + 1) main prof k cs offsets →
      Pushed (KidsBelow prof baseY absDepth) st.placed.nodes
        (placeKids S tanMax getKey firstGap ppn baseY absDepth shift mainPass main k cs
          offsets st).placed.nodes
  | [], k, offsets, st, _ => by
    simp only [placeKids]
    exact pushed_refl _ _
  | c :: cs, k, offsets, st, hcs => by
    simp only [LNode.WFKids] at hcs
    obtain ⟨hc, _, _, hprof, hrest⟩ := hcs
    simp only [placeKids]
    refine pushed_trans ?_
      (placeKids_top S tanMax getKey firstGap ppn baseY absDepth shift mainPass main prof cs
        (k + 1) offsets.tail _ hrest)
    split
    · simp only
      have hneed := needOf_nonneg S st.sky absDepth (baseY + offsets.headD 0) c.profile
      obtain ⟨hsp, htop, _⟩ := LNode.WF_top _ c hc
      obtain ⟨pn, hp, hx, hh, _, hdep⟩ :=
        placeSubtree_top S tanMax getKey firstGap c
          (baseY + offsets.headD 0 + needOf S st.sky absDepth (baseY + offsets.headD 0) c.profile)
          (absDepth + 1) _ _ hc
      refine pushed_cons (pushed_mono ?_ hp) ?_
      · rintro q ⟨j, hqd, hj, hle⟩
        obtain ⟨hj1, hle1⟩ := hprof (j + 1) hj
        exact ⟨j + 1, by rw [hqd]; congr 1; omega, hj1, by linarith⟩
      · obtain ⟨hj1, hle1⟩ := hprof 0 (by omega)
        refine ⟨0, by rw [hdep], hj1, ?_⟩
        rw [hx, hh]
        rw [htop] at hle1
        linarith
    · exact pushed_refl _ _
end

/-- Every node pushed by `placeSubtree(n, baseY, absDepth)`, the node itself included, lies
in a column of the profile of `n`, at or below the profile's `top`. -/
theorem placeSubtree_belowTop (S : Settings) (tanMax : Option ℚ) (getKey : HNode → String)
    (firstGap : ℚ) (n : LNode) (baseY : ℚ) (absDepth : Nat) (shift : ℚ) (st : LinState)
    (hn : n.WF absDepth) :
    Pushed (BelowTop n.profile baseY absDepth) st.placed.nodes
      (placeSubtree S tanMax getKey firstGap n baseY absDepth shift st).placed.nodes := by
  obtain ⟨pn, hp, hx, hh, _, hdep⟩ :=
    placeSubtree_top S tanMax getKey firstGap n baseY absDepth shift st hn
  obtain ⟨hsp, htop, _⟩ := LNode.WF_top _ n hn
  refine pushed_cons (pushed_mono (fun q hq => kidsBelow_belowTop hq) hp) ?_
  refine ⟨0, by rw [hdep]; rfl, by omega, ?_⟩
  rw [hx, hh, htop]
  linarith

/-! ## Linear layout: skyline and main-child alignment -/

theorem mainAligned_mono {a b : List PlacedNode} (h : a ⊆ b) (l : PlacedLink) (f : Bool)
    (hm : MainAligned a l f) : MainAligned b l f := by
  obtain ⟨s, hs, t, ht, rest⟩ := hm
  exact ⟨s, h hs, t, h ht, rest⟩

theorem skyResult_refl {gap : ℚ} {st : LinState} (hs : SkyCovers st)
    (hc : ColumnsClear gap st.placed.nodes) : SkyResult gap [] st st :=
  ⟨hs, hc, List.Subset.refl _, [], by simp, List.Forall₂.nil⟩

theorem skyResult_bind {gap : ℚ} {f1 f2 : List Bool} {a b c : LinState}
    (h1 : SkyResult gap f1 a b)
    (h2 : SkyCovers b → ColumnsClear gap b.placed.nodes → a.placed.nodes ⊆ b.placed.nodes →
      SkyResult gap f2 b c) :
    SkyResult gap (f1 ++ f2) a c := by
  obtain ⟨hs1, hc1, hsub1, L1, hl1, hf1⟩ := h1
  obtain ⟨hs2, hc2, hsub2, L2, hl2, hf2⟩ := h2 hs1 hc1 hsub1
  refine ⟨hs2, hc2, fun x hx => hsub2 (hsub1 hx), L1 ++ L2, ?_, ?_⟩
  · rw [hl2, hl1, List.append_assoc]
  · exact List.rel_append (hf1.imp (fun l f hm => mainAligned_mono hsub2 l f hm)) hf2

theorem skyResult_of_push {gap : ℚ} {f : List Bool} {st st1 c : LinState}
    (hn : st.placed.nodes ⊆ st1.placed.nodes) (hl : st1.placed.links = st.placed.links)
    (h : SkyResult gap f st1 c) : SkyResult gap f st c := by
  obtain ⟨hs, hc, hsub, L, hL, hf⟩ := h
  exact ⟨hs, hc, fun x hx => hsub (hn hx), L, by rw [hL, hl], hf⟩

theorem skyResult_child {gap : ℚ} {f : List Bool} {b : Bool} {st st1 st2 : LinState}
    {link : PlacedLink} {s : PlacedNode} {key : String} {cb : ℚ} (a : Nat) (prof : Profile)
    (h : SkyResult gap f st1 st2 ∧ ∃ t ∈ st2.placed.nodes, t.x = cb ∧ t.key = key)
    (hn : st1.placed.nodes = st.placed.nodes)
    (hl : st1.placed.links = st.placed.links ++ [link])
    (hs : s ∈ st.placed.nodes) (hk : link.skey = some s.key) (hsy : link.sy = s.x)
    (htk : link.tkey = some key) (hty : link.ty = cb)
    (hb : if b = true then cb = s.x else s.x < cb) :
    SkyResult gap (b :: f) st { st2 with sky := raiseSky st2.sky a cb prof } := by
  obtain ⟨⟨hs2, hc2, hsub, L, hL, hf⟩, t, htm, htx, htkey⟩ := h
  refine ⟨?_, hc2, fun x hx => hsub (by rw [hn]; exact hx), link :: L, ?_, ?_⟩
  · intro pn hpn c hc
    obtain ⟨v, hv, hle⟩ := hs2 pn hpn c hc
    obtain ⟨v1, hv1, hle1⟩ := raiseSky_ge a cb prof st2.sky c v hv
    exact ⟨v1, hv1, le_trans hle hle1⟩
  · show st2.placed.links = st.placed.links ++ link :: L
    rw [hL, hl, List.append_assoc]; rfl
  · refine List.Forall₂.cons ?_ hf
    refine ⟨s, hsub (by rw [hn]; exact hs), t, htm, hk, by rw [htk, htkey], hsy,
      by rw [hty, htx], ?_⟩
    rw [htx]
    exact hb

theorem skyResult_with_self {gap : ℚ} {f : List Bool} {st st1 c : LinState} {pn : PlacedNode}
    {x : ℚ} {key : String} (h : SkyResult gap f st1 c)
    (hn : st1.placed.nodes = st.placed.nodes ++ [pn]) (hl : st1.placed.links = st.placed.links)
    (hx : pn.x = x) (hkey : pn.key = key) :
    SkyResult gap f st c ∧ ∃ t ∈ c.placed.nodes, t.x = x ∧ t.key = key := by
  refine ⟨skyResult_of_push (by rw [hn]; exact List.subset_append_left _ _) hl h, ?_⟩
  obtain ⟨_, _, hsub, _⟩ := h
  exact ⟨pn, hsub (by rw [hn]; simp), hx, hkey⟩
mutual
/-- The call `placeSubtree(n, baseY, absDepth)`, started in a state whose skyline covers
the placed nodes and lies at least `ALT_GAP` above the profile of `n` put at `baseY`,
keeps the columns clear and pushes links aligned as `linkFlags n` says; the node itself is
placed at `x = baseY`. -/
theorem placeSubtree_sky (S : Settings) (tanMax : Option ℚ) (getKey : HNode → String)
    (firstGap : ℚ) :
    ∀ (n : LNode) (baseY : ℚ) (absDepth : Nat) (shift : ℚ) (st : LinState), n.WF absDepth →
      SkyCovers st → ColumnsClear (jsOr S.ALT_GAP 0) st.placed.nodes →
      (∀ j, j < n.profile.span → ∀ v, mapGet st.sky (absDepth + j) = some v →
        v + jsOr S.ALT_GAP 0 ≤ baseY + n.profile.top.getD j 0) →
      SkyResult (jsOr S.ALT_GAP 0) (linkFlags n) st
        (placeSubtree S tanMax getKey firstGap n baseY absDepth shift st) ∧
      ∃ t ∈ (placeSubtree S tanMax getKey firstGap n baseY absDepth shift st).placed.nodes,
        t.x = baseY ∧ t.key = getKey n.node
  | .mk node w0 h0 main offsets prof down kids, baseY, absDepth, shift, st, hn, hs, hc,
      hdeep => by
    simp only [LNode.WF] at hn
    obtain ⟨hd, h8, hsp, htop, _, hk⟩ := hn
    simp only [LNode.profile] at hdeep
    simp only [placeSubtree, linkFlags, LNode.node]
    have hclamp := clampDim_fin_of_ge h0 h8
    refine skyResult_with_self (skyResult_bind
        (placeKids_sky S tanMax getKey firstGap _ baseY absDepth shift true main prof
          kids 0 offsets _ ?hm rfl hk ?hs ?hc ?hd)
        (fun hs2 hc2 hsub2 =>
          placeKids_sky S tanMax getKey firstGap _ baseY absDepth shift false main prof
            kids 0 offsets _ (hsub2 ?hm2) rfl hk hs2 hc2 (by intro h; cases h)))
      rfl rfl rfl rfl
    case hm => simp
    case hm2 => simp
    case hs =>
      -- the skyline covers the nodes after the push
      intro pn hpn c hcd
      simp only [List.mem_append, List.mem_singleton] at hpn
      simp only [mapGet_mapSet]
      rcases hpn with hpn | rfl
      · obtain ⟨v, hv, hle⟩ := hs pn hpn c hcd
        by_cases hca : c = absDepth
        · rw [if_pos hca]
          subst hca
          rw [hv]
          exact ⟨_, rfl, le_trans hle (le_max_left _ _)⟩
        · rw [if_neg hca]
          exact ⟨v, hv, hle⟩
      · have hca : c = absDepth := by
          simp only at hcd
          rw [hd] at hcd
          exact (Int.ofNat_inj.1 hcd).symm
        rw [if_pos hca]
        cases hm : mapGet st.sky absDepth with
        | none => exact ⟨_, rfl, le_refl _⟩
        | some v => exact ⟨_, rfl, le_max_right _ _⟩
    case hc =>
      -- the columns stay clear
      show ColumnsClear _ (st.placed.nodes ++ [_])
      unfold ColumnsClear
      rw [List.pairwise_append]
      refine ⟨hc, List.pairwise_singleton _ _, ?_⟩
      intro a ha b hb hab
      simp only [List.mem_singleton] at hb
      subst hb
      simp only at hab ⊢
      obtain ⟨v, hv, hle⟩ := hs a ha absDepth (by rw [hab, hd])
      have := hdeep 0 hsp v (by simpa using hv)
      rw [htop] at this
      rw [hclamp]
      linarith
    case hd =>
      -- the skyline below the node is as before the push
      intro _ m _ _ j hj v hv
      simp only [mapGet_mapSet] at hv
      rw [if_neg (by omega)] at hv
      have := hdeep (j + 1) hj v (by rw [← hv]; congr 1; omega)
      exact this
/-- One pass over the children from index `k` on, started in a state whose skyline covers
the placed nodes: it keeps the columns clear and pushes links aligned as `linkFlagsKids`
says.  For the main pass the skyline below the parent must lie at least `ALT_GAP` above
the parent's profile as long as the main child is still to come. -/
theorem placeKids_sky (S : Settings) (tanMax : Option ℚ) (getKey : HNode → String)
    (firstGap : ℚ) (ppn : PlacedNode) (baseY : ℚ) (absDepth : Nat) (shift : ℚ)
    (mainPass : Bool) (main : Option Nat) (prof : Profile) :
    ∀ (cs : List LNode) (k : Nat) (offsets : List ℚ) (st : LinState),
      ppn ∈ st.placed.nodes → ppn.x = baseY →
      LNode.WFKids (absDepth + 1) main prof k cs offsets →
      SkyCovers st → ColumnsClear (jsOr S.ALT_GAP 0) st.placed.nodes →
      (mainPass = true → ∀ m, main = some m → k ≤ m →
        ∀ j, j + 1 < prof.span → ∀ v, mapGet st.sky (absDepth + 1 + j) = some v →
          v + jsOr S.ALT_GAP 0 ≤ baseY + prof.top.getD (j + 1) 0) →
      SkyResult (jsOr S.ALT_GAP 0) (linkFlagsKids mainPass main k cs) st
        (placeKids S tanMax getKey firstGap ppn baseY absDepth shift mainPass main k cs
          offsets st)
  | [], k, offsets, st, _, _, _, hs, hc, _ => by
    simp only [placeKids, linkFlagsKids]
    exact skyResult_refl hs hc
  | c :: cs, k, offsets, st, hmem, hpx, hcs, hs, hc, hdeep => by
    simp only [LNode.WFKids] at hcs
    obtain ⟨hcw, hoff0, hoffpos, hprof, hrest⟩ := hcs
    simp only [placeKids, linkFlagsKids]
    by_cases hcond : decide (main = some k) = mainPass
    · simp only [if_pos hcond]
      have hneed := needOf_nonneg S st.sky absDepth (baseY + offsets.headD 0) c.profile
      have hcb : if mainPass = true
          then baseY + offsets.headD 0 +
            needOf S st.sky absDepth (baseY + offsets.headD 0) c.profile = ppn.x
          else ppn.x < baseY + offsets.headD 0 +
            needOf S st.sky absDepth (baseY + offsets.headD 0) c.profile := by
        cases mainPass with
        | true =>
          have hm : main = some k := by simpa using hcond
          have h0 := hoff0 hm
          have hz : needOf S st.sky absDepth (baseY + offsets.headD 0) c.profile = 0 := by
            apply needOf_zero
            intro j hj v hv
            obtain ⟨hj1, hle⟩ := hprof j hj
            have := hdeep rfl k hm (le_refl _) j hj1 v hv
            linarith
          simp only [if_true]
          rw [hz, h0, hpx]; ring
        | false =>
          have hm : main ≠ some k := by simpa using hcond
          have h0 := hoffpos hm
          simp only [Bool.false_eq_true, if_false]
          rw [hpx]; linarith
      refine skyResult_bind ?_ (fun hs2 hc2 hsub2 =>
        placeKids_sky S tanMax getKey firstGap ppn baseY absDepth shift mainPass main prof cs
          (k + 1) offsets.tail _ (hsub2 hmem) hpx hrest hs2 hc2 ?_)
      · refine skyResult_child absDepth c.profile
          (placeSubtree_sky S tanMax getKey firstGap c _ (absDepth + 1) _ _ hcw ?hs1 ?hc1 ?hd1)
          rfl rfl hmem rfl rfl rfl rfl hcb
        case hs1 => exact hs
        case hc1 => exact hc
        case hd1 =>
          intro j hj v hv
          have := needOf_ge S st.sky absDepth (baseY + offsets.headD 0) c.profile j hj v hv
          linarith
      · intro hmp m hm hkm
        exfalso
        subst hmp
        have hmk : main = some k := by simpa using hcond
        rw [hmk] at hm
        have := Option.some.inj hm
        omega
    · simp only [if_neg hcond, List.nil_append]
      have := placeKids_sky S tanMax getKey firstGap ppn baseY absDepth shift mainPass main
        prof cs (k + 1) offsets.tail st hmem hpx hrest hs hc
        (by
          intro hmp m hm hkm
          apply hdeep hmp m hm (by omega))
      exact this
end

/-- From the empty state the placement of an annotated `d3.hierarchy` tree keeps the columns
clear and aligns the links. -/
theorem layoutLinearTree_sky (tanDeg : ℚ → ℚ) (S : Settings)
    (bcp : Option (HNode → Option Nat)) (nodeW nodeH : HNode → JSNum)
    (keyFn : Option (HNode → String)) (t : Nested) (hgap : 0 ≤ jsOr S.ALT_GAP 0) :
    ColumnsClear (jsOr S.ALT_GAP 0)
      (layoutLinearTree tanDeg S bcp nodeW nodeH keyFn (hierarchy t)).nodes ∧
    List.Forall₂
      (MainAligned (layoutLinearTree tanDeg S bcp nodeW nodeH keyFn (hierarchy t)).nodes)
      (layoutLinearTree tanDeg S bcp nodeW nodeH keyFn (hierarchy t)).links
      (linkFlags (buildProfiles S nodeW nodeH bcp (hierarchy t))) := by
  have hwf := buildProfiles_wf S nodeW nodeH bcp hgap t 0
  obtain ⟨⟨_, hc, _, L, hL, hf⟩, _⟩ :=
    placeSubtree_sky S (tanMaxOf tanDeg S.ANG_MAX_DEG) (keyFn.getD defaultKey)
      (max (jsOr S.GAP_X 0) (_clampDim (.fin (match buildProfiles S nodeW nodeH bcp (hierarchy t) with
        | .mk _ w _ _ _ _ _ _ => w)) + 100))
      (buildProfiles S nodeW nodeH bcp (hierarchy t)) 0 0 0 {} hwf
      (by intro pn hpn; simp at hpn) (by simp [ColumnsClear])
      (by intro j _ v hv; simp [mapGet] at hv)
  refine ⟨hc, ?_⟩
  have hL2 : (layoutLinearTree tanDeg S bcp nodeW nodeH keyFn (hierarchy t)).links = L := by
    simpa using hL
  rw [hL2]
  exact hf

/-- A successful run of `layoutLinear` on a `d3.hierarchy` tree or on a GRAPH_V1 input is
the placement of a `d3.hierarchy` tree. -/
theorem layoutLinear_tree_of (tanDeg : ℚ → ℚ) (includeGhosts : Bool) (S : Settings)
    (bcp : Option (HNode → Option Nat)) (nodeW nodeH : HNode → JSNum)
    (keyFn : Option (HNode → String)) (input : LinearInput) (st p : Placed)
    (hin : (∃ t, input = .tree (hierarchy t)) ∨ (∃ g, input = .graph g))
    (hr : layoutLinear tanDeg includeGhosts S bcp nodeW nodeH keyFn input st = some (.ok p)) :
    ∃ t : Nested, p = layoutLinearTree tanDeg S bcp nodeW nodeH keyFn (hierarchy t) ∧
      (input = .tree (hierarchy t) ∨
        ∃ g, input = .graph g ∧ graphV1ToHierarchy g includeGhosts = some (.ok (hierarchy t))) := by
  rcases hin with ⟨t, rfl⟩ | ⟨g, rfl⟩
  · simp only [layoutLinear, Option.some.injEq, Except.ok.injEq] at hr
    exact ⟨t, hr.symm, Or.inl rfl⟩
  · simp only [layoutLinear] at hr
    cases hg : graphV1ToHierarchy g includeGhosts with
    | none => rw [hg] at hr; simp at hr
    | some r =>
      cases r with
      | error e => rw [hg] at hr; simp at hr
      | ok mat =>
        rw [hg] at hr
        simp only [Option.some.injEq, Except.ok.injEq] at hr
        obtain ⟨t, ht, _⟩ := graphV1ToHierarchy_shape _ g includeGhosts mat hg
        subst ht
        exact ⟨t, hr.symm, Or.inr ⟨g, rfl, hg⟩⟩

/-- Main-child alignment in exact arithmetic.  The coordinates are rationals here, where
the source computes in doubles and rounds every sum and difference; what follows is a
property of the algorithm, not of its rounded results (in doubles the skyline check can
lift a main child by one unit in the last place).
In `layoutLinear` with `ALT_GAP ≥ 0`, run on a `d3.hierarchy` tree or a GRAPH_V1
input: the links are pushed in the order of `linkFlags` (for each node the link to its main
child if it has one, then the links to its alternates), and each link joins a placed parent
and a placed child such that the main child has the parent's `x` and an alternate child
has a strictly larger `x`. -/
theorem layoutLinear_main_child_aligned (tanDeg : ℚ → ℚ) (includeGhosts : Bool)
    (S : Settings) (bcp : Option (HNode → Option Nat)) (nodeW nodeH : HNode → JSNum)
    (keyFn : Option (HNode → String)) (input : LinearInput) (st p : Placed)
    (hgap : 0 ≤ jsOr S.ALT_GAP 0)
    (hin : (∃ t, input = .tree (hierarchy t)) ∨ (∃ g, input = .graph g))
    (hr : layoutLinear tanDeg includeGhosts S bcp nodeW nodeH keyFn input st = some (.ok p)) :
    ∃ mat : HNode,
      (input = .tree mat ∨
        ∃ g, input = .graph g ∧ graphV1ToHierarchy g includeGhosts = some (.ok mat)) ∧
      List.Forall₂ (MainAligned p.nodes) p.links
        (linkFlags (buildProfiles S nodeW nodeH bcp mat)) := by
  obtain ⟨t, hp, hmat⟩ :=
    layoutLinear_tree_of tanDeg includeGhosts S bcp nodeW nodeH keyFn input st p hin hr
  subst hp
  exact ⟨hierarchy t, hmat, (layoutLinearTree_sky tanDeg S bcp nodeW nodeH keyFn t hgap).2⟩

/-- Main-child alignment on the root with three leaf children. -/
theorem layoutLinear_main_child_aligned_witness :
    ∃ mat : HNode,
      ((LinearInput.tree (hierarchy exFan3) = .tree mat) ∨
        ∃ g, LinearInput.tree (hierarchy exFan3) = .graph g ∧
          graphV1ToHierarchy g true = some (.ok mat)) ∧
      List.Forall₂
        (MainAligned (layoutLinearTree exTanOne exSettings45 none exNodeW exNodeH none
          (hierarchy exFan3)).nodes)
        (layoutLinearTree exTanOne exSettings45 none exNodeW exNodeH none
          (hierarchy exFan3)).links
        (linkFlags (buildProfiles exSettings45 exNodeW exNodeH none mat)) :=
  layoutLinear_main_child_aligned exTanOne true exSettings45 none exNodeW exNodeH none
    (.tree (hierarchy exFan3)) {} _ (by decide!) (Or.inl ⟨exFan3, rfl⟩) rfl

/-- Column clearance in exact arithmetic (rationals, where the source rounds in doubles;
in doubles the gap between two nodes can fall short of `ALT_GAP` by one unit in the last
place).  After `layoutLinear` with `ALT_GAP ≥ 0`, run on a `d3.hierarchy` tree or a
GRAPH_V1 input, two placed nodes of the same depth column never overlap: the node placed
later has `x − h/2 ≥ (x + h/2 of the node placed earlier) + ALT_GAP`. -/
theorem layoutLinear_columns_clear (tanDeg : ℚ → ℚ) (includeGhosts : Bool)
    (S : Settings) (bcp : Option (HNode → Option Nat)) (nodeW nodeH : HNode → JSNum)
    (keyFn : Option (HNode → String)) (input : LinearInput) (st p : Placed)
    (hgap : 0 ≤ jsOr S.ALT_GAP 0)
    (hin : (∃ t, input = .tree (hierarchy t)) ∨ (∃ g, input = .graph g))
    (hr : layoutLinear tanDeg includeGhosts S bcp nodeW nodeH keyFn input st = some (.ok p)) :
    p.nodes.Pairwise (fun a b => a.depth = b.depth →
      a.x + a.h / 2 + jsOr S.ALT_GAP 0 ≤ b.x - b.h / 2) := by
  obtain ⟨t, hp, _⟩ :=
    layoutLinear_tree_of tanDeg includeGhosts S bcp nodeW nodeH keyFn input st p hin hr
  subst hp
  exact (layoutLinearTree_sky tanDeg S bcp nodeW nodeH keyFn t hgap).1

/-- Column clearance on the root with three leaf children. -/
theorem layoutLinear_columns_clear_witness :
    (layoutLinearTree exTanOne exSettings45 none exNodeW exNodeH none
        (hierarchy exFan3)).nodes.Pairwise (fun a b => a.depth = b.depth →
      a.x + a.h / 2 + jsOr exSettings45.ALT_GAP 0 ≤ b.x - b.h / 2) :=
  layoutLinear_columns_clear exTanOne true exSettings45 none exNodeW exNodeH none
    (.tree (hierarchy exFan3)) {} _ (by decide!) (Or.inl ⟨exFan3, rfl⟩) rfl

/-- C29 fails on the code. For the root with three leaf children (sizes 50 × 70,
`ALT_GAP = 45`) the profile of the root has `bottom = [35, 195]`, but the third child is
placed at `x = 230` and so reaches down to `265`, below `0 + 195`. -/
theorem profile_bottom_counterexample :
    (buildProfiles exSettings45 exNodeW exNodeH none (hierarchy exFan3)).profile.bottom =
      [35, 195] ∧
    ((layoutLinearTree exTanOne exSettings45 none exNodeW exNodeH none
        (hierarchy exFan3)).nodes.map (fun n => (n.key, n.depth, n.x, n.x + n.h / 2))) =
      [("r", 0, 0, 35), ("r␟a", 1, 0, 35), ("r␟b", 1, 115, 150), ("r␟c", 1, 230, 265)] := by
  refine ⟨by decide!, by decide!⟩

/-- C29 as the code has it: the profile bounds the placement from above only.  For every
call `placeSubtree(n, baseY, absDepth)` on a node of a `d3.hierarchy` tree annotated by
`buildProfiles` with `ALT_GAP ≥ 0` (the node is then placed at `x = baseY`), every node `d`
the call pushes — the node and its descendants — lies in a column `j < span` of the profile
of `n` and has `baseY + top[j] ≤ d.x − d.h/2`. -/
theorem profile_top_bounds (S : Settings) (tanMax : Option ℚ) (getKey : HNode → String)
    (firstGap : ℚ) (bcp : Option (HNode → Option Nat)) (nodeW nodeH : HNode → JSNum)
    (t : Nested) (d : Nat) (baseY shift : ℚ) (st : LinState) (hgap : 0 ≤ jsOr S.ALT_GAP 0) :
    ∃ N : List PlacedNode,
      (placeSubtree S tanMax getKey firstGap (buildProfiles S nodeW nodeH bcp (hierarchyAt d t))
        baseY d shift st).placed.nodes = st.placed.nodes ++ N ∧
      ∀ q ∈ N, ∃ j : Nat, q.depth = ((d + j : Nat) : Int) ∧
        j < (buildProfiles S nodeW nodeH bcp (hierarchyAt d t)).profile.span ∧
        baseY + (buildProfiles S nodeW nodeH bcp (hierarchyAt d t)).profile.top.getD j 0 ≤
          q.x - q.h / 2 :=
  placeSubtree_belowTop S tanMax getKey firstGap _ baseY d shift st
    (buildProfiles_wf S nodeW nodeH bcp hgap t d)

/-- Witness for the amended C29: the root with three leaf children, placed from the empty
state. -/
theorem profile_top_bounds_witness :
    ∃ N : List PlacedNode,
      (placeSubtree exSettings45 (some 1) defaultKey 150
        (buildProfiles exSettings45 exNodeW exNodeH none (hierarchyAt 0 exFan3))
        0 0 0 {}).placed.nodes = ({} : LinState).placed.nodes ++ N ∧
      ∀ q ∈ N, ∃ j : Nat, q.depth = ((0 + j : Nat) : Int) ∧
        j < (buildProfiles exSettings45 exNodeW exNodeH none (hierarchyAt 0 exFan3)).profile.span ∧
        0 + (buildProfiles exSettings45 exNodeW exNodeH none
            (hierarchyAt 0 exFan3)).profile.top.getD j 0 ≤ q.x - q.h / 2 :=
  profile_top_bounds exSettings45 (some 1) defaultKey 150 none exNodeW exNodeH exFan3 0 0 0 {}
    (by decide!)

/-! ## Linear layout: keys -/

theorem keys_trans {a b c : List PlacedNode} {k j : List String}
    (h1 : (b.map (fun n => n.key)).Perm (a.map (fun n => n.key) ++ k))
    (h2 : (c.map (fun n => n.key)).Perm (b.map (fun n => n.key) ++ j)) :
    (c.map (fun n => n.key)).Perm (a.map (fun n => n.key) ++ (k ++ j)) := by
  refine h2.trans ?_
  rw [← List.append_assoc]
  exact List.Perm.append_right _ h1

theorem keys_congr {a c : List PlacedNode} {k1 k2 : List String} (hk : k1.Perm k2)
    (h1 : (c.map (fun n => n.key)).Perm (a.map (fun n => n.key) ++ k1)) :
    (c.map (fun n => n.key)).Perm (a.map (fun n => n.key) ++ k2) :=
  h1.trans (List.Perm.append_left _ hk)

/-- The two passes together place every child's subtree once. -/
theorem keysSel_perm (getKey : HNode → String) (main : Option Nat) :
    ∀ (cs : List LNode) (k : Nat),
      (LNode.keysSel getKey true main k cs ++ LNode.keysSel getKey false main k cs).Perm
        (LNode.keysList getKey cs) := by
  intro cs
  induction cs with
  | nil => intro k; simp [LNode.keysSel, LNode.keysList]
  | cons c cs ih =>
    intro k
    simp only [LNode.keysSel, LNode.keysList]
    by_cases hm : main = some k
    · simp only [hm, decide_True, if_true, Bool.true_eq_false, if_false, List.nil_append,
        List.append_assoc]
      exact List.Perm.append_left _ (by simpa [hm] using ih (k + 1))
    · simp only [hm, decide_False, Bool.false_eq_true, if_false, if_true, List.nil_append]
      refine List.Perm.trans ?_ (List.Perm.append_left _ (ih (k + 1)))
      rw [← List.append_assoc, ← List.append_assoc]
      exact List.Perm.append_right _ List.perm_append_comm

mutual
/-- The keys of the nodes pushed by `placeSubtree(n, ...)` are the keys of the nodes of
`n`, each once. -/
theorem placeSubtree_keys (S : Settings) (tanMax : Option ℚ) (getKey : HNode → String)
    (firstGap : ℚ) :
    ∀ (n : LNode) (baseY : ℚ) (absDepth : Nat) (shift : ℚ) (st : LinState),
      ((placeSubtree S tanMax getKey firstGap n baseY absDepth shift st).placed.nodes.map
        (fun n => n.key)).Perm (st.placed.nodes.map (fun n => n.key) ++ n.keys getKey)
  | .mk node w0 h0 main offsets prof down kids, baseY, absDepth, shift, st => by
    simp only [placeSubtree, LNode.keys]
    refine keys_congr ?_ (keys_trans (keys_trans (k := [getKey node]) ?_
      (placeKids_keys S tanMax getKey firstGap _ baseY absDepth shift true main kids 0
        offsets _))
      (placeKids_keys S tanMax getKey firstGap _ baseY absDepth shift false main kids 0
        offsets _))
    · simp only [List.singleton_append, List.cons_append, List.nil_append]
      exact List.Perm.cons _ (keysSel_perm getKey main kids 0)
    · simp
/-- The keys of the nodes pushed by one pass over the children. -/
theorem placeKids_keys (S : Settings) (tanMax : Option ℚ) (getKey : HNode → String)
    (firstGap : ℚ) (ppn : PlacedNode) (baseY : ℚ) (absDepth : Nat) (shift : ℚ)
    (mainPass : Bool) (main : Option Nat) :
    ∀ (cs : List LNode) (k : Nat) (offsets : List ℚ) (st : LinState),
      ((placeKids S tanMax getKey firstGap ppn baseY absDepth shift mainPass main k cs
        offsets st).placed.nodes.map (fun n => n.key)).Perm
        (st.placed.nodes.map (fun n => n.key) ++ LNode.keysSel getKey mainPass main k cs)
  | [], k, offsets, st => by
    simp [placeKids, LNode.keysSel]
  | c :: cs, k, offsets, st => by
    simp only [placeKids, LNode.keysSel]
    refine keys_trans ?_
      (placeKids_keys S tanMax getKey firstGap ppn baseY absDepth shift mainPass main cs
        (k + 1) offsets.tail _)
    split
    · simp only
      exact placeSubtree_keys S tanMax getKey firstGap c _ (absDepth + 1) _ _
    · simp
end

mutual
theorem buildProfiles_keys (S : Settings) (nodeW nodeH : HNode → JSNum)
    (bcp : Option (HNode → Option Nat)) (getKey : HNode → String) :
    ∀ n : HNode, (buildProfiles S nodeW nodeH bcp n).keys getKey = n.keys getKey
  | .mk i cs => by
    simp only [buildProfiles, LNode.keys, HNode.keys]
    rw [buildProfilesList_keys S nodeW nodeH bcp getKey cs]
theorem buildProfilesList_keys (S : Settings) (nodeW nodeH : HNode → JSNum)
    (bcp : Option (HNode → Option Nat)) (getKey : HNode → String) :
    ∀ cs : List HNode,
      LNode.keysList getKey (buildProfilesList S nodeW nodeH bcp cs) = HNode.keysList getKey cs
  | [] => by simp [buildProfilesList, LNode.keysList, HNode.keysList]
  | c :: cs => by
    simp only [buildProfilesList, LNode.keysList, HNode.keysList]
    rw [buildProfiles_keys S nodeW nodeH bcp getKey c,
      buildProfilesList_keys S nodeW nodeH bcp getKey cs]
end

/-- C21 fails on the code. The two input nodes have the distinct paths `a` and `a, x`; the
ghost made for the continuation `x` of the first gets the path `a, x` too, so two placed
nodes have the key `a␟x`. -/
theorem layoutLinear_ghost_key_clash :
    ((layoutLinear exTanOne true {} none exNodeW exNodeH (some vizKey)
        (.graph exGhostClash) {}).bind (fun r => r.toOption)).map
      (fun p => p.nodes.map (fun n => (n.key, linkGhost n.data))) =
      some [("a", false), ("a␟x", false), ("a␟x", true)] := by
  decide!

/-- What `layoutLinear` does with keys: it places every node of the tree once, under the
key the key function gives it, so the placed keys are pairwise distinct exactly when the
keys of the nodes of the tree — the input nodes reached from the root and the ghosts
injected under them — are pairwise distinct. -/
theorem layoutLinear_keys (tanDeg : ℚ → ℚ) (includeGhosts : Bool)
    (S : Settings) (bcp : Option (HNode → Option Nat)) (nodeW nodeH : HNode → JSNum)
    (keyFn : Option (HNode → String)) (input : LinearInput) (st p : Placed)
    (hin : (∃ t, input = .tree (hierarchy t)) ∨ (∃ g, input = .graph g))
    (hr : layoutLinear tanDeg includeGhosts S bcp nodeW nodeH keyFn input st = some (.ok p)) :
    ∃ mat : HNode,
      (input = .tree mat ∨
        ∃ g, input = .graph g ∧ graphV1ToHierarchy g includeGhosts = some (.ok mat)) ∧
      (p.nodes.map (fun n => n.key)).Perm (mat.keys (keyFn.getD defaultKey)) ∧
      ((p.nodes.map (fun n => n.key)).Nodup ↔ (mat.keys (keyFn.getD defaultKey)).Nodup) := by
  obtain ⟨t, hp, hmat⟩ :=
    layoutLinear_tree_of tanDeg includeGhosts S bcp nodeW nodeH keyFn input st p hin hr
  subst hp
  have hperm : ((layoutLinearTree tanDeg S bcp nodeW nodeH keyFn (hierarchy t)).nodes.map
      (fun n => n.key)).Perm ((hierarchy t).keys (keyFn.getD defaultKey)) := by
    have := placeSubtree_keys S (tanMaxOf tanDeg S.ANG_MAX_DEG) (keyFn.getD defaultKey)
      (max (jsOr S.GAP_X 0) (_clampDim (.fin (match buildProfiles S nodeW nodeH bcp (hierarchy t) with
        | .mk _ w _ _ _ _ _ _ => w)) + 100))
      (buildProfiles S nodeW nodeH bcp (hierarchy t)) 0 0 0 {}
    rw [buildProfiles_keys] at this
    simpa [layoutLinearTree] using this
  exact ⟨hierarchy t, hmat, hperm, hperm.nodup_iff⟩

/-- The placed keys of the root with three leaf children. -/
theorem layoutLinear_keys_witness :
    ∃ mat : HNode,
      ((LinearInput.tree (hierarchy exFan3) = .tree mat) ∨
        ∃ g, LinearInput.tree (hierarchy exFan3) = .graph g ∧
          graphV1ToHierarchy g true = some (.ok mat)) ∧
      ((layoutLinearTree exTanOne exSettings45 none exNodeW exNodeH none
          (hierarchy exFan3)).nodes.map (fun n => n.key)).Perm
        (mat.keys ((none : Option (HNode → String)).getD defaultKey)) ∧
      (((layoutLinearTree exTanOne exSettings45 none exNodeW exNodeH none
          (hierarchy exFan3)).nodes.map (fun n => n.key)).Nodup ↔
        (mat.keys ((none : Option (HNode → String)).getD defaultKey)).Nodup) :=
  layoutLinear_keys exTanOne true exSettings45 none exNodeW exNodeH none
    (.tree (hierarchy exFan3)) {} _ (Or.inl ⟨exFan3, rfl⟩) rfl

/-! ## Rank-based layout: the fan/anchor repair -/

theorem find_unique {p : PlacedNode → Bool} {l : List PlacedNode} {s : PlacedNode}
    (hs : s ∈ l) (hp : p s = true) (hu : ∀ m ∈ l, p m = true → m = s) :
    l.find? p = some s := by
  cases h : l.find? p with
  | none =>
    rw [List.find?_eq_none] at h
    exact absurd hp (h s hs)
  | some m =>
    rw [hu m (List.mem_of_find?_eq_some h) (List.find?_some h)]

theorem find_none_of {p : PlacedNode → Bool} {l : List PlacedNode}
    (h : ∀ m ∈ l, p m = true → False) : l.find? p = none := by
  rw [List.find?_eq_none]
  intro m hm hp
  exact h m hm hp

/-- Two non-overlapping nodes of width and height at least 8 cannot both have their right
edge and their line within 1 of the same point. -/
theorem sep_right {nodes : List PlacedNode} (hov : NoOverlap nodes)
    (hsize : ∀ n ∈ nodes, 8 ≤ n.w ∧ 8 ≤ n.h) {a b : PlacedNode} (ha : a ∈ nodes)
    (hb : b ∈ nodes) {X Y : ℚ} (h1 : |a.y + a.w - X| < 1) (h2 : |a.x - Y| < 1)
    (h3 : |b.y + b.w - X| < 1) (h4 : |b.x - Y| < 1) : a = b := by
  by_contra hne
  have ha8 := hsize a ha
  have hb8 := hsize b hb
  rw [abs_lt] at h1 h2 h3 h4
  rcases hov a ha b hb hne with h | h | h | h <;> linarith [ha8.1, ha8.2, hb8.1, hb8.2, h1.1,
    h1.2, h2.1, h2.2, h3.1, h3.2, h4.1, h4.2]

/-- The same for the left edge. -/
theorem sep_left {nodes : List PlacedNode} (hov : NoOverlap nodes)
    (hsize : ∀ n ∈ nodes, 8 ≤ n.w ∧ 8 ≤ n.h) {a b : PlacedNode} (ha : a ∈ nodes)
    (hb : b ∈ nodes) {X Y : ℚ} (h1 : |a.y - X| < 1) (h2 : |a.x - Y| < 1)
    (h3 : |b.y - X| < 1) (h4 : |b.x - Y| < 1) : a = b := by
  by_contra hne
  have ha8 := hsize a ha
  have hb8 := hsize b hb
  rw [abs_lt] at h1 h2 h3 h4
  rcases hov a ha b hb hne with h | h | h | h <;> linarith [ha8.1, ha8.2, hb8.1, hb8.2, h1.1,
    h1.2, h2.1, h2.2, h3.1, h3.2, h4.1, h4.2]

/-- With pairwise distinct keys, `fanKeys` holds the key of a node exactly when the node
is a fan node. -/
theorem fanKeys_contains (nodes : List PlacedNode)
    (hkeys : (nodes.map (fun n => n.key)).Nodup) (n : PlacedNode) (hn : n ∈ nodes) :
    (fanKeysOf nodes).contains n.key = isFanNode n := by
  have hinj := List.inj_on_of_nodup_map hkeys
  cases hf : isFanNode n with
  | true =>
    simp only [List.contains_eq_any_beq, List.any_eq_true, beq_iff_eq]
    exact ⟨n.key, by
      unfold fanKeysOf
      exact List.mem_map.2 ⟨n, List.mem_filter.2 ⟨hn, hf⟩, rfl⟩, rfl⟩
  | false =>
    rw [Bool.eq_false_iff]
    intro hc
    simp only [List.contains_eq_any_beq, List.any_eq_true, beq_iff_eq] at hc
    obtain ⟨k, hk, hkn⟩ := hc
    unfold fanKeysOf at hk
    obtain ⟨m, hm, hmk⟩ := List.mem_map.1 hk
    obtain ⟨hm1, hm2⟩ := List.mem_filter.1 hm
    have : m = n := hinj hm1 hn (by rw [hmk, hkn])
    subst this
    rw [hf] at hm2
    exact Bool.noConfusion hm2

/-- The first loop finds the source of a link by its coordinates. -/
theorem find_src {nodes : List PlacedNode} (hov : NoOverlap nodes)
    (hsize : ∀ n ∈ nodes, 8 ≤ n.w ∧ 8 ≤ n.h) {l : PlacedLink} {s t : PlacedNode}
    (hj : Joined nodes l s t) :
    nodes.find? (fun n => decide (|n.y + n.w - l.sx| < 1) && decide (|n.x - l.sy| < 1)) =
      some s := by
  obtain ⟨hs, _, _, _, hsx, hsy, _, _⟩ := hj
  apply find_unique hs
  · simp [hsx, hsy]
  · intro m hm hp
    simp only [Bool.and_eq_true, decide_eq_true_eq] at hp
    exact sep_right hov hsize hm hs hp.1 hp.2 (by simp [hsx]) (by simp [hsy])

/-- The first loop finds the target of a link by its coordinates. -/
theorem find_dst {nodes : List PlacedNode} (hov : NoOverlap nodes)
    (hsize : ∀ n ∈ nodes, 8 ≤ n.w ∧ 8 ≤ n.h) {l : PlacedLink} {s t : PlacedNode}
    (hj : Joined nodes l s t) :
    nodes.find? (fun n => decide (|n.y - l.tx| < 1) && decide (|n.x - l.ty| < 1)) =
      some t := by
  obtain ⟨_, ht, _, _, _, _, htx, hty⟩ := hj
  apply find_unique ht
  · simp [htx, hty]
  · intro m hm hp
    simp only [Bool.and_eq_true, decide_eq_true_eq] at hp
    exact sep_left hov hsize hm ht hp.1 hp.2 (by simp [htx]) (by simp [hty])

/-- `maxRequiredShift` is at least the shift any link asks for. -/
theorem maxRequiredShiftOf_ge (tanMax : ℚ) (nodes : List PlacedNode) (fanKeys : List String)
    (links : List PlacedLink) (l : PlacedLink) (hl : l ∈ links) (r : ℚ)
    (hr : requiredShiftOf tanMax nodes fanKeys l = some r) :
    r ≤ maxRequiredShiftOf tanMax nodes fanKeys links := by
  unfold maxRequiredShiftOf
  have key : ∀ (ls : List PlacedLink) (m : ℚ),
      m ≤ ls.foldl (fun m link =>
        match requiredShiftOf tanMax nodes fanKeys link with
        | some r => if m < r then r else m
        | none => m) m ∧
      (l ∈ ls → r ≤ ls.foldl (fun m link =>
        match requiredShiftOf tanMax nodes fanKeys link with
        | some r => if m < r then r else m
        | none => m) m) := by
    intro ls
    induction ls with
    | nil => intro m; exact ⟨le_refl _, by simp⟩
    | cons x ls ih =>
      intro m
      simp only [List.foldl_cons]
      have hstep : m ≤ (match requiredShiftOf tanMax nodes fanKeys x with
          | some r => if m < r then r else m
          | none => m) := by
        split
        · split
          · linarith
          · exact le_refl _
        · exact le_refl _
      constructor
      · exact le_trans hstep (ih _).1
      · intro hmem
        rcases List.mem_cons.1 hmem with rfl | hmem
        · refine le_trans ?_ (ih _).1
          rw [hr]
          simp only
          split
          · exact le_refl _
          · linarith
        · exact (ih _).2 hmem
  exact (key links 0).2 hl
theorem shiftFan_fields (fk : List String) (tot : ℚ) (n : PlacedNode) :
    (shiftFan fk tot n).key = n.key ∧ (shiftFan fk tot n).x = n.x ∧
    (shiftFan fk tot n).w = n.w ∧ (shiftFan fk tot n).h = n.h ∧
    (shiftFan fk tot n).data = n.data ∧
    (shiftFan fk tot n).y = if fk.contains n.key then n.y - tot else n.y := by
  unfold shiftFan
  split <;> simp [*]

theorem isFanNode_shiftFan (fk : List String) (tot : ℚ) (n : PlacedNode) :
    isFanNode (shiftFan fk tot n) = isFanNode n := by
  unfold isFanNode
  rw [(shiftFan_fields fk tot n).2.2.2.2.1]

/-- After the shift, the search for a shifted fan node at the source end of a link finds
the link's source if that is a fan node, and nothing otherwise. -/
theorem find_shift_right {nodes : List PlacedNode} {fk : List String} (tot : ℚ)
    (hK : ∀ n ∈ nodes, fk.contains n.key = isFanNode n) (hov : NoOverlap nodes)
    (hsize : ∀ n ∈ nodes, 8 ≤ n.w ∧ 8 ≤ n.h) {s : PlacedNode} (hs : s ∈ nodes) {X Y : ℚ}
    (hX : X = s.y + s.w) (hY : Y = s.x) :
    (nodes.map (shiftFan fk tot)).find? (fun n => fk.contains n.key &&
        decide (|n.y + n.w - (X - tot)| < 1) && decide (|n.x - Y| < 1)) =
      if isFanNode s = true then some (shiftFan fk tot s) else none := by
  have hmatch : ∀ m0 ∈ nodes, (fk.contains (shiftFan fk tot m0).key &&
      decide (|(shiftFan fk tot m0).y + (shiftFan fk tot m0).w - (X - tot)| < 1) &&
      decide (|(shiftFan fk tot m0).x - Y| < 1)) = true → m0 = s ∧ isFanNode s = true := by
    intro m0 hm0 hp
    obtain ⟨hk, hx, hw, _, _, hy⟩ := shiftFan_fields fk tot m0
    simp only [Bool.and_eq_true, decide_eq_true_eq, hk, hx, hw, hy] at hp
    obtain ⟨⟨hc, h1⟩, h2⟩ := hp
    rw [if_pos hc] at h1
    have h1' : |m0.y + m0.w - X| < 1 := by
      have : m0.y - tot + m0.w - (X - tot) = m0.y + m0.w - X := by ring
      rw [this] at h1; exact h1
    have : m0 = s := sep_right hov hsize hm0 hs h1' h2 (by simp [hX]) (by simp [hY])
    subst this
    exact ⟨rfl, by rw [← hK m0 hm0]; exact hc⟩
  by_cases hf : isFanNode s = true
  · rw [if_pos hf]
    apply find_unique (List.mem_map_of_mem _ hs)
    · obtain ⟨hk, hx, hw, _, _, hy⟩ := shiftFan_fields fk tot s
      have hc : fk.contains s.key = true := by rw [hK s hs]; exact hf
      simp only [Bool.and_eq_true, decide_eq_true_eq, hk, hx, hw, hy, hc, if_true, true_and]
      constructor
      · have : s.y - tot + s.w - (X - tot) = 0 := by rw [hX]; ring
        rw [this]; simp
      · rw [hY]; simp
    · intro m hm hp
      obtain ⟨m0, hm0, rfl⟩ := List.mem_map.1 hm
      rw [(hmatch m0 hm0 hp).1]
  · rw [if_neg hf]
    apply find_none_of
    intro m hm hp
    obtain ⟨m0, hm0, rfl⟩ := List.mem_map.1 hm
    exact hf (hmatch m0 hm0 hp).2

/-- The same at the target end of a link. -/
theorem find_shift_left {nodes : List PlacedNode} {fk : List String} (tot : ℚ)
    (hK : ∀ n ∈ nodes, fk.contains n.key = isFanNode n) (hov : NoOverlap nodes)
    (hsize : ∀ n ∈ nodes, 8 ≤ n.w ∧ 8 ≤ n.h) {t : PlacedNode} (ht : t ∈ nodes) {X Y : ℚ}
    (hX : X = t.y) (hY : Y = t.x) :
    (nodes.map (shiftFan fk tot)).find? (fun n => fk.contains n.key &&
        decide (|n.y - (X - tot)| < 1) && decide (|n.x - Y| < 1)) =
      if isFanNode t = true then some (shiftFan fk tot t) else none := by
  have hmatch : ∀ m0 ∈ nodes, (fk.contains (shiftFan fk tot m0).key &&
      decide (|(shiftFan fk tot m0).y - (X - tot)| < 1) &&
      decide (|(shiftFan fk tot m0).x - Y| < 1)) = true → m0 = t ∧ isFanNode t = true := by
    intro m0 hm0 hp
    obtain ⟨hk, hx, hw, _, _, hy⟩ := shiftFan_fields fk tot m0
    simp only [Bool.and_eq_true, decide_eq_true_eq, hk, hx, hy] at hp
    obtain ⟨⟨hc, h1⟩, h2⟩ := hp
    rw [if_pos hc] at h1
    have h1' : |m0.y - X| < 1 := by
      have : m0.y - tot - (X - tot) = m0.y - X := by ring
      rw [this] at h1; exact h1
    have : m0 = t := sep_left hov hsize hm0 ht h1' h2 (by simp [hX]) (by simp [hY])
    subst this
    exact ⟨rfl, by rw [← hK m0 hm0]; exact hc⟩
  by_cases hf : isFanNode t = true
  · rw [if_pos hf]
    apply find_unique (List.mem_map_of_mem _ ht)
    · obtain ⟨hk, hx, hw, _, _, hy⟩ := shiftFan_fields fk tot t
      have hc : fk.contains t.key = true := by rw [hK t ht]; exact hf
      simp only [Bool.and_eq_true, decide_eq_true_eq, hk, hx, hy, hc, if_true, true_and]
      constructor
      · have : t.y - tot - (X - tot) = 0 := by rw [hX]; ring
        rw [this]; simp
      · rw [hY]; simp
    · intro m hm hp
      obtain ⟨m0, hm0, rfl⟩ := List.mem_map.1 hm
      rw [(hmatch m0 hm0 hp).1]
  · rw [if_neg hf]
    apply find_none_of
    intro m hm hp
    obtain ⟨m0, hm0, rfl⟩ := List.mem_map.1 hm
    exact hf (hmatch m0 hm0 hp).2

/-- After the shift every link is re-resolved to the shifted positions of its nodes. -/
theorem relinkFan_joined {nodes : List PlacedNode} {fk : List String} (tot : ℚ)
    (hK : ∀ n ∈ nodes, fk.contains n.key = isFanNode n) (hov : NoOverlap nodes)
    (hsize : ∀ n ∈ nodes, 8 ≤ n.w ∧ 8 ≤ n.h) {l : PlacedLink} {s t : PlacedNode}
    (hj : Joined nodes l s t) :
    Joined (nodes.map (shiftFan fk tot)) (relinkFan (nodes.map (shiftFan fk tot)) fk tot l)
      (shiftFan fk tot s) (shiftFan fk tot t) := by
  obtain ⟨hs, ht, hsk, htk, hsx, hsy, htx, hty⟩ := hj
  obtain ⟨hks, hxs, hws, _, _, hys⟩ := shiftFan_fields fk tot s
  obtain ⟨hkt, hxt, hwt, _, _, hyt⟩ := shiftFan_fields fk tot t
  have hcs := hK s hs
  have hct := hK t ht
  unfold relinkFan
  rw [find_shift_right tot hK hov hsize hs hsx hsy]
  refine ⟨List.mem_map_of_mem _ hs, List.mem_map_of_mem _ ht, ?_⟩
  by_cases hfs : isFanNode s = true
  · simp only [if_pos hfs]
    rw [find_shift_left tot hK hov hsize ht htx hty]
    by_cases hft : isFanNode t = true
    · simp only [if_pos hft]
      exact ⟨by rw [hks]; exact hsk, by rw [hkt]; exact htk, trivial, by rw [hxs]; exact hsy,
        trivial, by rw [hxt]; exact hty⟩
    · simp only [if_neg hft]
      have : fk.contains t.key = false := by rw [hct]; simpa using hft
      exact ⟨by rw [hks]; exact hsk, by rw [hkt]; exact htk, trivial, by rw [hxs]; exact hsy,
        by rw [hyt, this]; simpa using htx, by rw [hxt]; exact hty⟩
  · simp only [if_neg hfs]
    have hcsf : fk.contains s.key = false := by rw [hcs]; simpa using hfs
    rw [find_shift_left tot hK hov hsize ht htx hty]
    by_cases hft : isFanNode t = true
    · simp only [if_pos hft]
      exact ⟨by rw [hks]; exact hsk, by rw [hkt]; exact htk,
        by rw [hys, hws, hcsf]; simpa using hsx, by rw [hxs]; exact hsy, trivial,
        by rw [hxt]; exact hty⟩
    · simp only [if_neg hft]
      have : fk.contains t.key = false := by rw [hct]; simpa using hft
      exact ⟨by rw [hks]; exact hsk, by rw [hkt]; exact htk,
        by rw [hys, hws, hcsf]; simpa using hsx, by rw [hxs]; exact hsy,
        by rw [hyt, this]; simpa using htx, by rw [hxt]; exact hty⟩

/-- The shift a fan → anchor link asks for in the first loop. -/
theorem requiredShiftOf_fan_anchor {nodes : List PlacedNode} (T : ℚ)
    (hkeys : (nodes.map (fun n => n.key)).Nodup) (hov : NoOverlap nodes)
    (hsize : ∀ n ∈ nodes, 8 ≤ n.w ∧ 8 ≤ n.h) {l : PlacedLink} {s t : PlacedNode}
    (hj : Joined nodes l s t) (hfs : isFanNode s = true) (hft : isFanNode t = false)
    (hlt : l.tx - l.sx < |l.ty - l.sy| / T) :
    requiredShiftOf T nodes (fanKeysOf nodes) l = some (|l.ty - l.sy| / T - (l.tx - l.sx)) := by
  unfold requiredShiftOf
  rw [find_src hov hsize hj, find_dst hov hsize hj]
  simp only [fanKeys_contains nodes hkeys s hj.1, fanKeys_contains nodes hkeys t hj.2.1, hfs,
    hft, Bool.not_false, Bool.and_self, if_true, if_pos hlt]

/-- C28. For a rank-based placement whose nodes have pairwise distinct keys, width and
height at least 8 and pairwise non-overlapping rectangles, and whose links carry the
positions of the nodes they join, and for a maximum angle with positive tangent (as for
`0 < ANG_MAX_DEG < 90`): after `_enforceFanAnchorSpacing` every link joins two placed nodes
`s`, `t` with `sx = s.y + s.w`, `sy = s.x`, `tx = t.y`, `ty = t.x`, and if `s` is a fan node
and `t` an anchor node then `t.y − (s.y + s.w) ≥ |t.x − s.x| / tan(ANG_MAX_DEG)`. -/
theorem enforceFanAnchorSpacing_angle (tanDeg : ℚ → ℚ) (S : Settings) (deg : ℚ) (st : Placed)
    (hdeg : S.ANG_MAX_DEG = .fin deg) (_hT : 0 < tanDeg deg)
    (hkeys : (st.nodes.map (fun n => n.key)).Nodup)
    (hsize : ∀ n ∈ st.nodes, 8 ≤ n.w ∧ 8 ≤ n.h) (hov : NoOverlap st.nodes)
    (hlinks : ∀ l ∈ st.links, ∃ s t, Joined st.nodes l s t) :
    ∀ l ∈ (_enforceFanAnchorSpacing tanDeg (some S) st).links, ∃ s t,
      Joined (_enforceFanAnchorSpacing tanDeg (some S) st).nodes l s t ∧
      (isFanNode s = true → isFanNode t = false →
        |t.x - s.x| / tanDeg deg ≤ t.y - (s.y + s.w)) := by
  have hK := fanKeys_contains st.nodes hkeys
  intro l1 hl1
  unfold _enforceFanAnchorSpacing at hl1 ⊢
  simp only [hdeg] at hl1 ⊢
  by_cases hpos : 0 < maxRequiredShiftOf (tanDeg deg) st.nodes (fanKeysOf st.nodes) st.links
  · simp only [if_pos hpos] at hl1 ⊢
    obtain ⟨l, hl, rfl⟩ := List.mem_map.1 hl1
    obtain ⟨s, t, hj⟩ := hlinks l hl
    refine ⟨shiftFan (fanKeysOf st.nodes)
        (maxRequiredShiftOf (tanDeg deg) st.nodes (fanKeysOf st.nodes) st.links + 20) s,
      shiftFan (fanKeysOf st.nodes)
        (maxRequiredShiftOf (tanDeg deg) st.nodes (fanKeysOf st.nodes) st.links + 20) t,
      relinkFan_joined _ hK hov hsize hj, ?_⟩
    intro hfs hft
    rw [isFanNode_shiftFan] at hfs hft
    obtain ⟨_, hxs, hws, _, _, hys⟩ := shiftFan_fields (fanKeysOf st.nodes)
      (maxRequiredShiftOf (tanDeg deg) st.nodes (fanKeysOf st.nodes) st.links + 20) s
    obtain ⟨_, hxt, _, _, _, hyt⟩ := shiftFan_fields (fanKeysOf st.nodes)
      (maxRequiredShiftOf (tanDeg deg) st.nodes (fanKeysOf st.nodes) st.links + 20) t
    have hcs : (fanKeysOf st.nodes).contains s.key = true := by rw [hK s hj.1]; exact hfs
    have hct : (fanKeysOf st.nodes).contains t.key = false := by rw [hK t hj.2.1]; exact hft
    rw [hxs, hxt, hws, hys, hyt, hcs, hct]
    simp only [if_true, Bool.false_eq_true, if_false]
    obtain ⟨_, _, _, _, hsx, hsy, htx, hty⟩ := hj
    by_cases hlt : l.tx - l.sx < |l.ty - l.sy| / tanDeg deg
    · have hreq := requiredShiftOf_fan_anchor (tanDeg deg) hkeys hov hsize
        ⟨by assumption, by assumption, by assumption, by assumption, hsx, hsy, htx, hty⟩
        hfs hft hlt
      have hge := maxRequiredShiftOf_ge (tanDeg deg) st.nodes (fanKeysOf st.nodes) st.links l hl
        _ hreq
      rw [hsx, hsy, htx, hty] at hge
      linarith
    · rw [hsx, hsy, htx, hty] at hlt
      linarith
  · simp only [if_neg hpos] at hl1 ⊢
    obtain ⟨s, t, hj⟩ := hlinks l1 hl1
    refine ⟨s, t, hj, ?_⟩
    intro hfs hft
    by_contra hcon
    have hlt : l1.tx - l1.sx < |l1.ty - l1.sy| / tanDeg deg := by
      obtain ⟨_, _, _, _, hsx, hsy, htx, hty⟩ := hj
      rw [hsx, hsy, htx, hty]
      linarith
    have hreq := requiredShiftOf_fan_anchor (tanDeg deg) hkeys hov hsize hj hfs hft hlt
    have hge := maxRequiredShiftOf_ge (tanDeg deg) st.nodes (fanKeysOf st.nodes) st.links l1
      hl1 _ hreq
    linarith

/-- Witness for C28: the fan node at the origin and the anchor node 100 below it; the link
between them after the repair. -/
theorem enforceFanAnchorSpacing_angle_witness :
    ∃ s t,
      Joined (_enforceFanAnchorSpacing exTanOne (some { ANG_MAX_DEG := .fin 45 })
        exFanPlaced).nodes
        { sx := -70, sy := 0, tx := 50, ty := 100, ghost := false, p := .fin 1
          skey := some "F", tkey := some "A" } s t ∧
      (isFanNode s = true → isFanNode t = false →
        |t.x - s.x| / exTanOne 45 ≤ t.y - (s.y + s.w)) :=
  enforceFanAnchorSpacing_angle exTanOne { ANG_MAX_DEG := .fin 45 } 45 exFanPlaced rfl
    (by decide!) (by decide) (by decide!) (by unfold NoOverlap; decide!)
    (by
      intro l hl
      simp only [exFanPlaced, List.mem_singleton] at hl
      subst hl
      exact ⟨{ x := 0, y := 0, w := 10, h := 10
               data := some { id := .str "F", is_root := true }, depth := 0, key := "F" },
        { x := 100, y := 50, w := 10, h := 10, data := some { id := .str "A" }
          depth := 1, key := "A" },
        by decide!, by decide!, rfl, rfl, by decide!, by decide!, by decide!, by decide!⟩)
    { sx := -70, sy := 0, tx := 50, ty := 100, ghost := false, p := .fin 1
      skey := some "F", tkey := some "A" } (by decide!)

end UncriticalFabulation
